import Mathlib

/-!
Shallow embedding of the CPU-scheduling simulator of `functions.h` / `main.c`
(preemptive Round-Robin, Modified FCFS with aging, non-preemptive SJF),
together with proofs about the scheduling engine, the Gantt recorder and the
metrics calculator.

Modelling conventions:
* C `int` values are modelled as `Int`.
* the C `double` score of the aging policy is modelled as `ℚ`; every score the
  program computes is an exact integer multiple of `1/2`, so exact rational
  arithmetic agrees with the IEEE `double` computation on all realistic inputs.
* the 0/1 flag fields `started` / `completed` are modelled as `Bool`.
* each `while` loop is modelled as a step function iterated by a fuel-indexed
  runner returning `none` when the fuel runs out; a run returning `some`
  corresponds exactly to a terminating execution of the C loop.
* the Gantt array (append-at-the-end, occasionally extending its last entry)
  is modelled as a `List GanttBlock` in chronological order.
* the Round-Robin ready queue `queue[front..rear)` is modelled as the list of
  its live entries (dequeue = drop the head, enqueue = append at the tail);
  the extra field `rear` counts every write `queue[rear++]` ever performed,
  i.e. the C value of `rear`, so that index bounds of the writes are visible.
-/

/-- A process control block, mirroring `struct Process` in functions.h.
C `int` fields are `Int`; the 0/1 flags `started`/`completed` are `Bool`. -/
structure Process where
  pid : Int
  arrival_time : Int
  burst_time : Int
  priority : Int
  remaining_time : Int
  completion_time : Int
  turnaround_time : Int
  waiting_time : Int
  started : Bool
  completed : Bool
deriving Repr, DecidableEq

/-- One Gantt-chart entry, mirroring `struct GanttBlock` (pid = -1 for idle). -/
structure GanttBlock where
  pid : Int
  start_time : Int
  end_time : Int
deriving Repr, DecidableEq

/-- The all-zero process record, used as the default for out-of-range reads. -/
def procDefault : Process := ⟨0, 0, 0, 0, 0, 0, 0, 0, false, false⟩

/-- The four fields of a record that are loaded from the input file and that
no scheduling policy may change: pid, arrival time, burst time, priority. -/
def keyOf (p : Process) : Int × Int × Int × Int :=
  (p.pid, p.arrival_time, p.burst_time, p.priority)

/-- Record initialisation performed by `read_processes_from_file` for one
parsed row `(pid, arrival, burst, priority)`: `remaining_time` starts at the
burst time, all computed fields at 0, both flags clear. -/
def load_row (r : Int × Int × Int × Int) : Process :=
  ⟨r.1, r.2.1, r.2.2.1, r.2.2.2, r.2.2.1, 0, 0, 0, false, false⟩

/-- `copy_processes` in functions.h: an element-wise copy of the array; in the
functional model this is the identity on the list of records. -/
def copy_processes (source : List Process) : List Process := source

/-- `reset_processes` in functions.h: reset all computed fields before a run. -/
def reset_processes (ps : List Process) : List Process :=
  ps.map fun p =>
    { p with remaining_time := p.burst_time, completion_time := 0,
             turnaround_time := 0, waiting_time := 0,
             started := false, completed := false }

/-- Duration of one Gantt block. -/
def blockDuration (b : GanttBlock) : Int := b.end_time - b.start_time

/-- Sum of the durations of all recorded Gantt blocks. -/
def durSum (g : List GanttBlock) : Int := (g.map blockDuration).sum

/-- Total duration of the blocks owned by a given pid. -/
def busyDur (who : Int) (g : List GanttBlock) : Int :=
  durSum (g.filter fun b => b.pid == who)

/-- Chronological contiguity: each block's end is the next block's start. -/
def contiguous (g : List GanttBlock) : Prop :=
  List.Chain' (fun a b => a.end_time = b.start_time) g

/-- Coalescing property: no two adjacent blocks share an owner id. -/
def coalesced (g : List GanttBlock) : Prop :=
  List.Chain' (fun a b => a.pid ≠ b.pid) g

/-- Every recorded block has positive duration. -/
def positiveBlocks (g : List GanttBlock) : Prop :=
  ∀ b ∈ g, b.start_time < b.end_time

/-- The largest recorded completion time of the workspace (0 for no records). -/
def finalCompletionTime (ps : List Process) : Int :=
  (ps.map (·.completion_time)).foldl max 0

/-- Start time of the first recorded Gantt block (0 when the trace is empty). -/
def firstStartTime (g : List GanttBlock) : Int :=
  ((g.head?).map (·.start_time)).getD 0

/-- The Gantt recording discipline shared by both recording sites of
`preemptive_algorithm`: if the chart is non-empty, its last entry has the same
owner and its `end_time` equals the new start, that entry's `end_time` is
extended; otherwise a new block is appended.  (At the idle site the C code
writes `end_time = next_arrival`, at the busy site `end_time += run_for`;
under the guard `end_time == time` both equal the new end `e`.) -/
def ganttRecord (g : List GanttBlock) (who t e : Int) : List GanttBlock :=
  match g.getLast? with
  | some lastb =>
      if lastb.pid = who ∧ lastb.end_time = t then
        g.dropLast ++ [{ lastb with end_time := e }]
      else g ++ [⟨who, t, e⟩]
  | none => g ++ [⟨who, t, e⟩]

/-- The next-arrival scan shared (with different sentinel seeds) by all three
policies: the minimum `arrival_time` over not-completed processes with
`arrival_time > t` and `arrival_time <` the running minimum, folded over the
array; returns the seed when no such process exists. -/
def next_arrival_scan : List Process → Int → Int → Int
  | [], _, na => na
  | p :: rest, t, na =>
      next_arrival_scan rest t
        (if p.completed = false ∧ t < p.arrival_time ∧ p.arrival_time < na then
          p.arrival_time
        else na)

/-- `calculate_metrics` in functions.h: recompute `turnaround_time` and
`waiting_time` of every record, then return the updated records together with
the average waiting time and average turnaround time.  The C code divides by
`n` in `float`; the division is modelled as a fallible rational operation
returning `none` exactly when the process count is zero (in C that division by
zero produces no valid numeric result). -/
def calculate_metrics (ps : List Process) : Option (List Process × ℚ × ℚ) :=
  let upd := ps.map fun p =>
    { p with turnaround_time := p.completion_time - p.arrival_time,
             waiting_time := p.completion_time - p.arrival_time - p.burst_time }
  let total_wt : Int := (upd.map (·.waiting_time)).sum
  let total_tat : Int := (upd.map (·.turnaround_time)).sum
  if ps.length = 0 then none
  else some (upd, (total_wt : ℚ) / (ps.length : ℚ), (total_tat : ℚ) / (ps.length : ℚ))

/-- Pair every record with its array index, starting from `i`. -/
def indexed : Nat → List Process → List (Nat × Process)
  | _, [] => []
  | i, p :: rest => (i, p) :: indexed (i + 1) rest

/-- The aging score of `modified_FCFS_with_aging` at current time `t`:
`wait_time * AGING_WEIGHT - burst_time * BURST_WEIGHT - priority * PRIORITY_WEIGHT`
with weights 2.0, 0.5 (= 1/2) and 3.0. -/
def mfcfs_score (t : Int) (p : Process) : ℚ :=
  ((t - p.arrival_time : Int) : ℚ) * 2 - (p.burst_time : ℚ) * (1 / 2) - (p.priority : ℚ) * 3

/-- The selection loop of `modified_FCFS_with_aging`: scan the array keeping
the best (index, record) and its score.  A candidate must be not-completed and
already arrived.  It replaces the current best when `best_idx == -1` (modelled
by the `none` accumulator) or its score exceeds `best_score + 0.001`, or when
the scores differ by at most `0.001` and its arrival time is strictly earlier. -/
def mfcfs_pick : Int → List (Nat × Process) → Option (Nat × Process) → ℚ → Option (Nat × Process)
  | _, [], best, _ => best
  | t, (i, p) :: rest, best, bestScore =>
      if p.completed = false ∧ p.arrival_time ≤ t then
        match best with
        | none => mfcfs_pick t rest (some (i, p)) (mfcfs_score t p)
        | some (bi, bp) =>
            if bestScore + 1 / 1000 < mfcfs_score t p then
              mfcfs_pick t rest (some (i, p)) (mfcfs_score t p)
            else if |mfcfs_score t p - bestScore| ≤ 1 / 1000 ∧ p.arrival_time < bp.arrival_time then
              mfcfs_pick t rest (some (i, p)) (mfcfs_score t p)
            else
              mfcfs_pick t rest (some (bi, bp)) bestScore
      else mfcfs_pick t rest best bestScore

/-- Process selection of `modified_FCFS_with_aging` (`best_idx = -1`,
`best_score = -999999.0` initially; `none` models `best_idx == -1`). -/
def mfcfs_select (ps : List Process) (t : Int) : Option (Nat × Process) :=
  mfcfs_pick t (indexed 0 ps) none (-999999)

/-- The selection loop of `non_preemptive_algorithm_2` (SJF): scan the array
keeping the selected (index, record) and `shortest_burst` (seeded with the
sentinel 999999); a not-completed, already-arrived candidate is taken when its
burst time is strictly below the running minimum, or (tie, only when something
is already selected) when its burst time equals the running minimum and its
arrival time is strictly earlier. -/
def sjf_pick : Int → List (Nat × Process) → Option (Nat × Process) → Int → Option (Nat × Process)
  | _, [], sel, _ => sel
  | t, (i, p) :: rest, sel, shortest =>
      if p.completed = false ∧ p.arrival_time ≤ t then
        if p.burst_time < shortest then
          sjf_pick t rest (some (i, p)) p.burst_time
        else
          match sel with
          | some (si, sp) =>
              if p.burst_time = shortest ∧ p.arrival_time < sp.arrival_time then
                sjf_pick t rest (some (i, p)) shortest
              else sjf_pick t rest (some (si, sp)) shortest
          | none => sjf_pick t rest none shortest
      else sjf_pick t rest sel shortest

/-- Process selection of `non_preemptive_algorithm_2` (`selected = -1`,
`shortest_burst = 999999` initially). -/
def sjf_select (ps : List Process) (t : Int) : Option (Nat × Process) :=
  sjf_pick t (indexed 0 ps) none 999999

/-- Loop state of the two non-preemptive policies: the working array, the
simulated clock, the completed counter and the Gantt chart recorded so far. -/
structure NPState where
  procs : List Process
  time : Int
  completedCount : Nat
  gantt : List GanttBlock
deriving Repr, DecidableEq

/-- One iteration of the shared `while (completed < n)` body of
`modified_FCFS_with_aging` and `non_preemptive_algorithm_2` (they differ only
in the selection function): if selection fails, scan for the next arrival
(sentinel 999999) and either record an idle block `[time, next_arrival)` and
jump the clock, or (sentinel unchanged) do nothing; otherwise run the selected
process to completion, appending one busy block `[time, time + burst)`,
setting its completion time, marking it completed and advancing the clock. -/
def np_step (select : List Process → Int → Option (Nat × Process)) (s : NPState) : NPState :=
  match select s.procs s.time with
  | some (i, p) =>
      { procs := s.procs.set i { p with completion_time := s.time + p.burst_time, completed := true },
        time := s.time + p.burst_time,
        completedCount := s.completedCount + 1,
        gantt := s.gantt ++ [⟨p.pid, s.time, s.time + p.burst_time⟩] }
  | none =>
      let na := next_arrival_scan s.procs s.time 999999
      if na = 999999 then s
      else
        { s with gantt := s.gantt ++ [⟨-1, s.time, na⟩], time := na }

/-- Fuel-indexed runner for the non-preemptive loop `while (completed < n)`. -/
def np_run (select : List Process → Int → Option (Nat × Process)) :
    Nat → NPState → Option NPState
  | 0, _ => none
  | fuel + 1, s =>
      if s.completedCount < s.procs.length then np_run select fuel (np_step select s)
      else some s

/-- `modified_FCFS_with_aging` in functions.h, as a fuel-indexed function from
the working array to the final loop state (`current_time = 0`,
`completed = 0`, `*gantt_size = 0` initially). -/
def modified_FCFS_with_aging (fuel : Nat) (ps : List Process) : Option NPState :=
  np_run mfcfs_select fuel ⟨ps, 0, 0, []⟩

/-- `non_preemptive_algorithm_2` (non-preemptive SJF) in functions.h, as a
fuel-indexed function from the working array to the final loop state. -/
def non_preemptive_algorithm_2 (fuel : Nat) (ps : List Process) : Option NPState :=
  np_run sjf_select fuel ⟨ps, 0, 0, []⟩

/-- Loop state of the Round-Robin policy: working array, clock, completed
counter, the live segment `queue[front..rear)` of the ready queue, the total
number `rear` of writes ever made into the queue array, the `in_queue`
membership flags and the Gantt chart. -/
structure RRState where
  procs : List Process
  time : Int
  completedCount : Nat
  queue : List Nat
  rear : Nat
  inQueue : List Bool
  gantt : List GanttBlock
deriving Repr, DecidableEq

/-- One candidate enqueue of `preemptive_algorithm` at index `j`: if process
`j` is not completed, satisfies the scan condition `cond`, has remaining time
and is not flagged in `in_queue`, execute `queue[rear++] = j; in_queue[j] = 1`. -/
def enqueueIdx (cond : Process → Prop) [DecidablePred cond] (s : RRState) (j : Nat) : RRState :=
  match s.procs[j]? with
  | some p =>
      if p.completed = false ∧ cond p ∧ 0 < p.remaining_time ∧ s.inQueue.getD j false = false then
        { s with queue := s.queue ++ [j], rear := s.rear + 1, inQueue := s.inQueue.set j true }
      else s
  | none => s

/-- Run `enqueueIdx` over a list of indices in order. -/
def enqueueAll (cond : Process → Prop) [DecidablePred cond] : List Nat → RRState → RRState
  | [], s => s
  | j :: rest, s => enqueueAll cond rest (enqueueIdx cond s j)

/-- One `for (i = 0; i < n; i++)` enqueue scan of `preemptive_algorithm`. -/
def enqueuePass (cond : Process → Prop) [DecidablePred cond] (s : RRState) : RRState :=
  enqueueAll cond (List.range s.procs.length) s

/-- Idle handling of `preemptive_algorithm` when the ready queue is empty:
scan for the next arrival with sentinel 1000000000; if none is found, `break`
out of the loop (`Sum.inr`), otherwise record a coalesced idle block and jump
the clock to that arrival. -/
def rr_idle (s1 : RRState) : RRState ⊕ RRState :=
  if next_arrival_scan s1.procs s1.time 1000000000 = 1000000000 then Sum.inr s1
  else
    Sum.inl { s1 with
      gantt := ganttRecord s1.gantt (-1) s1.time
        (next_arrival_scan s1.procs s1.time 1000000000),
      time := next_arrival_scan s1.procs s1.time 1000000000 }

/-- End of a Round-Robin loop iteration after the dequeued process (now `p'`,
with its remaining time already decremented) has run until `s4.time` starting
at `startT`: first the scan enqueueing processes that arrived strictly within
`(startT, s4.time]`, then either completion (remaining time exhausted:
set `completion_time`, mark completed, bump the counter) or re-enqueueing at
the tail (`queue[rear++] = idx`). -/
def rr_after (startT : Int) (s4 : RRState) (idx : Nat) (p' : Process) : RRState ⊕ RRState :=
  if p'.remaining_time = 0 ∧ p'.completed = false then
    Sum.inl { enqueuePass (fun q => startT < q.arrival_time ∧ q.arrival_time ≤ s4.time) s4 with
      procs := (enqueuePass (fun q => startT < q.arrival_time ∧ q.arrival_time ≤ s4.time) s4).procs.set idx { p' with completed := true, completion_time := s4.time },
      completedCount := (enqueuePass (fun q => startT < q.arrival_time ∧ q.arrival_time ≤ s4.time) s4).completedCount + 1 }
  else if 0 < p'.remaining_time then
    Sum.inl { enqueuePass (fun q => startT < q.arrival_time ∧ q.arrival_time ≤ s4.time) s4 with
      queue := (enqueuePass (fun q => startT < q.arrival_time ∧ q.arrival_time ≤ s4.time) s4).queue ++ [idx],
      rear := (enqueuePass (fun q => startT < q.arrival_time ∧ q.arrival_time ≤ s4.time) s4).rear + 1,
      inQueue := (enqueuePass (fun q => startT < q.arrival_time ∧ q.arrival_time ≤ s4.time) s4).inQueue.set idx true }
  else Sum.inl (enqueuePass (fun q => startT < q.arrival_time ∧ q.arrival_time ≤ s4.time) s4)

/-- Body of one Round-Robin iteration after dequeueing index `idx` (the state
`s2` already has the head removed and `in_queue[idx]` cleared, and `p` is
`processes[idx]`): skip completed or finished entries; mark `started`; skip if
the computed slice `min(remaining_time, quantum)` is empty; otherwise record a
coalesced busy block for the slice, advance the clock, decrement the remaining
time and hand over to `rr_after`. -/
def rr_slice (quantum : Int) (s2 : RRState) (idx : Nat) (p : Process) : RRState ⊕ RRState :=
  if p.completed = true ∨ p.remaining_time ≤ 0 then Sum.inl s2
  else if (if p.remaining_time < quantum then p.remaining_time else quantum) ≤ 0 then
    Sum.inl { s2 with procs := s2.procs.set idx { p with started := true } }
  else
    rr_after s2.time
      { s2 with
        procs := s2.procs.set idx { p with started := true, remaining_time := p.remaining_time - (if p.remaining_time < quantum then p.remaining_time else quantum) },
        gantt := ganttRecord s2.gantt p.pid s2.time
          (s2.time + (if p.remaining_time < quantum then p.remaining_time else quantum)),
        time := s2.time + (if p.remaining_time < quantum then p.remaining_time else quantum) }
      idx
      { p with started := true, remaining_time := p.remaining_time - (if p.remaining_time < quantum then p.remaining_time else quantum) }

/-- One iteration of the `while (completed < n)` body of
`preemptive_algorithm` (Round Robin), in the C order: enqueue every arrived,
not-completed, not-queued process with remaining work; if the queue is empty
run the idle handling (`Sum.inr` is the `break` when no further arrival
exists); otherwise dequeue the head index (clearing its `in_queue` flag) and
run one slice. -/
def rr_step (quantum : Int) (s : RRState) : RRState ⊕ RRState :=
  match (enqueuePass (fun p => p.arrival_time ≤ s.time) s).queue with
  | [] => rr_idle (enqueuePass (fun p => p.arrival_time ≤ s.time) s)
  | idx :: qrest =>
      rr_slice quantum
        { enqueuePass (fun p => p.arrival_time ≤ s.time) s with
          queue := qrest,
          inQueue := (enqueuePass (fun p => p.arrival_time ≤ s.time) s).inQueue.set idx false }
        idx
        ((enqueuePass (fun p => p.arrival_time ≤ s.time) s).procs.getD idx procDefault)

/-- Fuel-indexed runner for the Round-Robin loop `while (completed < n)`;
`Sum.inr` (the C `break`) ends the loop immediately. -/
def rr_run (quantum : Int) : Nat → RRState → Option RRState
  | 0, _ => none
  | fuel + 1, s =>
      if s.completedCount < s.procs.length then
        match rr_step quantum s with
        | Sum.inl s' => rr_run quantum fuel s'
        | Sum.inr s' => some s'
      else some s

/-- The initial-arrival bootstrap of `preemptive_algorithm`:
`earliest_arrival = processes[0].arrival_time` then a min-scan over the rest. -/
def earliest_arrival : List Process → Int
  | [] => 0
  | p :: rest =>
      rest.foldl (fun e q => if q.arrival_time < e then q.arrival_time else e) p.arrival_time

/-- The initial clock of `preemptive_algorithm`: `time = 0`, raised to the
earliest arrival when that is later. -/
def rr_t0 (ps : List Process) : Int :=
  if 0 < earliest_arrival ps then earliest_arrival ps else 0

/-- The quantum actually used by `preemptive_algorithm`: a non-positive
configured quantum is replaced by the documented default 1. -/
def rr_quantum (q : Int) : Int := if q ≤ 0 then 1 else q

/-- Initial Round-Robin loop state for a working array. -/
def rr_initState (ps : List Process) : RRState :=
  ⟨ps, rr_t0 ps, 0, [], 0, List.replicate ps.length false, []⟩

/-- `preemptive_algorithm` (Round Robin) in functions.h as a fuel-indexed
function: read quantum `q` (defaulting non-positive values to 1), start the
clock at the earliest arrival, and iterate the loop body. -/
def preemptive_algorithm (q : Int) (fuel : Nat) (ps : List Process) : Option RRState :=
  rr_run (rr_quantum q) fuel (rr_initState ps)

/-- `run_algorithm` in main.c: refuse an empty process set, copy the loaded
records into a working array, reset its computed fields, and run the selected
policy (1 = Round Robin, 2 = Modified FCFS with aging, 3 = SJF), returning the
final working records and Gantt chart. -/
def run_algorithm (original : List Process) (choice : Int) (q : Int) (fuel : Nat) :
    Option (List Process × List GanttBlock) :=
  if original.length ≤ 0 then none
  else
    let working := reset_processes (copy_processes original)
    if choice = 1 then
      (preemptive_algorithm q fuel working).map fun s => (s.procs, s.gantt)
    else if choice = 2 then
      (modified_FCFS_with_aging fuel working).map fun s => (s.procs, s.gantt)
    else if choice = 3 then
      (non_preemptive_algorithm_2 fuel working).map fun s => (s.procs, s.gantt)
    else none

/-- Input rows of the spec's Round-Robin example scenario. -/
def rows_rr_example : List (Int × Int × Int × Int) := [(1, 0, 4, 0), (2, 1, 3, 0)]

/-- Input rows of the spec's SJF example scenario. -/
def rows_sjf_example : List (Int × Int × Int × Int) := [(1, 0, 5, 0), (2, 1, 3, 0), (3, 2, 8, 0)]

/-- Two-process input whose SJF schedule makes the second process wait. -/
def rows_waiting : List (Int × Int × Int × Int) := [(1, 0, 5, 0), (2, 1, 3, 0)]

/-- Input with a second arrival at Round-Robin's next-arrival sentinel. -/
def rows_sentinel : List (Int × Int × Int × Int) := [(1, 0, 1, 0), (2, 1000000000, 1, 0)]

/-- Single process whose burst forces 1001 ready-queue writes at quantum 1. -/
def rows_overflow : List (Int × Int × Int × Int) := [(1, 0, 1001, 0)]

/-- Two small processes used to instantiate the general theorems. -/
def rows_pair : List (Int × Int × Int × Int) := [(1, 0, 2, 0), (2, 1, 3, 0)]

/-- One process arriving at time 2, for the idle-handling scenarios. -/
def rows_late : List (Int × Int × Int × Int) := [(1, 2, 1, 0)]

/-- One process arriving exactly at the non-preemptive policies' 999999
next-arrival sentinel: their idle scan then never moves the clock. -/
def rows_idle_sentinel : List (Int × Int × Int × Int) := [(1, 999999, 1, 0)]

/-- Iteration-counting form of the Round-Robin loop: run exactly `n` loop
iterations (unless the loop guard or the `break` stops it first), returning
the state reached; used to evaluate long runs checkpoint by checkpoint. -/
def rr_iter (quantum : Int) : Nat → RRState → RRState ⊕ RRState
  | 0, s => Sum.inl s
  | n + 1, s =>
      if s.completedCount < s.procs.length then
        match rr_step quantum s with
        | Sum.inl s1 => rr_iter quantum n s1
        | Sum.inr s1 => Sum.inr s1
      else Sum.inl s

/-- The Round-Robin loop state after `k` iterations (1 ≤ k ≤ 1000) on the
single-process overflow input at quantum 1: `k` time units executed, the
process re-enqueued each slice, `rear` at `k + 1` writes. -/
def c9state (k : Nat) : RRState :=
  ⟨[⟨1, 0, 1001, 0, 1001 - (k : Int), 0, 0, 0, true, false⟩], (k : Int), 0, [0],
    k + 1, [true], [⟨1, 0, (k : Int)⟩]⟩

/-- The final Round-Robin state on the overflow input: completed at time 1001
after 1001 ready-queue writes. -/
def c9final : RRState :=
  ⟨[⟨1, 0, 1001, 0, 0, 1001, 0, 0, true, true⟩], 1001, 1, [], 1001, [false],
    [⟨1, 0, 1001⟩]⟩

/-- Eligibility at time `t`, the scan condition shared by the selection loops
of both non-preemptive policies: not completed and already arrived. -/
def elig (t : Int) (p : Process) : Prop :=
  p.completed = false ∧ p.arrival_time ≤ t

/-- A record the SJF selection loop can never select: its burst time is at
least the `shortest_burst` sentinel 999999. -/
def sjf_unsel (p : Process) : Prop := 999999 ≤ p.burst_time

/-- The aging selection loop selects some candidate whenever one is eligible,
so no record is unselectable for it. -/
def mfcfs_unsel (_ : Process) : Prop := False

/-- The dominance order realised by the aging selection loop: the winner
either has a strictly larger score, or a score within the 0.001 tolerance
(hence, scores being half-integers, equal) and an arrival time no later. -/
def mfcfs_dominates (t : Int) (p q : Process) : Prop :=
  mfcfs_score t q < mfcfs_score t p ∨
    (|mfcfs_score t q - mfcfs_score t p| ≤ 1 / 1000 ∧ p.arrival_time ≤ q.arrival_time)

/-- Well-formedness of a recorded trace `g` between the start of the
simulation `t0` and the current clock `t`: the first block (if any) starts at
`t0`, the last block (if any) ends at `t` — and if there is none the clock
still reads `t0` —, consecutive blocks are contiguous, and every block has
positive duration. -/
structure TraceInv (t0 : Int) (g : List GanttBlock) (t : Int) : Prop where
  headStart : ∀ b ∈ g.head?, b.start_time = t0
  lastEnd : (g = [] ∧ t = t0) ∨ ∃ b, g.getLast? = some b ∧ b.end_time = t
  contig : contiguous g
  pos : positiveBlocks g

/-- Well-formedness of the Round-Robin ready queue: `in_queue` has one flag
per process, queued indices denote waiting (arrived, not completed) processes,
no index is queued twice, and the flags agree with queue membership. -/
structure QInv (s : RRState) : Prop where
  iql : s.inQueue.length = s.procs.length
  queue_ok : ∀ j ∈ s.queue, ∃ p, s.procs[j]? = some p ∧ p.completed = false ∧
    p.arrival_time ≤ s.time
  nodupq : s.queue.Nodup
  inq : ∀ j, j < s.procs.length → (s.inQueue.getD j false = true ↔ j ∈ s.queue)

/-- Specification of a non-preemptive selection function: a selected pair is a
real (index, record) pair of the array, eligible at the current time and not
unselectable; and when selection fails every eligible record is unselectable. -/
structure SelectSpec (select : List Process → Int → Option (Nat × Process))
    (unsel : Process → Prop) : Prop where
  valid : ∀ ps t k p, select ps t = some (k, p) →
    ps[k]? = some p ∧ p.completed = false ∧ p.arrival_time ≤ t
  sel_ok : ∀ ps t k p, select ps t = some (k, p) → ¬ unsel p
  none_unsel : ∀ ps t, select ps t = none →
    ∀ p ∈ ps, p.completed = false → p.arrival_time ≤ t → unsel p

/-- Core loop invariant of the two non-preemptive policies over the initial
working array `ps`. -/
structure NPCore (ps : List Process) (s : NPState) : Prop where
  frame : s.procs.map keyOf = ps.map keyOf
  bursts : ∀ p ∈ s.procs, 0 < p.burst_time
  count : s.completedCount = s.procs.countP (·.completed)
  cbounds : ∀ p ∈ s.procs, p.completed = true →
    p.arrival_time + p.burst_time ≤ p.completion_time ∧ p.completion_time ≤ s.time
  lastComp : s.completedCount = s.procs.length →
    s.procs = [] ∨ ∃ p ∈ s.procs, p.completed = true ∧ p.completion_time = s.time
  trace : TraceInv 0 s.gantt s.time

/-- Gantt bookkeeping invariant of the two non-preemptive policies (requires
positive, pairwise distinct pids): the busy time recorded for a pid is its
burst time once completed and 0 before; every busy block belongs to a
completed process; an idle block can only be last while some arrived process
is still incomplete; and the trace is coalesced unless some incomplete record
is unselectable for the policy's selection function. -/
structure NPGantt (unsel : Process → Prop) (s : NPState) : Prop where
  pidsPos : ∀ p ∈ s.procs, 0 < p.pid
  pidsNodup : (s.procs.map (·.pid)).Nodup
  busy : ∀ (i : Nat) (p : Process), s.procs[i]? = some p →
    busyDur p.pid s.gantt = if p.completed then p.burst_time else 0
  owners : ∀ b ∈ s.gantt, b.pid = -1 ∨
    ∃ (j : Nat) (q : Process), s.procs[j]? = some q ∧ q.completed = true ∧ q.pid = b.pid
  idleLast : ∀ b, s.gantt.getLast? = some b → b.pid = -1 →
    ∃ p ∈ s.procs, p.completed = false ∧ p.arrival_time ≤ s.time
  coal : coalesced s.gantt ∨ ∃ p ∈ s.procs, p.completed = false ∧ unsel p

/-- Core loop invariant of the Round-Robin policy over the initial working
array `ps` and initial clock `t0`. -/
structure RRCore (ps : List Process) (t0 : Int) (s : RRState) : Prop where
  frame : s.procs.map keyOf = ps.map keyOf
  bursts : ∀ p ∈ s.procs, 0 < p.burst_time
  count : s.completedCount = s.procs.countP (·.completed)
  rem_nonneg : ∀ p ∈ s.procs, 0 ≤ p.remaining_time
  rem_le : ∀ p ∈ s.procs, p.remaining_time ≤ p.burst_time
  comp_rem : ∀ p ∈ s.procs, p.completed = true → p.remaining_time = 0
  uncomp_rem : ∀ p ∈ s.procs, p.completed = false → 0 < p.remaining_time
  exec_le : ∀ p ∈ s.procs, p.remaining_time < p.burst_time →
    p.arrival_time + (p.burst_time - p.remaining_time) ≤ s.time
  cbounds : ∀ p ∈ s.procs, p.completed = true →
    p.arrival_time + p.burst_time ≤ p.completion_time ∧ p.completion_time ≤ s.time
  qinv : QInv s
  lastComp : s.completedCount = s.procs.length →
    s.procs = [] ∨ ∃ p ∈ s.procs, p.completed = true ∧ p.completion_time = s.time
  trace : TraceInv t0 s.gantt s.time

/-- Gantt bookkeeping invariant of the Round-Robin policy (requires positive,
pairwise distinct pids): the busy time recorded for each pid is exactly the
time that process has executed, and the trace is coalesced. -/
structure RRGantt (s : RRState) : Prop where
  pidsPos : ∀ p ∈ s.procs, 0 < p.pid
  pidsNodup : (s.procs.map (·.pid)).Nodup
  busy : ∀ (i : Nat) (p : Process), s.procs[i]? = some p →
    busyDur p.pid s.gantt = p.burst_time - p.remaining_time
  coal : coalesced s.gantt

theorem mem_set_elim {α : Type} {l : List α} {i : Nat} {a q : α}
    (h : q ∈ l.set i a) : q = a ∨ ∃ j, j ≠ i ∧ l[j]? = some q := by
  rcases List.mem_iff_getElem?.1 h with ⟨k, hk⟩
  by_cases hki : i = k
  · subst hki
    rw [List.getElem?_set] at hk
    simp only [if_pos rfl] at hk
    by_cases hlen : i < l.length
    · rw [if_pos hlen] at hk
      exact Or.inl (Option.some_inj.1 hk).symm
    · rw [if_neg hlen] at hk; cases hk
  · right
    exact ⟨k, fun h' => hki h'.symm, by rwa [List.getElem?_set_ne hki] at hk⟩

theorem set_getElem?_self {α : Type} {l : List α} {i : Nat} {a : α}
    (h : l[i]? = some a) : l.set i a = l := by
  induction l generalizing i with
  | nil => simp at h
  | cons x l ih =>
    cases i with
    | zero => simp at h; simp [List.set, h]
    | succ i => simp only [List.getElem?_cons_succ] at h; simp [List.set, ih h]

theorem countP_set_flip {α : Type} (f : α → Bool) :
    ∀ (l : List α) (i : Nat) (a b : α), l[i]? = some b →
    (l.set i a).countP f + (if f b then 1 else 0) = l.countP f + (if f a then 1 else 0) := by
  intro l
  induction l with
  | nil => intro i a b h; simp at h
  | cons x l ih =>
    intro i a b h
    cases i with
    | zero =>
      simp only [List.getElem?_cons_zero, Option.some_inj] at h
      subst h
      simp [List.countP_cons]
      omega
    | succ i =>
      simp only [List.getElem?_cons_succ] at h
      simp only [List.set, List.countP_cons]
      have := ih i a b h
      omega

theorem getD_set_self {l : List Bool} {i : Nat} {a : Bool} (h : i < l.length) :
    (l.set i a).getD i false = a := by
  rw [List.getD_eq_getElem?_getD, List.getElem?_set]
  simp [h]

theorem getD_set_ne {l : List Bool} {i j : Nat} {a : Bool} (h : i ≠ j) :
    (l.set i a).getD j false = l.getD j false := by
  rw [List.getD_eq_getElem?_getD, List.getElem?_set_ne h, ← List.getD_eq_getElem?_getD]

theorem exists_not_of_countP_lt {α : Type} {l : List α} {f : α → Bool}
    (h : l.countP f < l.length) : ∃ a ∈ l, f a = false := by
  by_contra hc
  push_neg at hc
  have : ∀ a ∈ l, f a = true := by
    intro a ha
    have := hc a ha
    revert this
    cases f a <;> simp
  rw [← List.countP_eq_length] at this
  omega

theorem foldl_max_eq {l : List Int} {m : Int} (hub : ∀ x ∈ l, x ≤ m)
    (hmem : ∃ x ∈ l, x = m) (hm : 0 ≤ m) : l.foldl max 0 = m := by
  have key : ∀ (l' : List Int) (seed : Int), seed ≤ m → (∀ x ∈ l', x ≤ m) →
      ((∃ x ∈ l', x = m) ∨ seed = m) → l'.foldl max seed = m := by
    intro l'
    induction l' with
    | nil => intro seed h1 _ h3; rcases h3 with ⟨x, hx, _⟩ | h <;> simp_all
    | cons y l' ih =>
      intro seed h1 h2 h3
      simp only [List.foldl_cons]
      rcases h3 with ⟨x, hx, hxm⟩ | hseed
      · rcases List.mem_cons.1 hx with rfl | hx'
        · exact ih (max seed x) (by subst hxm; omega) (fun z hz => h2 z (by simp [hz]))
            (Or.inr (by subst hxm; omega))
        · exact ih (max seed y) (by have := h2 y (by simp); omega)
            (fun z hz => h2 z (by simp [hz])) (Or.inl ⟨x, hx', hxm⟩)
      · exact ih (max seed y) (by have := h2 y (by simp); omega)
          (fun z hz => h2 z (by simp [hz])) (Or.inr (by have := h2 y (by simp); omega))
  exact key l 0 hm hub (Or.inl hmem)

theorem durSum_nil : durSum [] = 0 := rfl

theorem durSum_append (g : List GanttBlock) (b : GanttBlock) :
    durSum (g ++ [b]) = durSum g + (b.end_time - b.start_time) := by
  simp [durSum, blockDuration]

theorem busyDur_nil (x : Int) : busyDur x [] = 0 := rfl

theorem busyDur_append (g : List GanttBlock) (b : GanttBlock) (x : Int) :
    busyDur x (g ++ [b]) = busyDur x g + (if b.pid = x then b.end_time - b.start_time else 0) := by
  simp only [busyDur, List.filter_append]
  by_cases h : b.pid = x
  · simp [h, durSum_append]
  · have : (b.pid == x) = false := by simp [h]
    simp [List.filter, this, h, durSum]

theorem positiveBlocks_append {g : List GanttBlock} {b : GanttBlock}
    (hg : positiveBlocks g) (hb : b.start_time < b.end_time) :
    positiveBlocks (g ++ [b]) := by
  intro c hc
  rcases List.mem_append.1 hc with h | h
  · exact hg c h
  · simp at h; subst h; exact hb

theorem contiguous_append {g : List GanttBlock} {b : GanttBlock}
    (hg : contiguous g) (hb : ∀ c, g.getLast? = some c → c.end_time = b.start_time) :
    contiguous (g ++ [b]) := by
  rw [contiguous, List.chain'_append]
  refine ⟨hg, List.chain'_singleton b, ?_⟩
  intro x hx y hy
  simp only [List.head?_cons, Option.mem_def, Option.some_inj] at hy
  subst hy
  exact hb x hx

theorem coalesced_append {g : List GanttBlock} {b : GanttBlock}
    (hg : coalesced g) (hb : ∀ c, g.getLast? = some c → c.pid ≠ b.pid) :
    coalesced (g ++ [b]) := by
  rw [coalesced, List.chain'_append]
  refine ⟨hg, List.chain'_singleton b, ?_⟩
  intro x hx y hy
  simp only [List.head?_cons, Option.mem_def, Option.some_inj] at hy
  subst hy
  exact hb x hx

theorem TraceInv.append {t0 t e : Int} {g : List GanttBlock} {who : Int}
    (inv : TraceInv t0 g t) (he : t < e) :
    TraceInv t0 (g ++ [⟨who, t, e⟩]) e := by
  refine ⟨?_, ?_, ?_, ?_⟩
  · intro b hb
    cases g with
    | nil =>
      simp only [List.nil_append, List.head?_cons, Option.mem_def, Option.some_inj] at hb
      subst hb
      rcases inv.lastEnd with ⟨_, ht⟩ | ⟨c, hc, _⟩
      · exact ht
      · simp at hc
    | cons x g' =>
      simp only [List.cons_append, List.head?_cons, Option.mem_def, Option.some_inj] at hb
      subst hb
      exact inv.headStart x (by simp)
  · right
    exact ⟨⟨who, t, e⟩, List.getLast?_concat _, rfl⟩
  · refine contiguous_append inv.contig ?_
    intro c hc
    rcases inv.lastEnd with ⟨hnil, _⟩ | ⟨c', hc', he'⟩
    · subst hnil; simp at hc
    · rw [hc] at hc'
      injection hc' with h
      rw [← h] at he'
      exact he'
  · exact positiveBlocks_append inv.pos he

theorem ganttRecord_nil (who t e : Int) : ganttRecord [] who t e = [⟨who, t, e⟩] := rfl

theorem ganttRecord_concat (L : List GanttBlock) (c : GanttBlock) (who t e : Int) :
    ganttRecord (L ++ [c]) who t e =
      if c.pid = who ∧ c.end_time = t then L ++ [{ c with end_time := e }]
      else (L ++ [c]) ++ [⟨who, t, e⟩] := by
  unfold ganttRecord
  rw [List.getLast?_concat]
  show (if c.pid = who ∧ c.end_time = t then
          (L ++ [c]).dropLast ++ [{ c with end_time := e }]
        else (L ++ [c]) ++ [⟨who, t, e⟩]) = _
  rw [List.dropLast_concat]

theorem TraceInv.record {t0 t e : Int} {g : List GanttBlock} {who : Int}
    (inv : TraceInv t0 g t) (he : t < e) :
    TraceInv t0 (ganttRecord g who t e) e := by
  rcases List.eq_nil_or_concat g with hnil | ⟨L, c, hLc⟩
  · subst hnil
    simpa [ganttRecord] using inv.append he
  · rw [List.concat_eq_append] at hLc
    subst hLc
    rw [ganttRecord_concat]
    by_cases hcase : c.pid = who ∧ c.end_time = t
    · rw [if_pos hcase]
      have hce : c.end_time = t := hcase.2
      refine ⟨?_, ?_, ?_, ?_⟩
      · intro b hb
        cases L with
        | nil =>
          simp only [List.nil_append, List.head?_cons, Option.mem_def, Option.some_inj] at hb
          subst hb
          have := inv.headStart c (by simp)
          simpa using this
        | cons x L' =>
          simp only [List.cons_append, List.head?_cons, Option.mem_def, Option.some_inj] at hb
          subst hb
          exact inv.headStart x (by simp)
      · right
        exact ⟨_, List.getLast?_concat _, rfl⟩
      · have hc' : contiguous (L ++ [c]) := inv.contig
        rw [contiguous, List.chain'_append] at hc' ⊢
        refine ⟨hc'.1, List.chain'_singleton _, ?_⟩
        intro x hx y hy
        simp only [List.head?_cons, Option.mem_def, Option.some_inj] at hy
        subst hy
        exact hc'.2.2 x hx c (by simp)
      · intro b hb
        rcases List.mem_append.1 hb with h | h
        · exact inv.pos b (List.mem_append.2 (Or.inl h))
        · simp at h
          subst h
          have hp := inv.pos c (List.mem_append.2 (Or.inr (by simp)))
          show c.start_time < e
          omega
    · rw [if_neg hcase]
      exact inv.append he

theorem ganttRecord_head {g : List GanttBlock} {who t e : Int} {b : GanttBlock}
    (hb : g.head? = some b) :
    ∃ b', (ganttRecord g who t e).head? = some b' ∧ b'.pid = b.pid ∧
      b'.start_time = b.start_time := by
  rcases List.eq_nil_or_concat g with hnil | ⟨L, c, hLc⟩
  · subst hnil; simp at hb
  · rw [List.concat_eq_append] at hLc
    subst hLc
    rw [ganttRecord_concat]
    by_cases hcase : c.pid = who ∧ c.end_time = t
    · rw [if_pos hcase]
      cases L with
      | nil =>
        simp only [List.nil_append, List.head?_cons, Option.some_inj] at hb ⊢
        exact ⟨_, rfl, by rw [← hb], by rw [← hb]⟩
      | cons x L' =>
        simp only [List.cons_append, List.head?_cons, Option.some_inj] at hb ⊢
        exact ⟨x, rfl, by rw [hb], by rw [hb]⟩
    · rw [if_neg hcase]
      cases L with
      | nil =>
        simp only [List.nil_append, List.head?_cons, Option.some_inj] at hb ⊢
        exact ⟨c, rfl, by rw [hb], by rw [hb]⟩
      | cons x L' =>
        simp only [List.cons_append, List.head?_cons, Option.some_inj] at hb ⊢
        exact ⟨x, rfl, by rw [hb], by rw [hb]⟩

theorem durSum_record {g : List GanttBlock} {who t e : Int}
    (h : g = [] ∨ ∃ c, g.getLast? = some c ∧ c.end_time = t) :
    durSum (ganttRecord g who t e) = durSum g + (e - t) := by
  rcases List.eq_nil_or_concat g with hnil | ⟨L, c, hLc⟩
  · subst hnil
    rw [ganttRecord_nil]
    show durSum ([] ++ [⟨who, t, e⟩]) = _
    rw [durSum_append, durSum_nil]
  · rw [List.concat_eq_append] at hLc
    subst hLc
    rw [ganttRecord_concat]
    by_cases hcase : c.pid = who ∧ c.end_time = t
    · rw [if_pos hcase, durSum_append, durSum_append]
      have hce : c.end_time = t := hcase.2
      have h1 : ({ c with end_time := e } : GanttBlock).end_time = e := rfl
      have h2 : ({ c with end_time := e } : GanttBlock).start_time = c.start_time := rfl
      rw [h1, h2]
      omega
    · rw [if_neg hcase, durSum_append]

theorem busyDur_record {g : List GanttBlock} {who t e x : Int}
    (h : g = [] ∨ ∃ c, g.getLast? = some c ∧ c.end_time = t) :
    busyDur x (ganttRecord g who t e) = busyDur x g + (if who = x then e - t else 0) := by
  have hb : (⟨who, t, e⟩ : GanttBlock).pid = who := rfl
  have hbe : (⟨who, t, e⟩ : GanttBlock).end_time = e := rfl
  have hbs : (⟨who, t, e⟩ : GanttBlock).start_time = t := rfl
  rcases List.eq_nil_or_concat g with hnil | ⟨L, c, hLc⟩
  · subst hnil
    rw [ganttRecord_nil]
    show busyDur x ([] ++ [⟨who, t, e⟩]) = _
    rw [busyDur_append, busyDur_nil, hb, hbe, hbs]
  · rw [List.concat_eq_append] at hLc
    subst hLc
    rw [ganttRecord_concat]
    by_cases hcase : c.pid = who ∧ c.end_time = t
    · rw [if_pos hcase, busyDur_append, busyDur_append]
      have hce : c.end_time = t := hcase.2
      have hcp : c.pid = who := hcase.1
      have h1 : ({ c with end_time := e } : GanttBlock).pid = c.pid := rfl
      have h2 : ({ c with end_time := e } : GanttBlock).end_time = e := rfl
      have h3 : ({ c with end_time := e } : GanttBlock).start_time = c.start_time := rfl
      rw [h1, h2, h3]
      by_cases hcx : c.pid = x
      · rw [if_pos hcx, if_pos hcx, if_pos (hcp ▸ hcx)]
        omega
      · rw [if_neg hcx, if_neg hcx, if_neg (hcp ▸ hcx)]
        omega
    · rw [if_neg hcase, busyDur_append, hb, hbe, hbs]

theorem durSum_eq_of_contig : ∀ (g : List GanttBlock), contiguous g →
    ∀ a b, g.head? = some a → g.getLast? = some b →
    durSum g = b.end_time - a.start_time := by
  intro g
  induction g with
  | nil => intro _ a b ha _; simp at ha
  | cons x g' ih =>
    intro hc a b ha hb
    simp only [List.head?_cons, Option.some_inj] at ha
    subst ha
    cases g' with
    | nil =>
      simp only [List.getLast?_singleton, Option.some_inj] at hb
      subst hb
      simp [durSum, blockDuration]
    | cons y g'' =>
      rw [contiguous, List.chain'_cons] at hc
      have hxy : x.end_time = y.start_time := hc.1
      have hb' : (y :: g'').getLast? = some b := by
        rw [← hb]
        rfl
      have := ih hc.2 y b rfl hb'
      simp only [durSum, List.map_cons, List.sum_cons] at this ⊢
      simp only [blockDuration] at this ⊢
      omega

theorem contig_start_ge : ∀ (g : List GanttBlock), contiguous g → positiveBlocks g →
    ∀ a, g.head? = some a → ∀ b ∈ g, a.start_time ≤ b.start_time := by
  intro g
  induction g with
  | nil => intro _ _ a ha; simp at ha
  | cons x g' ih =>
    intro hc hp a ha b hb
    simp only [List.head?_cons, Option.some_inj] at ha
    subst ha
    rcases List.mem_cons.1 hb with rfl | hb'
    · omega
    · cases g' with
      | nil => simp at hb'
      | cons y g'' =>
        rw [contiguous, List.chain'_cons] at hc
        have h1 : x.end_time = y.start_time := hc.1
        have h2 := ih hc.2 (fun c hc' => hp c (by simp [hc'])) y rfl b hb'
        have h3 := hp x (by simp)
        omega

theorem na_scan_le_seed : ∀ (l : List Process) (t na0 : Int), next_arrival_scan l t na0 ≤ na0 := by
  intro l
  induction l with
  | nil => intro t na0; simp [next_arrival_scan]
  | cons q l ih =>
    intro t na0
    rw [next_arrival_scan]
    by_cases hc : q.completed = false ∧ t < q.arrival_time ∧ q.arrival_time < na0
    · rw [if_pos hc]
      have := ih t q.arrival_time
      omega
    · rw [if_neg hc]
      exact ih t na0

theorem na_scan_le_qual : ∀ (l : List Process) (t na0 : Int) (p : Process), p ∈ l →
    p.completed = false → t < p.arrival_time →
    next_arrival_scan l t na0 ≤ p.arrival_time := by
  intro l
  induction l with
  | nil => intro t na0 p hp; simp at hp
  | cons q l ih =>
    intro t na0 p hp hpc hpt
    rw [next_arrival_scan]
    rcases List.mem_cons.1 hp with rfl | hp'
    · by_cases hlt : p.arrival_time < na0
      · rw [if_pos ⟨hpc, hpt, hlt⟩]
        exact na_scan_le_seed l t p.arrival_time
      · have h1 : ¬ (p.completed = false ∧ t < p.arrival_time ∧ p.arrival_time < na0) := by
          intro h; exact hlt h.2.2
        rw [if_neg h1]
        have := na_scan_le_seed l t na0
        omega
    · by_cases hc : q.completed = false ∧ t < q.arrival_time ∧ q.arrival_time < na0
      · rw [if_pos hc]; exact ih t _ p hp' hpc hpt
      · rw [if_neg hc]; exact ih t _ p hp' hpc hpt

theorem na_scan_cases : ∀ (l : List Process) (t na0 : Int),
    next_arrival_scan l t na0 = na0 ∨
    ∃ p ∈ l, p.completed = false ∧ t < p.arrival_time ∧
      next_arrival_scan l t na0 = p.arrival_time ∧ p.arrival_time < na0 := by
  intro l
  induction l with
  | nil => intro t na0; left; rfl
  | cons q l ih =>
    intro t na0
    rw [next_arrival_scan]
    by_cases hc : q.completed = false ∧ t < q.arrival_time ∧ q.arrival_time < na0
    · rw [if_pos hc]
      rcases ih t q.arrival_time with h | ⟨p, hp, h1, h2, h3, h4⟩
      · right
        exact ⟨q, by simp, hc.1, hc.2.1, h, hc.2.2⟩
      · right
        refine ⟨p, by simp [hp], h1, h2, h3, ?_⟩
        have := hc.2.2
        omega
    · rw [if_neg hc]
      rcases ih t na0 with h | ⟨p, hp, h1, h2, h3, h4⟩
      · left; exact h
      · right; exact ⟨p, by simp [hp], h1, h2, h3, h4⟩

theorem mfcfs_score_half (t : Int) (p : Process) :
    mfcfs_score t p = ((4 * (t - p.arrival_time) - p.burst_time - 6 * p.priority : Int) : ℚ) / 2 := by
  rw [mfcfs_score]
  push_cast
  ring

theorem half_lt_iff {a b : Int} : (a : ℚ) / 2 + 1 / 1000 < (b : ℚ) / 2 ↔ a < b := by
  constructor
  · intro h
    by_contra hc
    push_neg at hc
    have : (b : ℚ) ≤ (a : ℚ) := by exact_mod_cast hc
    linarith
  · intro h
    have : (a : ℚ) + 1 ≤ (b : ℚ) := by exact_mod_cast h
    linarith

theorem half_lt_half_iff {a b : Int} : (a : ℚ) / 2 < (b : ℚ) / 2 ↔ a < b := by
  constructor
  · intro h
    have : (a : ℚ) < (b : ℚ) := by linarith
    exact_mod_cast this
  · intro h
    have : (a : ℚ) < (b : ℚ) := by exact_mod_cast h
    linarith

theorem half_abs_iff {a b : Int} : |(a : ℚ) / 2 - (b : ℚ) / 2| ≤ 1 / 1000 ↔ a = b := by
  constructor
  · intro h
    rw [abs_le] at h
    by_contra hc
    rcases lt_or_gt_of_ne hc with h' | h'
    · have : (a : ℚ) + 1 ≤ (b : ℚ) := by exact_mod_cast h'
      have h2 := h.1
      linarith
    · have : (b : ℚ) + 1 ≤ (a : ℚ) := by exact_mod_cast h'
      have h2 := h.2
      linarith
  · intro h
    subst h
    norm_num

theorem score_band_lt_iff (t : Int) (p q : Process) :
    mfcfs_score t q + 1 / 1000 < mfcfs_score t p ↔ mfcfs_score t q < mfcfs_score t p := by
  rw [mfcfs_score_half t p, mfcfs_score_half t q, half_lt_iff, half_lt_half_iff]

theorem half_eq_iff {a b : Int} : (a : ℚ) / 2 = (b : ℚ) / 2 ↔ a = b := by
  constructor
  · intro h
    have : (a : ℚ) = (b : ℚ) := by linarith
    exact_mod_cast this
  · intro h
    rw [h]

theorem score_band_eq_iff (t : Int) (p q : Process) :
    |mfcfs_score t p - mfcfs_score t q| ≤ 1 / 1000 ↔ mfcfs_score t p = mfcfs_score t q := by
  rw [mfcfs_score_half t p, mfcfs_score_half t q, half_abs_iff]
  exact half_eq_iff.symm

theorem indexed_mem : ∀ (l : List Process) (k i : Nat) (p : Process),
    (i, p) ∈ indexed k l → k ≤ i ∧ l[i - k]? = some p := by
  intro l
  induction l with
  | nil => intro k i p h; simp [indexed] at h
  | cons q l ih =>
    intro k i p h
    rw [indexed] at h
    rcases List.mem_cons.1 h with heq | h'
    · have h1 : i = k := congrArg Prod.fst heq
      have h2 : p = q := congrArg Prod.snd heq
      subst h1; subst h2
      simp
    · have := ih (k + 1) i p h'
      refine ⟨by omega, ?_⟩
      have hik : i - k = (i - (k + 1)) + 1 := by omega
      rw [hik]
      simpa using this.2

theorem indexed_of_getElem? : ∀ (l : List Process) (k j : Nat) (p : Process),
    l[j]? = some p → (k + j, p) ∈ indexed k l := by
  intro l
  induction l with
  | nil => intro k j p h; simp at h
  | cons q l ih =>
    intro k j p h
    rw [indexed]
    cases j with
    | zero =>
      simp only [List.getElem?_cons_zero, Option.some_inj] at h
      subst h
      simp
    | succ j =>
      simp only [List.getElem?_cons_succ] at h
      have := ih (k + 1) j p h
      have hkj : k + (j + 1) = (k + 1) + j := by omega
      rw [hkj]
      exact List.mem_cons.2 (Or.inr this)

theorem mfcfs_pick_some_of_some : ∀ (t : Int) (l : List (Nat × Process))
    (b : Nat × Process) (bs : ℚ), mfcfs_pick t l (some b) bs ≠ none := by
  intro t l
  induction l with
  | nil => intro b bs h; simp [mfcfs_pick] at h
  | cons ip rest ih =>
    intro b bs h
    obtain ⟨i, q⟩ := ip
    obtain ⟨bi, bp⟩ := b
    rw [mfcfs_pick] at h
    by_cases hel : q.completed = false ∧ q.arrival_time ≤ t
    · rw [if_pos hel] at h
      by_cases h1 : bs + 1 / 1000 < mfcfs_score t q
      · rw [if_pos h1] at h; exact ih _ _ h
      · rw [if_neg h1] at h
        by_cases h2 : |mfcfs_score t q - bs| ≤ 1 / 1000 ∧ q.arrival_time < bp.arrival_time
        · rw [if_pos h2] at h; exact ih _ _ h
        · rw [if_neg h2] at h; exact ih _ _ h
    · rw [if_neg hel] at h; exact ih _ _ h

theorem mfcfs_pick_none : ∀ (t : Int) (l : List (Nat × Process)) (bs : ℚ),
    mfcfs_pick t l none bs = none →
    ∀ ip ∈ l, ¬ (ip.2.completed = false ∧ ip.2.arrival_time ≤ t) := by
  intro t l
  induction l with
  | nil => intro bs _ ip h; simp at h
  | cons jp rest ih =>
    intro bs hres ip hip
    obtain ⟨j, q⟩ := jp
    rw [mfcfs_pick] at hres
    by_cases hel : q.completed = false ∧ q.arrival_time ≤ t
    · rw [if_pos hel] at hres
      exact absurd hres (mfcfs_pick_some_of_some t rest _ _)
    · rw [if_neg hel] at hres
      rcases List.mem_cons.1 hip with rfl | h'
      · exact hel
      · exact ih bs hres ip h'

theorem mfcfs_pick_valid : ∀ (t : Int) (l : List (Nat × Process))
    (best : Option (Nat × Process)) (bs : ℚ) (k : Nat) (p : Process),
    mfcfs_pick t l best bs = some (k, p) →
    best = some (k, p) ∨ ((k, p) ∈ l ∧ p.completed = false ∧ p.arrival_time ≤ t) := by
  intro t l
  induction l with
  | nil => intro best bs k p h; left; exact h
  | cons ip rest ih =>
    intro best bs k p h
    obtain ⟨i, q⟩ := ip
    have htake : ∀ bs', mfcfs_pick t rest (some (i, q)) bs' = some (k, p) →
        (q.completed = false ∧ q.arrival_time ≤ t) →
        best = some (k, p) ∨
          ((k, p) ∈ (i, q) :: rest ∧ p.completed = false ∧ p.arrival_time ≤ t) := by
      intro bs' hres hel
      rcases ih _ bs' k p hres with heq | ⟨hm, he⟩
      · right
        simp only [Option.some_inj, Prod.mk.injEq] at heq
        obtain ⟨e1, e2⟩ := heq
        subst e1
        subst e2
        exact ⟨by simp, hel⟩
      · right
        exact ⟨by simp [hm], he⟩
    have hkeep : ∀ bs', mfcfs_pick t rest best bs' = some (k, p) →
        best = some (k, p) ∨
          ((k, p) ∈ (i, q) :: rest ∧ p.completed = false ∧ p.arrival_time ≤ t) := by
      intro bs' hres
      rcases ih _ bs' k p hres with heq | ⟨hm, he⟩
      · left; exact heq
      · right; exact ⟨by simp [hm], he⟩
    cases best with
    | none =>
      rw [mfcfs_pick] at h
      by_cases hel : q.completed = false ∧ q.arrival_time ≤ t
      · rw [if_pos hel] at h
        exact htake _ h hel
      · rw [if_neg hel] at h
        exact hkeep _ h
    | some b =>
      obtain ⟨bi, bp⟩ := b
      rw [mfcfs_pick] at h
      by_cases hel : q.completed = false ∧ q.arrival_time ≤ t
      · rw [if_pos hel] at h
        by_cases h1 : bs + 1 / 1000 < mfcfs_score t q
        · rw [if_pos h1] at h
          exact htake _ h hel
        · rw [if_neg h1] at h
          by_cases h2 : |mfcfs_score t q - bs| ≤ 1 / 1000 ∧ q.arrival_time < bp.arrival_time
          · rw [if_pos h2] at h
            exact htake _ h hel
          · rw [if_neg h2] at h
            exact hkeep _ h
      · rw [if_neg hel] at h
        exact hkeep _ h

theorem mfcfs_pick_dom : ∀ (t : Int) (l : List (Nat × Process))
    (best : Option (Nat × Process)) (bs : ℚ) (k : Nat) (p : Process),
    (∀ (bi : Nat) (bp : Process), best = some (bi, bp) → bs = mfcfs_score t bp) →
    mfcfs_pick t l best bs = some (k, p) →
    (∀ (bi : Nat) (bp : Process), best = some (bi, bp) →
      mfcfs_score t bp < mfcfs_score t p ∨
        (mfcfs_score t bp = mfcfs_score t p ∧ p.arrival_time ≤ bp.arrival_time)) ∧
    (∀ jq ∈ l, jq.2.completed = false → jq.2.arrival_time ≤ t →
      mfcfs_score t jq.2 < mfcfs_score t p ∨
        (mfcfs_score t jq.2 = mfcfs_score t p ∧ p.arrival_time ≤ jq.2.arrival_time)) := by
  intro t l
  induction l with
  | nil =>
    intro best bs k p hbs h
    rw [mfcfs_pick] at h
    refine ⟨?_, by intro jq hjq; simp at hjq⟩
    intro bi bp hb
    rw [hb] at h
    simp only [Option.some_inj, Prod.mk.injEq] at h
    rw [h.2]
    exact Or.inr ⟨rfl, le_refl _⟩
  | cons ip rest ih =>
    intro best bs k p hbs h
    obtain ⟨i, q⟩ := ip
    cases best with
    | none =>
      rw [mfcfs_pick] at h
      by_cases hel : q.completed = false ∧ q.arrival_time ≤ t
      · rw [if_pos hel] at h
        have IH := ih (some (i, q)) (mfcfs_score t q) k p
          (by intro bi bp hb; simp only [Option.some_inj, Prod.mk.injEq] at hb; rw [hb.2]) h
        have domq := IH.1 i q rfl
        refine ⟨by intro bi bp hb; simp at hb, ?_⟩
        intro jq hjq hc ha
        rcases List.mem_cons.1 hjq with rfl | hjq'
        · exact domq
        · exact IH.2 jq hjq' hc ha
      · rw [if_neg hel] at h
        have IH := ih none bs k p (by intro bi bp hb; simp at hb) h
        refine ⟨by intro bi bp hb; simp at hb, ?_⟩
        intro jq hjq hc ha
        rcases List.mem_cons.1 hjq with rfl | hjq'
        · exact absurd ⟨hc, ha⟩ hel
        · exact IH.2 jq hjq' hc ha
    | some b =>
      obtain ⟨bi0, bp0⟩ := b
      have hbs0 : bs = mfcfs_score t bp0 := hbs bi0 bp0 rfl
      rw [mfcfs_pick] at h
      by_cases hel : q.completed = false ∧ q.arrival_time ≤ t
      · rw [if_pos hel] at h
        by_cases h1 : bs + 1 / 1000 < mfcfs_score t q
        · rw [if_pos h1] at h
          have hlt : mfcfs_score t bp0 < mfcfs_score t q := by
            rw [hbs0] at h1
            exact (score_band_lt_iff t q bp0).1 h1
          have IH := ih (some (i, q)) (mfcfs_score t q) k p
            (by intro bi bp hb; simp only [Option.some_inj, Prod.mk.injEq] at hb; rw [hb.2]) h
          have domq := IH.1 i q rfl
          refine ⟨?_, ?_⟩
          · intro bi bp hb
            simp only [Option.some_inj, Prod.mk.injEq] at hb
            rw [← hb.2]
            rcases domq with hq1 | ⟨hq2, _⟩
            · exact Or.inl (hlt.trans hq1)
            · exact Or.inl (hlt.trans_eq hq2)
          · intro jq hjq hc ha
            rcases List.mem_cons.1 hjq with rfl | hjq'
            · exact domq
            · exact IH.2 jq hjq' hc ha
        · rw [if_neg h1] at h
          by_cases h2 : |mfcfs_score t q - bs| ≤ 1 / 1000 ∧ q.arrival_time < bp0.arrival_time
          · rw [if_pos h2] at h
            have heqs : mfcfs_score t q = mfcfs_score t bp0 := by
              have := h2.1
              rw [hbs0] at this
              exact (score_band_eq_iff t q bp0).1 this
            have harr : q.arrival_time < bp0.arrival_time := h2.2
            have IH := ih (some (i, q)) (mfcfs_score t q) k p
              (by intro bi bp hb; simp only [Option.some_inj, Prod.mk.injEq] at hb; rw [hb.2]) h
            have domq := IH.1 i q rfl
            refine ⟨?_, ?_⟩
            · intro bi bp hb
              simp only [Option.some_inj, Prod.mk.injEq] at hb
              rw [← hb.2]
              rcases domq with hq1 | ⟨hq2, hpa⟩
              · exact Or.inl (heqs ▸ hq1)
              · exact Or.inr ⟨heqs ▸ hq2, hpa.trans (le_of_lt harr)⟩
            · intro jq hjq hc ha
              rcases List.mem_cons.1 hjq with rfl | hjq'
              · exact domq
              · exact IH.2 jq hjq' hc ha
          · rw [if_neg h2] at h
            have IH := ih (some (bi0, bp0)) bs k p hbs h
            have dom0 := IH.1 bi0 bp0 rfl
            have hle : mfcfs_score t q ≤ mfcfs_score t bp0 := by
              rw [hbs0] at h1
              by_contra hcon
              push_neg at hcon
              exact h1 ((score_band_lt_iff t q bp0).2 hcon)
            refine ⟨?_, ?_⟩
            · intro bi bp hb
              simp only [Option.some_inj, Prod.mk.injEq] at hb
              rw [← hb.2]
              exact dom0
            · intro jq hjq hc ha
              rcases List.mem_cons.1 hjq with rfl | hjq'
              · show mfcfs_score t q < mfcfs_score t p ∨
                  (mfcfs_score t q = mfcfs_score t p ∧ p.arrival_time ≤ q.arrival_time)
                rcases lt_or_eq_of_le hle with hqlt | hqeq
                · rcases dom0 with hd1 | ⟨hd2, _⟩
                  · exact Or.inl (hqlt.trans hd1)
                  · exact Or.inl (hqlt.trans_eq hd2)
                · have hband : |mfcfs_score t q - bs| ≤ 1 / 1000 := by
                    rw [hbs0]
                    exact (score_band_eq_iff t q bp0).2 hqeq
                  have harr : ¬ q.arrival_time < bp0.arrival_time := fun hlt => h2 ⟨hband, hlt⟩
                  push_neg at harr
                  rcases dom0 with hd1 | ⟨hd2, hpa⟩
                  · exact Or.inl (hqeq ▸ hd1)
                  · exact Or.inr ⟨hqeq ▸ hd2, hpa.trans harr⟩
              · exact IH.2 jq hjq' hc ha
      · rw [if_neg hel] at h
        have IH := ih (some (bi0, bp0)) bs k p hbs h
        refine ⟨?_, ?_⟩
        · intro bi bp hb
          simp only [Option.some_inj, Prod.mk.injEq] at hb
          rw [← hb.2]
          exact IH.1 bi0 bp0 rfl
        · intro jq hjq hc ha
          rcases List.mem_cons.1 hjq with rfl | hjq'
          · exact absurd ⟨hc, ha⟩ hel
          · exact IH.2 jq hjq' hc ha

theorem mfcfs_select_valid {ps : List Process} {t : Int} {k : Nat} {p : Process}
    (h : mfcfs_select ps t = some (k, p)) :
    ps[k]? = some p ∧ p.completed = false ∧ p.arrival_time ≤ t := by
  rcases mfcfs_pick_valid t (indexed 0 ps) none (-999999) k p h with heq | ⟨hm, hc, ha⟩
  · simp at heq
  · have h2 := indexed_mem ps 0 k p hm
    refine ⟨?_, hc, ha⟩
    simpa using h2.2

theorem mfcfs_select_none {ps : List Process} {t : Int}
    (h : mfcfs_select ps t = none) :
    ∀ p ∈ ps, p.completed = false → p.arrival_time ≤ t → False := by
  intro p hp hc ha
  rcases List.getElem?_of_mem hp with ⟨j, hj⟩
  have hmem := indexed_of_getElem? ps 0 j p hj
  exact mfcfs_pick_none t (indexed 0 ps) (-999999) h (0 + j, p) hmem ⟨hc, ha⟩

theorem mfcfs_select_dom {ps : List Process} {t : Int} {k : Nat} {p : Process}
    (h : mfcfs_select ps t = some (k, p)) :
    ∀ (j : Nat) (q : Process), ps[j]? = some q → q.completed = false → q.arrival_time ≤ t →
      mfcfs_score t q < mfcfs_score t p ∨
        (mfcfs_score t q = mfcfs_score t p ∧ p.arrival_time ≤ q.arrival_time) := by
  intro j q hj hc ha
  have hmem := indexed_of_getElem? ps 0 j q hj
  exact (mfcfs_pick_dom t (indexed 0 ps) none (-999999) k p
    (by intro bi bp hb; simp at hb) h).2 (0 + j, q) hmem hc ha

theorem sjf_pick_some_of_some : ∀ (t : Int) (l : List (Nat × Process))
    (b : Nat × Process) (sh : Int), sjf_pick t l (some b) sh ≠ none := by
  intro t l
  induction l with
  | nil => intro b sh h; simp [sjf_pick] at h
  | cons ip rest ih =>
    intro b sh h
    obtain ⟨i, q⟩ := ip
    obtain ⟨bi, bp⟩ := b
    rw [sjf_pick] at h
    by_cases hel : q.completed = false ∧ q.arrival_time ≤ t
    · rw [if_pos hel] at h
      by_cases h1 : q.burst_time < sh
      · rw [if_pos h1] at h; exact ih _ _ h
      · rw [if_neg h1] at h
        by_cases h2 : q.burst_time = sh ∧ q.arrival_time < bp.arrival_time
        · rw [if_pos h2] at h; exact ih _ _ h
        · rw [if_neg h2] at h; exact ih _ _ h
    · rw [if_neg hel] at h; exact ih _ _ h

theorem sjf_pick_none_qual : ∀ (t : Int) (l : List (Nat × Process)) (sh : Int),
    sjf_pick t l none sh = none →
    ∀ ip ∈ l, ip.2.completed = false → ip.2.arrival_time ≤ t → sh ≤ ip.2.burst_time := by
  intro t l
  induction l with
  | nil => intro sh _ ip hip; simp at hip
  | cons jp rest ih =>
    intro sh hres ip hip hc ha
    obtain ⟨j, q⟩ := jp
    rw [sjf_pick] at hres
    by_cases hel : q.completed = false ∧ q.arrival_time ≤ t
    · rw [if_pos hel] at hres
      by_cases h1 : q.burst_time < sh
      · rw [if_pos h1] at hres
        exact absurd hres (sjf_pick_some_of_some t rest _ _)
      · rw [if_neg h1] at hres
        rcases List.mem_cons.1 hip with rfl | hip'
        · show sh ≤ q.burst_time
          omega
        · exact ih sh hres ip hip' hc ha
    · rw [if_neg hel] at hres
      rcases List.mem_cons.1 hip with rfl | hip'
      · exact absurd ⟨hc, ha⟩ hel
      · exact ih sh hres ip hip' hc ha

theorem sjf_pick_valid : ∀ (t : Int) (l : List (Nat × Process))
    (sel : Option (Nat × Process)) (sh : Int) (k : Nat) (p : Process),
    sjf_pick t l sel sh = some (k, p) →
    sel = some (k, p) ∨ ((k, p) ∈ l ∧ p.completed = false ∧ p.arrival_time ≤ t) := by
  intro t l
  induction l with
  | nil => intro sel sh k p h; left; exact h
  | cons ip rest ih =>
    intro sel sh k p h
    obtain ⟨i, q⟩ := ip
    have htake : ∀ sh', sjf_pick t rest (some (i, q)) sh' = some (k, p) →
        (q.completed = false ∧ q.arrival_time ≤ t) →
        sel = some (k, p) ∨
          ((k, p) ∈ (i, q) :: rest ∧ p.completed = false ∧ p.arrival_time ≤ t) := by
      intro sh' hres hel
      rcases ih _ sh' k p hres with heq | ⟨hm, he⟩
      · right
        simp only [Option.some_inj, Prod.mk.injEq] at heq
        obtain ⟨e1, e2⟩ := heq
        subst e1
        subst e2
        exact ⟨by simp, hel⟩
      · right
        exact ⟨by simp [hm], he⟩
    have hkeep : ∀ sh', sjf_pick t rest sel sh' = some (k, p) →
        sel = some (k, p) ∨
          ((k, p) ∈ (i, q) :: rest ∧ p.completed = false ∧ p.arrival_time ≤ t) := by
      intro sh' hres
      rcases ih _ sh' k p hres with heq | ⟨hm, he⟩
      · left; exact heq
      · right; exact ⟨by simp [hm], he⟩
    cases sel with
    | none =>
      rw [sjf_pick] at h
      by_cases hel : q.completed = false ∧ q.arrival_time ≤ t
      · rw [if_pos hel] at h
        by_cases h1 : q.burst_time < sh
        · rw [if_pos h1] at h
          exact htake _ h hel
        · rw [if_neg h1] at h
          exact hkeep _ h
      · rw [if_neg hel] at h
        exact hkeep _ h
    | some b =>
      obtain ⟨si, sp⟩ := b
      rw [sjf_pick] at h
      by_cases hel : q.completed = false ∧ q.arrival_time ≤ t
      · rw [if_pos hel] at h
        by_cases h1 : q.burst_time < sh
        · rw [if_pos h1] at h
          exact htake _ h hel
        · rw [if_neg h1] at h
          by_cases h2 : q.burst_time = sh ∧ q.arrival_time < sp.arrival_time
          · rw [if_pos h2] at h
            exact htake _ h hel
          · rw [if_neg h2] at h
            exact hkeep _ h
      · rw [if_neg hel] at h
        exact hkeep _ h

theorem sjf_pick_burst : ∀ (t : Int) (l : List (Nat × Process))
    (sel : Option (Nat × Process)) (sh : Int) (k : Nat) (p : Process),
    (∀ (si : Nat) (sp : Process), sel = some (si, sp) → sp.burst_time = sh ∧ sh < 999999) →
    sh ≤ 999999 →
    sjf_pick t l sel sh = some (k, p) → p.burst_time < 999999 := by
  intro t l
  induction l with
  | nil =>
    intro sel sh k p hacc _ h
    rw [sjf_pick] at h
    have := hacc k p h
    omega
  | cons ip rest ih =>
    intro sel sh k p hacc hsh h
    obtain ⟨i, q⟩ := ip
    cases sel with
    | none =>
      rw [sjf_pick] at h
      by_cases hel : q.completed = false ∧ q.arrival_time ≤ t
      · rw [if_pos hel] at h
        by_cases h1 : q.burst_time < sh
        · rw [if_pos h1] at h
          refine ih _ _ k p ?_ (by omega) h
          intro si sp hb
          simp only [Option.some_inj, Prod.mk.injEq] at hb
          rw [← hb.2]
          omega
        · rw [if_neg h1] at h
          exact ih _ _ k p (by intro si sp hb; simp at hb) hsh h
      · rw [if_neg hel] at h
        exact ih _ _ k p (by intro si sp hb; simp at hb) hsh h
    | some b =>
      obtain ⟨si0, sp0⟩ := b
      have hacc0 := hacc si0 sp0 rfl
      rw [sjf_pick] at h
      by_cases hel : q.completed = false ∧ q.arrival_time ≤ t
      · rw [if_pos hel] at h
        by_cases h1 : q.burst_time < sh
        · rw [if_pos h1] at h
          refine ih _ _ k p ?_ (by omega) h
          intro si sp hb
          simp only [Option.some_inj, Prod.mk.injEq] at hb
          rw [← hb.2]
          omega
        · rw [if_neg h1] at h
          by_cases h2 : q.burst_time = sh ∧ q.arrival_time < sp0.arrival_time
          · rw [if_pos h2] at h
            refine ih _ _ k p ?_ hsh h
            intro si sp hb
            simp only [Option.some_inj, Prod.mk.injEq] at hb
            rw [← hb.2]
            omega
          · rw [if_neg h2] at h
            refine ih _ _ k p ?_ hsh h
            intro si sp hb
            simp only [Option.some_inj, Prod.mk.injEq] at hb
            rw [← hb.2]
            omega
      · rw [if_neg hel] at h
        refine ih _ _ k p ?_ hsh h
        intro si sp hb
        simp only [Option.some_inj, Prod.mk.injEq] at hb
        rw [← hb.2]
        omega

theorem sjf_select_valid {ps : List Process} {t : Int} {k : Nat} {p : Process}
    (h : sjf_select ps t = some (k, p)) :
    ps[k]? = some p ∧ p.completed = false ∧ p.arrival_time ≤ t := by
  rcases sjf_pick_valid t (indexed 0 ps) none 999999 k p h with heq | ⟨hm, hc, ha⟩
  · simp at heq
  · have h2 := indexed_mem ps 0 k p hm
    refine ⟨?_, hc, ha⟩
    simpa using h2.2

theorem sjf_select_none {ps : List Process} {t : Int}
    (h : sjf_select ps t = none) :
    ∀ p ∈ ps, p.completed = false → p.arrival_time ≤ t → 999999 ≤ p.burst_time := by
  intro p hp hc ha
  rcases List.getElem?_of_mem hp with ⟨j, hj⟩
  have hmem := indexed_of_getElem? ps 0 j p hj
  exact sjf_pick_none_qual t (indexed 0 ps) 999999 h (0 + j, p) hmem hc ha

theorem sjf_select_burst {ps : List Process} {t : Int} {k : Nat} {p : Process}
    (h : sjf_select ps t = some (k, p)) : p.burst_time < 999999 :=
  sjf_pick_burst t (indexed 0 ps) none 999999 k p (by intro si sp hb; simp at hb)
    (by omega) h

theorem mfcfs_selectSpec : SelectSpec mfcfs_select mfcfs_unsel := by
  refine ⟨?_, ?_, ?_⟩
  · intro ps t k p h
    exact mfcfs_select_valid h
  · intro ps t k p _ hu
    exact hu
  · intro ps t h p hp hc ha
    exact mfcfs_select_none h p hp hc ha

theorem sjf_selectSpec : SelectSpec sjf_select sjf_unsel := by
  refine ⟨?_, ?_, ?_⟩
  · intro ps t k p h
    exact sjf_select_valid h
  · intro ps t k p h hu
    have := sjf_select_burst h
    rw [sjf_unsel] at hu
    omega
  · intro ps t h p hp hc ha
    exact sjf_select_none h p hp hc ha

theorem lt_length_of_getElem? {α : Type} {l : List α} {k : Nat} {a : α}
    (h : l[k]? = some a) : k < l.length := by
  by_contra hc
  push_neg at hc
  rw [List.getElem?_eq_none hc] at h
  cases h

theorem getElem?_set_self' {α : Type} {l : List α} {i : Nat} {a : α} (h : i < l.length) :
    (l.set i a)[i]? = some a := by
  rw [List.getElem?_set]
  simp [h]

theorem mem_set_of_ne {α : Type} {l : List α} {k : Nat} {a p r : α}
    (hk : l[k]? = some p) (hr : r ∈ l) (hne : r ≠ p) : r ∈ l.set k a := by
  rcases List.getElem?_of_mem hr with ⟨j, hj⟩
  have hjk : j ≠ k := by
    intro h
    subst h
    rw [hj] at hk
    exact hne (Option.some_inj.1 hk)
  exact List.getElem?_mem (by rw [List.getElem?_set_ne (fun h => hjk h.symm)]; exact hj)

theorem map_proj_set {β : Type} (f : Process → β) {l : List Process} {i : Nat}
    {p p' : Process} (hi : l[i]? = some p) (hk : f p' = f p) :
    (l.set i p').map f = l.map f := by
  rw [List.map_set, hk]
  exact set_getElem?_self (by rw [List.getElem?_map, hi]; rfl)

theorem frame_length {ps l : List Process} (h : l.map keyOf = ps.map keyOf) :
    l.length = ps.length := by
  have := congrArg List.length h
  simpa using this

theorem frame_pid_map {ps l : List Process} (h : l.map keyOf = ps.map keyOf) :
    l.map (·.pid) = ps.map (·.pid) := by
  have h1 : (l.map keyOf).map (·.1) = (ps.map keyOf).map (·.1) := by rw [h]
  simpa [List.map_map, Function.comp, keyOf] using h1

theorem frame_mem {ps l : List Process} (h : l.map keyOf = ps.map keyOf) :
    ∀ p ∈ l, ∃ p0 ∈ ps, keyOf p = keyOf p0 := by
  intro p hp
  have : keyOf p ∈ ps.map keyOf := h ▸ List.mem_map_of_mem keyOf hp
  rcases List.mem_map.1 this with ⟨p0, hp0, he⟩
  exact ⟨p0, hp0, he.symm⟩

theorem pid_ne_of_nodup {l : List Process} (hnd : (l.map (·.pid)).Nodup)
    {i j : Nat} {p q : Process} (hi : l[i]? = some p) (hj : l[j]? = some q)
    (hij : i ≠ j) : p.pid ≠ q.pid := by
  intro he
  have h1 : (l.map (·.pid))[i]? = some p.pid := by rw [List.getElem?_map, hi]; rfl
  have h2 : (l.map (·.pid))[j]? = some q.pid := by rw [List.getElem?_map, hj]; rfl
  have hlen : i < (l.map (·.pid)).length := by
    rw [List.length_map]
    exact lt_length_of_getElem? hi
  exact hij (List.getElem?_inj hlen hnd (by rw [h1, h2, he]))

theorem np_step_none {select : List Process → Int → Option (Nat × Process)} {s : NPState}
    (h : select s.procs s.time = none) :
    np_step select s =
      if next_arrival_scan s.procs s.time 999999 = 999999 then s
      else { s with gantt := s.gantt ++ [⟨-1, s.time, next_arrival_scan s.procs s.time 999999⟩],
                    time := next_arrival_scan s.procs s.time 999999 } := by
  unfold np_step
  rw [h]

theorem np_step_some {select : List Process → Int → Option (Nat × Process)} {s : NPState}
    {k : Nat} {p : Process} (h : select s.procs s.time = some (k, p)) :
    np_step select s =
      { procs := s.procs.set k { p with completion_time := s.time + p.burst_time,
                                        completed := true },
        time := s.time + p.burst_time,
        completedCount := s.completedCount + 1,
        gantt := s.gantt ++ [⟨p.pid, s.time, s.time + p.burst_time⟩] } := by
  unfold np_step
  rw [h]

theorem npCore_step {select : List Process → Int → Option (Nat × Process)}
    {unsel : Process → Prop} (hspec : SelectSpec select unsel) {ps : List Process}
    {s : NPState} (inv : NPCore ps s) (hlt : s.completedCount < s.procs.length) :
    NPCore ps (np_step select s) := by
  rcases hsel : select s.procs s.time with _ | ⟨k, p⟩
  · rw [np_step_none hsel]
    by_cases hstop : next_arrival_scan s.procs s.time 999999 = 999999
    · rw [if_pos hstop]
      exact inv
    · rw [if_neg hstop]
      have hgt : s.time < next_arrival_scan s.procs s.time 999999 := by
        rcases na_scan_cases s.procs s.time 999999 with h | ⟨q, hq, h1, h2, h3, h4⟩
        · exact absurd h hstop
        · omega
      refine ⟨inv.frame, inv.bursts, inv.count, ?_, ?_, ?_⟩
      · intro q hq hqc
        have hb := inv.cbounds q hq hqc
        exact ⟨hb.1, le_trans hb.2 (le_of_lt hgt)⟩
      · intro hcnt
        exact absurd hcnt (Nat.ne_of_lt hlt)
      · exact inv.trace.append hgt
  · rw [np_step_some hsel]
    obtain ⟨hk, hc, ha⟩ := hspec.valid _ _ _ _ hsel
    have hpmem : p ∈ s.procs := List.getElem?_mem hk
    have hbp : 0 < p.burst_time := inv.bursts p hpmem
    have hklen : k < s.procs.length := lt_length_of_getElem? hk
    have hcmp : ({ p with completion_time := s.time + p.burst_time, completed := true } : Process).completed = true := rfl
    refine ⟨?_, ?_, ?_, ?_, ?_, ?_⟩
    · show (s.procs.set k { p with completion_time := s.time + p.burst_time, completed := true }).map keyOf = ps.map keyOf
      exact (map_proj_set keyOf hk (rfl : keyOf { p with completion_time := s.time + p.burst_time, completed := true } = keyOf p)).trans inv.frame
    · intro q hq
      rcases mem_set_elim hq with rfl | ⟨j, _, hjq⟩
      · exact hbp
      · exact inv.bursts q (List.getElem?_mem hjq)
    · have hflip := countP_set_flip (·.completed) s.procs k
        { p with completion_time := s.time + p.burst_time, completed := true } p hk
      simp only [hcmp, hc] at hflip
      norm_num at hflip
      have hcc := inv.count
      show s.completedCount + 1 = (s.procs.set k { p with completion_time := s.time + p.burst_time, completed := true }).countP (·.completed)
      omega
    · intro q hq hqc
      rcases mem_set_elim hq with rfl | ⟨j, _, hjq⟩
      · constructor
        · show p.arrival_time + p.burst_time ≤ s.time + p.burst_time
          omega
        · show s.time + p.burst_time ≤ s.time + p.burst_time
          omega
      · have hb := inv.cbounds q (List.getElem?_mem hjq) hqc
        refine ⟨hb.1, ?_⟩
        show q.completion_time ≤ s.time + p.burst_time
        omega
    · intro _
      right
      exact ⟨{ p with completion_time := s.time + p.burst_time, completed := true }, List.getElem?_mem (getElem?_set_self' hklen), hcmp, rfl⟩
    · exact inv.trace.append (by omega)

theorem npGantt_step {select : List Process → Int → Option (Nat × Process)}
    {unsel : Process → Prop} (hspec : SelectSpec select unsel)
    {s : NPState} (gv : NPGantt unsel s) : NPGantt unsel (np_step select s) := by
  rcases hsel : select s.procs s.time with _ | ⟨k, p⟩
  · rw [np_step_none hsel]
    by_cases hstop : next_arrival_scan s.procs s.time 999999 = 999999
    · rw [if_pos hstop]
      exact gv
    · rw [if_neg hstop]
      rcases na_scan_cases s.procs s.time 999999 with h | ⟨q, hq, h1, h2, h3, h4⟩
      · exact absurd h hstop
      refine ⟨gv.pidsPos, gv.pidsNodup, ?_, ?_, ?_, ?_⟩
      · intro i r hir
        rw [busyDur_append]
        have hrp : 0 < r.pid := gv.pidsPos r (List.getElem?_mem hir)
        rw [if_neg (by show ¬ ((-1 : Int) = r.pid); omega), add_zero]
        exact gv.busy i r hir
      · intro b hb
        rcases List.mem_append.1 hb with h | h
        · exact gv.owners b h
        · simp at h
          subst h
          exact Or.inl rfl
      · intro b _ _
        refine ⟨q, hq, h1, ?_⟩
        show q.arrival_time ≤ next_arrival_scan s.procs s.time 999999
        omega
      · rcases gv.coal with hco | hun
        · cases hlast : s.gantt.getLast? with
          | none =>
            left
            refine coalesced_append hco ?_
            intro c hcf
            rw [hlast] at hcf
            cases hcf
          | some c =>
            by_cases hcp : c.pid = -1
            · right
              obtain ⟨r, hr, hrc, hra⟩ := gv.idleLast c hlast hcp
              exact ⟨r, hr, hrc, hspec.none_unsel _ _ hsel r hr hrc hra⟩
            · left
              refine coalesced_append hco ?_
              intro c' hcf
              rw [hlast] at hcf
              have hcc : c' = c := (Option.some_inj.1 hcf).symm
              subst hcc
              show ¬ (c'.pid = (-1 : Int))
              exact hcp
        · right
          exact hun
  · rw [np_step_some hsel]
    obtain ⟨hk, hc, ha⟩ := hspec.valid _ _ _ _ hsel
    have hklen := lt_length_of_getElem? hk
    have hpmem : p ∈ s.procs := List.getElem?_mem hk
    have hppid : 0 < p.pid := gv.pidsPos p hpmem
    have hP1 : ({ p with completion_time := s.time + p.burst_time, completed := true } : Process).pid = p.pid := rfl
    have hP2 : ({ p with completion_time := s.time + p.burst_time, completed := true } : Process).completed = true := rfl
    have hP3 : ({ p with completion_time := s.time + p.burst_time, completed := true } : Process).burst_time = p.burst_time := rfl
    have hB1 : ((⟨p.pid, s.time, s.time + p.burst_time⟩ : GanttBlock)).pid = p.pid := rfl
    refine ⟨?_, ?_, ?_, ?_, ?_, ?_⟩
    · intro q hq
      rcases mem_set_elim hq with rfl | ⟨j, _, hjq⟩
      · rw [hP1]
        exact hppid
      · exact gv.pidsPos q (List.getElem?_mem hjq)
    · have heq : (s.procs.set k { p with completion_time := s.time + p.burst_time, completed := true }).map (·.pid) = s.procs.map (·.pid) :=
        map_proj_set (·.pid) hk hP1
      show ((s.procs.set k { p with completion_time := s.time + p.burst_time, completed := true }).map (·.pid)).Nodup
      rw [heq]
      exact gv.pidsNodup
    · intro i r hir
      by_cases hik : i = k
      · subst hik
        rw [getElem?_set_self' hklen] at hir
        have hr : r = { p with completion_time := s.time + p.burst_time, completed := true } :=
          (Option.some_inj.1 hir).symm
        subst hr
        rw [busyDur_append, hP1, hP2, hP3, hB1, if_pos rfl, if_pos rfl]
        rw [gv.busy i p hk, if_neg (by rw [hc]; exact fun h => by cases h)]
        show 0 + (s.time + p.burst_time - s.time) = p.burst_time
        omega
      · rw [List.getElem?_set_ne (fun h => hik h.symm)] at hir
        rw [busyDur_append, hB1]
        have hrpid : p.pid ≠ r.pid := pid_ne_of_nodup gv.pidsNodup hk hir (fun h => hik h.symm)
        rw [if_neg hrpid, add_zero]
        exact gv.busy i r hir
    · intro b hb
      rcases List.mem_append.1 hb with h | h
      · rcases gv.owners b h with hidle | ⟨j, r, hjr, hrc, hrp⟩
        · exact Or.inl hidle
        · right
          have hjk : j ≠ k := by
            intro he
            subst he
            rw [hk] at hjr
            have : r = p := (Option.some_inj.1 hjr).symm
            subst this
            rw [hc] at hrc
            cases hrc
          exact ⟨j, r, by rw [List.getElem?_set_ne (fun h => hjk h.symm)]; exact hjr, hrc, hrp⟩
      · simp at h
        subst h
        right
        exact ⟨k, { p with completion_time := s.time + p.burst_time, completed := true },
          getElem?_set_self' hklen, hP2, hP1⟩
    · intro b hlast hbpid
      rw [List.getLast?_concat] at hlast
      have hbb : b = ⟨p.pid, s.time, s.time + p.burst_time⟩ := (Option.some_inj.1 hlast).symm
      subst hbb
      rw [hB1] at hbpid
      omega
    · rcases gv.coal with hco | ⟨r, hr, hrc, hru⟩
      · left
        refine coalesced_append hco ?_
        intro c hcf
        rw [hB1]
        rcases gv.owners c (List.mem_of_mem_getLast? hcf) with hidle | ⟨j, r, hjr, hrc, hrp⟩
        · rw [hidle]
          omega
        · have hjk : j ≠ k := by
            intro he
            subst he
            rw [hk] at hjr
            have : r = p := (Option.some_inj.1 hjr).symm
            subst this
            rw [hc] at hrc
            cases hrc
          have := pid_ne_of_nodup gv.pidsNodup hjr hk hjk
          rw [← hrp]
          exact this
      · right
        have hrnep : r ≠ p := by
          intro he
          subst he
          exact hspec.sel_ok _ _ _ _ hsel hru
        exact ⟨r, mem_set_of_ne hk hr hrnep, hrc, hru⟩

theorem npCore_init {ps : List Process} (hb : ∀ p ∈ ps, 0 < p.burst_time)
    (hc : ∀ p ∈ ps, p.completed = false) : NPCore ps ⟨ps, 0, 0, []⟩ := by
  refine ⟨rfl, hb, ?_, ?_, ?_, ?_⟩
  · symm
    rw [List.countP_eq_zero]
    intro p hp
    simp [hc p hp]
  · intro p hp hpc
    rw [hc p hp] at hpc
    cases hpc
  · intro hcnt
    left
    cases ps with
    | nil => rfl
    | cons q l => cases hcnt
  · exact ⟨by intro b hb'; simp at hb', Or.inl ⟨rfl, rfl⟩, List.chain'_nil,
      by intro b hb'; simp at hb'⟩

theorem npGantt_init {unsel : Process → Prop} {ps : List Process}
    (hp : ∀ p ∈ ps, 0 < p.pid) (hnd : (ps.map (·.pid)).Nodup)
    (hc : ∀ p ∈ ps, p.completed = false) : NPGantt unsel ⟨ps, 0, 0, []⟩ := by
  refine ⟨hp, hnd, ?_, ?_, ?_, ?_⟩
  · intro i p hip
    rw [busyDur_nil, hc p (List.getElem?_mem hip)]
    rfl
  · intro b hb
    simp at hb
  · intro b hlast
    simp at hlast
  · left
    exact List.chain'_nil

theorem np_run_master {select : List Process → Int → Option (Nat × Process)}
    {unsel : Process → Prop} (hspec : SelectSpec select unsel) {ps : List Process} :
    ∀ (fuel : Nat) (s s' : NPState), NPCore ps s → np_run select fuel s = some s' →
      NPCore ps s' ∧ s'.completedCount = s'.procs.length ∧
        ∀ p ∈ s'.procs, p.completed = true := by
  intro fuel
  induction fuel with
  | zero =>
    intro s s' _ h
    rw [np_run] at h
    cases h
  | succ fuel ih =>
    intro s s' inv h
    rw [np_run] at h
    by_cases hlt : s.completedCount < s.procs.length
    · rw [if_pos hlt] at h
      exact ih _ _ (npCore_step hspec inv hlt) h
    · rw [if_neg hlt] at h
      have hss : s = s' := Option.some_inj.1 h
      subst hss
      have hcnt := inv.count
      have hle := @List.countP_le_length Process (·.completed) s.procs
      have heq : s.completedCount = s.procs.length := by omega
      refine ⟨inv, heq, ?_⟩
      intro p hp
      have hall := List.countP_eq_length.1
        (by omega : s.procs.countP (·.completed) = s.procs.length) p hp
      simpa using hall

theorem np_run_gantt {select : List Process → Int → Option (Nat × Process)}
    {unsel : Process → Prop} (hspec : SelectSpec select unsel) {ps : List Process} :
    ∀ (fuel : Nat) (s s' : NPState), NPCore ps s → NPGantt unsel s →
      np_run select fuel s = some s' → NPGantt unsel s' := by
  intro fuel
  induction fuel with
  | zero =>
    intro s s' _ _ h
    rw [np_run] at h
    cases h
  | succ fuel ih =>
    intro s s' inv gv h
    rw [np_run] at h
    by_cases hlt : s.completedCount < s.procs.length
    · rw [if_pos hlt] at h
      exact ih _ _ (npCore_step hspec inv hlt) (npGantt_step hspec gv) h
    · rw [if_neg hlt] at h
      have hss : s = s' := Option.some_inj.1 h
      subst hss
      exact gv

theorem np_step_gantt_head {select : List Process → Int → Option (Nat × Process)}
    {s : NPState} {b : GanttBlock} (hb : s.gantt.head? = some b) :
    (np_step select s).gantt.head? = some b := by
  rcases hsel : select s.procs s.time with _ | ⟨k, p⟩
  · rw [np_step_none hsel]
    by_cases hstop : next_arrival_scan s.procs s.time 999999 = 999999
    · rw [if_pos hstop]
      exact hb
    · rw [if_neg hstop]
      show (s.gantt ++ [_]).head? = some b
      rw [List.head?_append, hb]
      rfl
  · rw [np_step_some hsel]
    show (s.gantt ++ [_]).head? = some b
    rw [List.head?_append, hb]
    rfl

theorem np_run_gantt_head {select : List Process → Int → Option (Nat × Process)} :
    ∀ (fuel : Nat) (s s' : NPState) (b : GanttBlock), s.gantt.head? = some b →
      np_run select fuel s = some s' → s'.gantt.head? = some b := by
  intro fuel
  induction fuel with
  | zero =>
    intro s s' b _ h
    rw [np_run] at h
    cases h
  | succ fuel ih =>
    intro s s' b hb h
    rw [np_run] at h
    by_cases hlt : s.completedCount < s.procs.length
    · rw [if_pos hlt] at h
      exact ih _ _ b (np_step_gantt_head hb) h
    · rw [if_neg hlt] at h
      have hss : s = s' := Option.some_inj.1 h
      subst hss
      exact hb

theorem np_run_stuck {select : List Process → Int → Option (Nat × Process)} :
    ∀ (fuel : Nat) (s : NPState), select s.procs s.time = none →
      next_arrival_scan s.procs s.time 999999 = 999999 →
      s.completedCount < s.procs.length → np_run select fuel s = none := by
  intro fuel
  induction fuel with
  | zero =>
    intro s _ _ _
    rw [np_run]
  | succ fuel ih =>
    intro s hsel hna hlt
    rw [np_run, if_pos hlt]
    have hstep : np_step select s = s := by rw [np_step_none hsel, if_pos hna]
    rw [hstep]
    exact ih s hsel hna hlt

theorem enqueueIdx_eq_of_none (cond : Process → Prop) [DecidablePred cond]
    {s : RRState} {j : Nat} (h : s.procs[j]? = none) : enqueueIdx cond s j = s := by
  unfold enqueueIdx
  rw [h]

theorem enqueueIdx_eq_of_cond (cond : Process → Prop) [DecidablePred cond]
    {s : RRState} {j : Nat} {p : Process} (h : s.procs[j]? = some p)
    (hcond : p.completed = false ∧ cond p ∧ 0 < p.remaining_time ∧
      s.inQueue.getD j false = false) :
    enqueueIdx cond s j =
      { s with queue := s.queue ++ [j], rear := s.rear + 1,
               inQueue := s.inQueue.set j true } := by
  unfold enqueueIdx
  rw [h]
  show (if p.completed = false ∧ cond p ∧ 0 < p.remaining_time ∧
      s.inQueue.getD j false = false then
      { s with queue := s.queue ++ [j], rear := s.rear + 1,
               inQueue := s.inQueue.set j true } else s) = _
  rw [if_pos hcond]

theorem enqueueIdx_eq_of_not (cond : Process → Prop) [DecidablePred cond]
    {s : RRState} {j : Nat} {p : Process} (h : s.procs[j]? = some p)
    (hcond : ¬ (p.completed = false ∧ cond p ∧ 0 < p.remaining_time ∧
      s.inQueue.getD j false = false)) :
    enqueueIdx cond s j = s := by
  unfold enqueueIdx
  rw [h]
  show (if p.completed = false ∧ cond p ∧ 0 < p.remaining_time ∧
      s.inQueue.getD j false = false then
      { s with queue := s.queue ++ [j], rear := s.rear + 1,
               inQueue := s.inQueue.set j true } else s) = _
  rw [if_neg hcond]

theorem enqueueIdx_fields (cond : Process → Prop) [DecidablePred cond]
    (s : RRState) (j : Nat) :
    (enqueueIdx cond s j).procs = s.procs ∧ (enqueueIdx cond s j).time = s.time ∧
      (enqueueIdx cond s j).gantt = s.gantt ∧
      (enqueueIdx cond s j).completedCount = s.completedCount ∧
      ∃ add : List Nat, (enqueueIdx cond s j).queue = s.queue ++ add := by
  rcases hpj : s.procs[j]? with _ | p
  · rw [enqueueIdx_eq_of_none cond hpj]
    exact ⟨rfl, rfl, rfl, rfl, [], by simp⟩
  · by_cases hcond : p.completed = false ∧ cond p ∧ 0 < p.remaining_time ∧
      s.inQueue.getD j false = false
    · rw [enqueueIdx_eq_of_cond cond hpj hcond]
      exact ⟨rfl, rfl, rfl, rfl, [j], rfl⟩
    · rw [enqueueIdx_eq_of_not cond hpj hcond]
      exact ⟨rfl, rfl, rfl, rfl, [], by simp⟩

theorem enqueueAll_fields (cond : Process → Prop) [DecidablePred cond] :
    ∀ (js : List Nat) (s : RRState),
    (enqueueAll cond js s).procs = s.procs ∧ (enqueueAll cond js s).time = s.time ∧
      (enqueueAll cond js s).gantt = s.gantt ∧
      (enqueueAll cond js s).completedCount = s.completedCount ∧
      ∃ add : List Nat, (enqueueAll cond js s).queue = s.queue ++ add := by
  intro js
  induction js with
  | nil => intro s; exact ⟨rfl, rfl, rfl, rfl, [], by simp [enqueueAll]⟩
  | cons j0 rest ih =>
    intro s
    rw [enqueueAll]
    obtain ⟨h1, h2, h3, h4, add0, h5⟩ := enqueueIdx_fields cond s j0
    obtain ⟨g1, g2, g3, g4, add1, g5⟩ := ih (enqueueIdx cond s j0)
    refine ⟨g1.trans h1, g2.trans h2, g3.trans h3, g4.trans h4, add0 ++ add1, ?_⟩
    rw [g5, h5, List.append_assoc]

theorem enqueueIdx_queue_sub (cond : Process → Prop) [DecidablePred cond]
    {s : RRState} {j0 j : Nat} (h : j ∈ (enqueueIdx cond s j0).queue) :
    j ∈ s.queue ∨ (j = j0 ∧ ∃ p, s.procs[j0]? = some p ∧ p.completed = false ∧
      cond p ∧ 0 < p.remaining_time) := by
  rcases hpj : s.procs[j0]? with _ | p
  · rw [enqueueIdx_eq_of_none cond hpj] at h
    exact Or.inl h
  · by_cases hcond : p.completed = false ∧ cond p ∧ 0 < p.remaining_time ∧
      s.inQueue.getD j0 false = false
    · rw [enqueueIdx_eq_of_cond cond hpj hcond] at h
      rcases List.mem_append.1 h with h' | h'
      · exact Or.inl h'
      · simp at h'
        exact Or.inr ⟨h', p, rfl, hcond.1, hcond.2.1, hcond.2.2.1⟩
    · rw [enqueueIdx_eq_of_not cond hpj hcond] at h
      exact Or.inl h

theorem enqueueAll_queue_sub (cond : Process → Prop) [DecidablePred cond] :
    ∀ (js : List Nat) (s : RRState) (j : Nat), j ∈ (enqueueAll cond js s).queue →
    j ∈ s.queue ∨ (j ∈ js ∧ ∃ p, s.procs[j]? = some p ∧ p.completed = false ∧
      cond p ∧ 0 < p.remaining_time) := by
  intro js
  induction js with
  | nil => intro s j h; exact Or.inl h
  | cons j0 rest ih =>
    intro s j h
    rw [enqueueAll] at h
    obtain ⟨hprocs, _, _, _, _⟩ := enqueueIdx_fields cond s j0
    rcases ih _ j h with h' | ⟨hmem, p, hp, h1, h2, h3⟩
    · rcases enqueueIdx_queue_sub cond h' with h'' | ⟨rfl, p, hp, h1, h2, h3⟩
      · exact Or.inl h''
      · exact Or.inr ⟨by simp, p, hp, h1, h2, h3⟩
    · rw [hprocs] at hp
      exact Or.inr ⟨by simp [hmem], p, hp, h1, h2, h3⟩

theorem enqueueIdx_qinv (cond : Process → Prop) [DecidablePred cond]
    {s : RRState} {j0 : Nat} (hc : ∀ p, cond p → p.arrival_time ≤ s.time)
    (inv : QInv s) : QInv (enqueueIdx cond s j0) := by
  rcases hpj : s.procs[j0]? with _ | p
  · rw [enqueueIdx_eq_of_none cond hpj]
    exact inv
  · by_cases hcond : p.completed = false ∧ cond p ∧ 0 < p.remaining_time ∧
      s.inQueue.getD j0 false = false
    · rw [enqueueIdx_eq_of_cond cond hpj hcond]
      have hj0len : j0 < s.procs.length := lt_length_of_getElem? hpj
      have hj0notin : j0 ∉ s.queue := by
        intro hmem
        have := (inv.inq j0 hj0len).2 hmem
        rw [hcond.2.2.2] at this
        cases this
      refine ⟨?_, ?_, ?_, ?_⟩
      · show (s.inQueue.set j0 true).length = s.procs.length
        rw [List.length_set]
        exact inv.iql
      · intro j hj
        rcases List.mem_append.1 hj with h' | h'
        · exact inv.queue_ok j h'
        · simp at h'
          subst h'
          exact ⟨p, hpj, hcond.1, hc p hcond.2.1⟩
      · rw [List.nodup_append]
        refine ⟨inv.nodupq, List.nodup_singleton j0, ?_⟩
        intro a ha hb
        simp at hb
        subst hb
        exact hj0notin ha
      · intro j hjlen
        by_cases hjj : j = j0
        · subst hjj
          rw [getD_set_self (by rw [inv.iql]; exact hjlen)]
          simp
        · rw [getD_set_ne (fun h => hjj h.symm)]
          rw [inv.inq j hjlen]
          constructor
          · intro h'
            exact List.mem_append.2 (Or.inl h')
          · intro h'
            rcases List.mem_append.1 h' with h'' | h''
            · exact h''
            · simp at h''
              exact absurd h'' hjj
    · rw [enqueueIdx_eq_of_not cond hpj hcond]
      exact inv

theorem enqueueAll_qinv (cond : Process → Prop) [DecidablePred cond] :
    ∀ (js : List Nat) (s : RRState), (∀ p, cond p → p.arrival_time ≤ s.time) →
    QInv s → QInv (enqueueAll cond js s) := by
  intro js
  induction js with
  | nil => intro s _ inv; exact inv
  | cons j0 rest ih =>
    intro s hc inv
    rw [enqueueAll]
    obtain ⟨_, htime, _, _, _⟩ := enqueueIdx_fields cond s j0
    exact ih _ (by rw [htime]; exact hc) (enqueueIdx_qinv cond hc inv)

theorem enqueueAll_queue_mono (cond : Process → Prop) [DecidablePred cond] :
    ∀ (js : List Nat) (s : RRState) (j : Nat), j ∈ s.queue →
      j ∈ (enqueueAll cond js s).queue := by
  intro js s j hj
  obtain ⟨_, _, _, _, add, hq⟩ := enqueueAll_fields cond js s
  rw [hq]
  exact List.mem_append.2 (Or.inl hj)

theorem enqueueAll_mem_of_cond (cond : Process → Prop) [DecidablePred cond] :
    ∀ (js : List Nat) (s : RRState) (j : Nat) (p : Process),
    (∀ q, cond q → q.arrival_time ≤ s.time) → QInv s → j ∈ js →
    s.procs[j]? = some p → p.completed = false → cond p → 0 < p.remaining_time →
    j ∈ (enqueueAll cond js s).queue := by
  intro js
  induction js with
  | nil => intro s j p _ _ hmem; simp at hmem
  | cons j0 rest ih =>
    intro s j p hc inv hmem hp hcomp hcond hrem
    rw [enqueueAll]
    obtain ⟨hprocs, htime, _, _, _⟩ := enqueueIdx_fields cond s j0
    rcases List.mem_cons.1 hmem with rfl | hmem'
    · by_cases hinq : s.inQueue.getD j false = false
      · have := enqueueIdx_eq_of_cond cond hp ⟨hcomp, hcond, hrem, hinq⟩
        apply enqueueAll_queue_mono
        rw [this]
        exact List.mem_append.2 (Or.inr (by simp))
      · have hjlen : j < s.procs.length := lt_length_of_getElem? hp
        have hmemq : j ∈ s.queue := by
          cases hgd : s.inQueue.getD j false with
          | false => exact absurd hgd hinq
          | true => exact (inv.inq j hjlen).1 hgd
        apply enqueueAll_queue_mono
        obtain ⟨_, _, _, _, add, hq⟩ := enqueueIdx_fields cond s j
        rw [hq]
        exact List.mem_append.2 (Or.inl hmemq)
    · exact ih _ j p (by rw [htime]; exact hc) (enqueueIdx_qinv cond hc inv) hmem'
        (by rw [hprocs]; exact hp) hcomp hcond hrem

theorem rr_step_empty {quantum : Int} {s : RRState}
    (h : (enqueuePass (fun p => p.arrival_time ≤ s.time) s).queue = []) :
    rr_step quantum s = rr_idle (enqueuePass (fun p => p.arrival_time ≤ s.time) s) := by
  unfold rr_step
  rw [h]

theorem rr_step_cons {quantum : Int} {s : RRState} {idx : Nat} {qrest : List Nat}
    (h : (enqueuePass (fun p => p.arrival_time ≤ s.time) s).queue = idx :: qrest) :
    rr_step quantum s =
      rr_slice quantum
        { enqueuePass (fun p => p.arrival_time ≤ s.time) s with
          queue := qrest,
          inQueue := (enqueuePass (fun p => p.arrival_time ≤ s.time) s).inQueue.set idx false }
        idx
        ((enqueuePass (fun p => p.arrival_time ≤ s.time) s).procs.getD idx procDefault) := by
  unfold rr_step
  rw [h]

theorem enqueuePass_fields (cond : Process → Prop) [DecidablePred cond] (s : RRState) :
    (enqueuePass cond s).procs = s.procs ∧ (enqueuePass cond s).time = s.time ∧
      (enqueuePass cond s).gantt = s.gantt ∧
      (enqueuePass cond s).completedCount = s.completedCount ∧
      ∃ add : List Nat, (enqueuePass cond s).queue = s.queue ++ add :=
  enqueueAll_fields cond (List.range s.procs.length) s

theorem rrCore_enqueuePass {ps : List Process} {t0 : Int} {s : RRState}
    (cond : Process → Prop) [DecidablePred cond]
    (hc : ∀ p, cond p → p.arrival_time ≤ s.time) (inv : RRCore ps t0 s) :
    RRCore ps t0 (enqueuePass cond s) := by
  obtain ⟨hp, ht, hg, hcnt, _⟩ := enqueuePass_fields cond s
  have hqinv : QInv (enqueuePass cond s) := enqueueAll_qinv cond _ s hc inv.qinv
  refine ⟨?_, ?_, ?_, ?_, ?_, ?_, ?_, ?_, ?_, hqinv, ?_, ?_⟩
  · show (enqueuePass cond s).procs.map keyOf = ps.map keyOf
    rw [hp]
    exact inv.frame
  · show ∀ p ∈ (enqueuePass cond s).procs, 0 < p.burst_time
    rw [hp]
    exact inv.bursts
  · show (enqueuePass cond s).completedCount = (enqueuePass cond s).procs.countP (·.completed)
    rw [hp, hcnt]
    exact inv.count
  · show ∀ p ∈ (enqueuePass cond s).procs, 0 ≤ p.remaining_time
    rw [hp]
    exact inv.rem_nonneg
  · show ∀ p ∈ (enqueuePass cond s).procs, p.remaining_time ≤ p.burst_time
    rw [hp]
    exact inv.rem_le
  · show ∀ p ∈ (enqueuePass cond s).procs, p.completed = true → p.remaining_time = 0
    rw [hp]
    exact inv.comp_rem
  · show ∀ p ∈ (enqueuePass cond s).procs, p.completed = false → 0 < p.remaining_time
    rw [hp]
    exact inv.uncomp_rem
  · show ∀ p ∈ (enqueuePass cond s).procs, p.remaining_time < p.burst_time →
      p.arrival_time + (p.burst_time - p.remaining_time) ≤ (enqueuePass cond s).time
    rw [hp, ht]
    exact inv.exec_le
  · show ∀ p ∈ (enqueuePass cond s).procs, p.completed = true →
      p.arrival_time + p.burst_time ≤ p.completion_time ∧
        p.completion_time ≤ (enqueuePass cond s).time
    rw [hp, ht]
    exact inv.cbounds
  · show (enqueuePass cond s).completedCount = (enqueuePass cond s).procs.length →
      (enqueuePass cond s).procs = [] ∨ ∃ p ∈ (enqueuePass cond s).procs,
        p.completed = true ∧ p.completion_time = (enqueuePass cond s).time
    rw [hp, ht, hcnt]
    exact inv.lastComp
  · show TraceInv t0 (enqueuePass cond s).gantt (enqueuePass cond s).time
    rw [hg, ht]
    exact inv.trace

theorem enqueuePass_queue_sub (cond : Process → Prop) [DecidablePred cond]
    {s : RRState} {j : Nat} (h : j ∈ (enqueuePass cond s).queue) :
    j ∈ s.queue ∨ (∃ p, s.procs[j]? = some p ∧ p.completed = false ∧
      cond p ∧ 0 < p.remaining_time) := by
  rcases enqueueAll_queue_sub cond (List.range s.procs.length) s j h with h' | ⟨_, hrest⟩
  · exact Or.inl h'
  · exact Or.inr hrest

theorem rrCore_idle {ps : List Process} {t0 : Int} {s1 : RRState}
    (inv : RRCore ps t0 s1) (hlt : s1.completedCount < s1.procs.length) :
    (∀ s', rr_idle s1 = Sum.inl s' → RRCore ps t0 s') ∧
    (∀ s', rr_idle s1 = Sum.inr s' → RRCore ps t0 s' ∧ s' = s1 ∧
      next_arrival_scan s1.procs s1.time 1000000000 = 1000000000) := by
  unfold rr_idle
  by_cases hna : next_arrival_scan s1.procs s1.time 1000000000 = 1000000000
  · rw [if_pos hna]
    constructor
    · intro s' h
      cases h
    · intro s' h
      have hs : s1 = s' := Sum.inr.inj h
      subst hs
      exact ⟨inv, rfl, hna⟩
  · rw [if_neg hna]
    constructor
    · intro s' h
      have hs : _ = s' := Sum.inl.inj h
      subst hs
      have hgt : s1.time < next_arrival_scan s1.procs s1.time 1000000000 := by
        rcases na_scan_cases s1.procs s1.time 1000000000 with h' | ⟨q, hq, h1, h2, h3, h4⟩
        · exact absurd h' hna
        · omega
      refine ⟨inv.frame, inv.bursts, inv.count, inv.rem_nonneg, inv.rem_le,
        inv.comp_rem, inv.uncomp_rem, ?_, ?_, ?_, ?_, ?_⟩
      · intro p hp hrb
        have := inv.exec_le p hp hrb
        show p.arrival_time + (p.burst_time - p.remaining_time) ≤
          next_arrival_scan s1.procs s1.time 1000000000
        omega
      · intro p hp hpc
        have := inv.cbounds p hp hpc
        refine ⟨this.1, ?_⟩
        show p.completion_time ≤ next_arrival_scan s1.procs s1.time 1000000000
        omega
      · refine ⟨inv.qinv.iql, ?_, inv.qinv.nodupq, ?_⟩
        · intro j hj
          show ∃ p, s1.procs[j]? = some p ∧ p.completed = false ∧
            p.arrival_time ≤ next_arrival_scan s1.procs s1.time 1000000000
          obtain ⟨p, h1, h2, h3⟩ := inv.qinv.queue_ok j hj
          exact ⟨p, h1, h2, by omega⟩
        · exact inv.qinv.inq
      · intro hcnt
        exact absurd hcnt (Nat.ne_of_lt hlt)
      · exact inv.trace.record hgt
    · intro s' h
      cases h

theorem rr_slice_ne_inr {quantum : Int} {s2 : RRState} {idx : Nat} {p : Process}
    {s' : RRState} : rr_slice quantum s2 idx p ≠ Sum.inr s' := by
  unfold rr_slice rr_after
  by_cases h1 : p.completed = true ∨ p.remaining_time ≤ 0
  · rw [if_pos h1]
    intro h
    cases h
  · rw [if_neg h1]
    by_cases h2 : (if p.remaining_time < quantum then p.remaining_time else quantum) ≤ 0
    · rw [if_pos h2]
      intro h
      cases h
    · rw [if_neg h2]
      by_cases h3 : ({ p with started := true, remaining_time := p.remaining_time - (if p.remaining_time < quantum then p.remaining_time else quantum) } : Process).remaining_time = 0 ∧ ({ p with started := true, remaining_time := p.remaining_time - (if p.remaining_time < quantum then p.remaining_time else quantum) } : Process).completed = false
      · rw [if_pos h3]
        intro h
        cases h
      · rw [if_neg h3]
        by_cases h4 : 0 < ({ p with started := true, remaining_time := p.remaining_time - (if p.remaining_time < quantum then p.remaining_time else quantum) } : Process).remaining_time
        · rw [if_pos h4]
          intro h
          cases h
        · rw [if_neg h4]
          intro h
          cases h

theorem rrCore_after {ps : List Process} {t0 startT : Int} {s4 : RRState}
    {idx : Nat} {p' : Process}
    (hp4 : s4.procs[idx]? = some p')
    (hp'c : p'.completed = false)
    (hp'a : p'.arrival_time ≤ startT)
    (hstartle : startT ≤ s4.time)
    (hidx4 : idx ∉ s4.queue)
    (hfr : s4.procs.map keyOf = ps.map keyOf)
    (hb : ∀ p ∈ s4.procs, 0 < p.burst_time)
    (hcnt : s4.completedCount = s4.procs.countP (·.completed))
    (hrnn : ∀ p ∈ s4.procs, 0 ≤ p.remaining_time)
    (hrle : ∀ p ∈ s4.procs, p.remaining_time ≤ p.burst_time)
    (hcr : ∀ p ∈ s4.procs, p.completed = true → p.remaining_time = 0)
    (hur : ∀ (j : Nat) (q : Process), j ≠ idx → s4.procs[j]? = some q →
      q.completed = false → 0 < q.remaining_time)
    (hex : ∀ p ∈ s4.procs, p.remaining_time < p.burst_time →
      p.arrival_time + (p.burst_time - p.remaining_time) ≤ s4.time)
    (hcb : ∀ p ∈ s4.procs, p.completed = true →
      p.arrival_time + p.burst_time ≤ p.completion_time ∧ p.completion_time ≤ s4.time)
    (hqi : QInv s4)
    (hltc : s4.completedCount < s4.procs.length)
    (htr : TraceInv t0 s4.gantt s4.time) :
    ∀ s', rr_after startT s4 idx p' = Sum.inl s' → RRCore ps t0 s' := by
  have hp'mem : p' ∈ s4.procs := List.getElem?_mem hp4
  have hidxlen : idx < s4.procs.length := lt_length_of_getElem? hp4
  have hb' : 0 < p'.burst_time := hb p' hp'mem
  have hrn' : 0 ≤ p'.remaining_time := hrnn p' hp'mem
  obtain ⟨h5p, h5t, h5g, h5c, _⟩ :=
    enqueuePass_fields (fun q => startT < q.arrival_time ∧ q.arrival_time ≤ s4.time) s4
  have hqi5 : QInv (enqueuePass (fun q => startT < q.arrival_time ∧ q.arrival_time ≤ s4.time) s4) :=
    enqueueAll_qinv _ _ s4 (fun q hq => hq.2) hqi
  have hidx5 : idx ∉ (enqueuePass (fun q => startT < q.arrival_time ∧ q.arrival_time ≤ s4.time) s4).queue := by
    intro hmem
    rcases enqueuePass_queue_sub _ hmem with h' | ⟨pp, hpp, _, hcond, _⟩
    · exact hidx4 h'
    · rw [hp4] at hpp
      have : pp = p' := (Option.some_inj.1 hpp).symm
      subst this
      omega
  have hexC : p'.remaining_time = 0 → p'.arrival_time + p'.burst_time ≤ s4.time := by
    intro h0
    have := hex p' hp'mem (by omega)
    omega
  intro s' hstep
  unfold rr_after at hstep
  by_cases hdone : p'.remaining_time = 0 ∧ p'.completed = false
  · rw [if_pos hdone] at hstep
    have hs : _ = s' := Sum.inl.inj hstep
    subst hs
    have hset5 : ∀ (j : Nat), j ≠ idx →
        ((enqueuePass (fun q => startT < q.arrival_time ∧ q.arrival_time ≤ s4.time) s4).procs.set idx { p' with completed := true, completion_time := s4.time })[j]? = s4.procs[j]? := by
      intro j hj
      rw [List.getElem?_set_ne (fun h => hj h.symm), h5p]
    have hsetidx : ((enqueuePass (fun q => startT < q.arrival_time ∧ q.arrival_time ≤ s4.time) s4).procs.set idx { p' with completed := true, completion_time := s4.time })[idx]? = some { p' with completed := true, completion_time := s4.time } := by
      rw [h5p]
      exact getElem?_set_self' hidxlen
    have hmemelim : ∀ q, q ∈ ((enqueuePass (fun q => startT < q.arrival_time ∧ q.arrival_time ≤ s4.time) s4).procs.set idx { p' with completed := true, completion_time := s4.time }) → q = { p' with completed := true, completion_time := s4.time } ∨ ∃ j, j ≠ idx ∧ s4.procs[j]? = some q := by
      intro q hq
      rcases mem_set_elim hq with h' | ⟨j, hj, hjq⟩
      · exact Or.inl h'
      · rw [h5p] at hjq
        exact Or.inr ⟨j, hj, hjq⟩
    refine ⟨?_, ?_, ?_, ?_, ?_, ?_, ?_, ?_, ?_, ?_, ?_, ?_⟩
    · show (_ : List Process).map keyOf = ps.map keyOf
      rw [h5p]
      exact (map_proj_set keyOf hp4 (rfl : keyOf { p' with completed := true, completion_time := s4.time } = keyOf p')).trans hfr
    · intro q hq
      rcases hmemelim q hq with rfl | ⟨j, _, hjq⟩
      · exact hb'
      · exact hb q (List.getElem?_mem hjq)
    · have hflip := countP_set_flip (·.completed)
        (enqueuePass (fun q => startT < q.arrival_time ∧ q.arrival_time ≤ s4.time) s4).procs idx
        { p' with completed := true, completion_time := s4.time } p' (by rw [h5p]; exact hp4)
      have hP2 : ({ p' with completed := true, completion_time := s4.time } : Process).completed = true := rfl
      simp only [hP2, hp'c] at hflip
      norm_num at hflip
      show _ + 1 = _
      rw [hflip, h5c, h5p, hcnt]
    · intro q hq
      rcases hmemelim q hq with rfl | ⟨j, _, hjq⟩
      · show 0 ≤ p'.remaining_time
        omega
      · exact hrnn q (List.getElem?_mem hjq)
    · intro q hq
      rcases hmemelim q hq with rfl | ⟨j, _, hjq⟩
      · show p'.remaining_time ≤ p'.burst_time
        exact hrle p' hp'mem
      · exact hrle q (List.getElem?_mem hjq)
    · intro q hq
      rcases hmemelim q hq with rfl | ⟨j, _, hjq⟩
      · intro _
        show p'.remaining_time = 0
        exact hdone.1
      · exact hcr q (List.getElem?_mem hjq)
    · intro q hq
      rcases hmemelim q hq with rfl | ⟨j, hj, hjq⟩
      · intro hcon
        cases hcon
      · exact hur j q hj hjq
    · intro q hq
      rcases hmemelim q hq with rfl | ⟨j, _, hjq⟩
      · intro _
        show p'.arrival_time + (p'.burst_time - p'.remaining_time) ≤ (enqueuePass (fun q => startT < q.arrival_time ∧ q.arrival_time ≤ s4.time) s4).time
        rw [h5t]
        have := hexC hdone.1
        omega
      · intro hrb
        show q.arrival_time + (q.burst_time - q.remaining_time) ≤ (enqueuePass (fun q => startT < q.arrival_time ∧ q.arrival_time ≤ s4.time) s4).time
        rw [h5t]
        exact hex q (List.getElem?_mem hjq) hrb
    · intro q hq
      rcases hmemelim q hq with rfl | ⟨j, _, hjq⟩
      · intro _
        constructor
        · show p'.arrival_time + p'.burst_time ≤ s4.time
          exact hexC hdone.1
        · show (s4.time : Int) ≤ (enqueuePass (fun q => startT < q.arrival_time ∧ q.arrival_time ≤ s4.time) s4).time
          rw [h5t]
      · intro hqc
        have hq2 := hcb q (List.getElem?_mem hjq) hqc
        refine ⟨hq2.1, ?_⟩
        show q.completion_time ≤ (enqueuePass (fun q => startT < q.arrival_time ∧ q.arrival_time ≤ s4.time) s4).time
        rw [h5t]
        exact hq2.2
    · refine ⟨?_, ?_, hqi5.nodupq, ?_⟩
      · show (enqueuePass (fun q => startT < q.arrival_time ∧ q.arrival_time ≤ s4.time) s4).inQueue.length = _
        rw [List.length_set]
        rw [hqi5.iql]
      · intro j hj
        obtain ⟨pj, hpj, hpjc, hpja⟩ := hqi5.queue_ok j hj
        have hjidx : j ≠ idx := fun h => hidx5 (h ▸ hj)
        refine ⟨pj, ?_, hpjc, ?_⟩
        · rw [List.getElem?_set_ne (fun h => hjidx h.symm)]
          exact hpj
        · show pj.arrival_time ≤ (enqueuePass (fun q => startT < q.arrival_time ∧ q.arrival_time ≤ s4.time) s4).time
          exact hpja
      · intro j hjl
        rw [List.length_set, h5p] at hjl
        have := hqi5.inq j (by rw [h5p]; exact hjl)
        exact this
    · intro _
      right
      exact ⟨{ p' with completed := true, completion_time := s4.time },
        List.getElem?_mem hsetidx, rfl, h5t.symm⟩
    · show TraceInv t0 (enqueuePass (fun q => startT < q.arrival_time ∧ q.arrival_time ≤ s4.time) s4).gantt (enqueuePass (fun q => startT < q.arrival_time ∧ q.arrival_time ≤ s4.time) s4).time
      rw [h5g, h5t]
      exact htr
  · rw [if_neg hdone] at hstep
    by_cases hmore : 0 < p'.remaining_time
    · rw [if_pos hmore] at hstep
      have hs : _ = s' := Sum.inl.inj hstep
      subst hs
      refine ⟨?_, ?_, ?_, ?_, ?_, ?_, ?_, ?_, ?_, ?_, ?_, ?_⟩
      · show (enqueuePass (fun q => startT < q.arrival_time ∧ q.arrival_time ≤ s4.time) s4).procs.map keyOf = ps.map keyOf
        rw [h5p]
        exact hfr
      · show ∀ p ∈ (enqueuePass (fun q => startT < q.arrival_time ∧ q.arrival_time ≤ s4.time) s4).procs, 0 < p.burst_time
        rw [h5p]
        exact hb
      · show (enqueuePass (fun q => startT < q.arrival_time ∧ q.arrival_time ≤ s4.time) s4).completedCount = _
        rw [h5p, h5c]
        exact hcnt
      · show ∀ p ∈ (enqueuePass (fun q => startT < q.arrival_time ∧ q.arrival_time ≤ s4.time) s4).procs, 0 ≤ p.remaining_time
        rw [h5p]
        exact hrnn
      · show ∀ p ∈ (enqueuePass (fun q => startT < q.arrival_time ∧ q.arrival_time ≤ s4.time) s4).procs, p.remaining_time ≤ p.burst_time
        rw [h5p]
        exact hrle
      · show ∀ p ∈ (enqueuePass (fun q => startT < q.arrival_time ∧ q.arrival_time ≤ s4.time) s4).procs, p.completed = true → p.remaining_time = 0
        rw [h5p]
        exact hcr
      · show ∀ p ∈ (enqueuePass (fun q => startT < q.arrival_time ∧ q.arrival_time ≤ s4.time) s4).procs, p.completed = false → 0 < p.remaining_time
        rw [h5p]
        intro q hq hqc
        rcases List.getElem?_of_mem hq with ⟨j, hjq⟩
        by_cases hjidx : j = idx
        · subst hjidx
          rw [hp4] at hjq
          have : q = p' := (Option.some_inj.1 hjq).symm
          subst this
          exact hmore
        · exact hur j q hjidx hjq hqc
      · show ∀ p ∈ (enqueuePass (fun q => startT < q.arrival_time ∧ q.arrival_time ≤ s4.time) s4).procs, p.remaining_time < p.burst_time → p.arrival_time + (p.burst_time - p.remaining_time) ≤ (enqueuePass (fun q => startT < q.arrival_time ∧ q.arrival_time ≤ s4.time) s4).time
        rw [h5p, h5t]
        exact hex
      · show ∀ p ∈ (enqueuePass (fun q => startT < q.arrival_time ∧ q.arrival_time ≤ s4.time) s4).procs, p.completed = true → p.arrival_time + p.burst_time ≤ p.completion_time ∧ p.completion_time ≤ (enqueuePass (fun q => startT < q.arrival_time ∧ q.arrival_time ≤ s4.time) s4).time
        rw [h5p, h5t]
        exact hcb
      · refine ⟨?_, ?_, ?_, ?_⟩
        · show ((enqueuePass (fun q => startT < q.arrival_time ∧ q.arrival_time ≤ s4.time) s4).inQueue.set idx true).length = _
          rw [List.length_set]
          exact hqi5.iql
        · intro j hj
          rcases List.mem_append.1 hj with h' | h'
          · obtain ⟨pj, hpj, hpjc, hpja⟩ := hqi5.queue_ok j h'
            refine ⟨pj, hpj, hpjc, ?_⟩
            show pj.arrival_time ≤ (enqueuePass (fun q => startT < q.arrival_time ∧ q.arrival_time ≤ s4.time) s4).time
            exact hpja
          · simp at h'
            subst h'
            refine ⟨p', by rw [h5p]; exact hp4, hp'c, ?_⟩
            show p'.arrival_time ≤ (enqueuePass (fun q => startT < q.arrival_time ∧ q.arrival_time ≤ s4.time) s4).time
            rw [h5t]
            omega
        · rw [List.nodup_append]
          refine ⟨hqi5.nodupq, List.nodup_singleton idx, ?_⟩
          intro a ha hb'
          simp at hb'
          subst hb'
          exact hidx5 ha
        · intro j hjl
          rw [h5p] at hjl
          by_cases hjidx : j = idx
          · subst hjidx
            rw [getD_set_self (by rw [hqi5.iql, h5p]; exact hjl)]
            simp
          · rw [getD_set_ne (fun h => hjidx h.symm)]
            rw [hqi5.inq j (by rw [h5p]; exact hjl)]
            constructor
            · intro h'
              exact List.mem_append.2 (Or.inl h')
            · intro h'
              rcases List.mem_append.1 h' with h'' | h''
              · exact h''
              · simp at h''
                exact absurd h'' hjidx
      · intro hcon
        have h1 : (enqueuePass (fun q => startT < q.arrival_time ∧ q.arrival_time ≤ s4.time) s4).completedCount = s4.completedCount := h5c
        have h2 : (enqueuePass (fun q => startT < q.arrival_time ∧ q.arrival_time ≤ s4.time) s4).procs.length = s4.procs.length := by rw [h5p]
        rw [h1, h2] at hcon
        omega
      · show TraceInv t0 (enqueuePass (fun q => startT < q.arrival_time ∧ q.arrival_time ≤ s4.time) s4).gantt ((enqueuePass (fun q => startT < q.arrival_time ∧ q.arrival_time ≤ s4.time) s4)).time
        rw [h5g, h5t]
        exact htr
    · exfalso
      have : p'.remaining_time = 0 := by omega
      exact hdone ⟨this, hp'c⟩

theorem countP_set_same {α : Type} (f : α → Bool) (l : List α) (i : Nat) (a b : α)
    (h : l[i]? = some b) (hab : f a = f b) :
    (l.set i a).countP f = l.countP f := by
  have hflip := countP_set_flip f l i a b h
  rw [hab] at hflip
  exact Nat.add_right_cancel hflip

theorem QInv.shift {s : RRState} (hqi : QInv s) (idx : Nat) (p' : Process)
    (g : List GanttBlock) (d : Int) (hidx : idx ∉ s.queue) (hd : 0 ≤ d) :
    QInv ⟨s.procs.set idx p', s.time + d, s.completedCount, s.queue, s.rear, s.inQueue, g⟩ := by
  refine ⟨?_, ?_, hqi.nodupq, ?_⟩
  · show s.inQueue.length = (s.procs.set idx p').length
    rw [List.length_set]
    exact hqi.iql
  · intro j hj
    obtain ⟨pj, hpj, hpjc, hpja⟩ := hqi.queue_ok j hj
    have hjidx : j ≠ idx := fun h => hidx (h ▸ hj)
    refine ⟨pj, ?_, hpjc, ?_⟩
    · show (s.procs.set idx p')[j]? = some pj
      rw [List.getElem?_set_ne (fun h => hjidx h.symm)]
      exact hpj
    · show pj.arrival_time ≤ s.time + d
      omega
  · intro j hjl
    show s.inQueue.getD j false = true ↔ j ∈ s.queue
    have hjl' : j < s.procs.length := by
      have h2 : j < (s.procs.set idx p').length := hjl
      rw [List.length_set] at h2
      exact h2
    exact hqi.inq j hjl'

theorem rrCore_slice {ps : List Process} {t0 : Int} {s2 : RRState} {idx : Nat}
    {p : Process} {quantum : Int}
    (inv : RRCore ps t0 s2)
    (hp2 : s2.procs[idx]? = some p)
    (hpa : p.arrival_time ≤ s2.time)
    (hidx2 : idx ∉ s2.queue)
    (hq1 : 1 ≤ quantum)
    (hltc : s2.completedCount < s2.procs.length) :
    ∀ s', rr_slice quantum s2 idx p = Sum.inl s' → RRCore ps t0 s' := by
  intro s' hstep
  unfold rr_slice at hstep
  by_cases hskip : p.completed = true ∨ p.remaining_time ≤ 0
  · rw [if_pos hskip] at hstep
    have hs : _ = s' := Sum.inl.inj hstep
    subst hs
    exact inv
  · rw [if_neg hskip] at hstep
    push_neg at hskip
    obtain ⟨hpcf, hprem0⟩ := hskip
    have hpc : p.completed = false := by revert hpcf; cases p.completed <;> simp
    set r := if p.remaining_time < quantum then p.remaining_time else quantum with hrdef
    have hrpos : 0 < r := by rw [hrdef]; split <;> omega
    have hrle2 : r ≤ p.remaining_time := by rw [hrdef]; split <;> omega
    rw [if_neg (not_le.2 hrpos)] at hstep
    have hidxlen : idx < s2.procs.length := lt_length_of_getElem? hp2
    have hc1 : ({ p with started := true, remaining_time := p.remaining_time - r } : Process).completed = false := hpc
    refine rrCore_after ?_ ?_ ?_ ?_ ?_ ?_ ?_ ?_ ?_ ?_ ?_ ?_ ?_ ?_ ?_ ?_ ?_ s' hstep
    · show (s2.procs.set idx { p with started := true, remaining_time := p.remaining_time - r })[idx]? = some { p with started := true, remaining_time := p.remaining_time - r }
      exact getElem?_set_self' hidxlen
    · exact hpc
    · exact hpa
    · show s2.time ≤ s2.time + r
      omega
    · exact hidx2
    · show (s2.procs.set idx { p with started := true, remaining_time := p.remaining_time - r }).map keyOf = ps.map keyOf
      exact (map_proj_set keyOf hp2 (rfl : keyOf { p with started := true, remaining_time := p.remaining_time - r } = keyOf p)).trans inv.frame
    · show ∀ q ∈ s2.procs.set idx { p with started := true, remaining_time := p.remaining_time - r }, 0 < q.burst_time
      intro q hq
      rcases mem_set_elim hq with rfl | ⟨j, _, hjq⟩
      · show 0 < p.burst_time
        exact inv.bursts p (List.getElem?_mem hp2)
      · exact inv.bursts q (List.getElem?_mem hjq)
    · show s2.completedCount = (s2.procs.set idx { p with started := true, remaining_time := p.remaining_time - r }).countP (·.completed)
      rw [countP_set_same (·.completed) s2.procs idx
        { p with started := true, remaining_time := p.remaining_time - r } p hp2
        (hc1.trans hpc.symm)]
      exact inv.count
    · show ∀ q ∈ s2.procs.set idx { p with started := true, remaining_time := p.remaining_time - r }, 0 ≤ q.remaining_time
      intro q hq
      rcases mem_set_elim hq with rfl | ⟨j, _, hjq⟩
      · show (0 : Int) ≤ p.remaining_time - r
        omega
      · exact inv.rem_nonneg q (List.getElem?_mem hjq)
    · show ∀ q ∈ s2.procs.set idx { p with started := true, remaining_time := p.remaining_time - r }, q.remaining_time ≤ q.burst_time
      intro q hq
      rcases mem_set_elim hq with rfl | ⟨j, _, hjq⟩
      · show p.remaining_time - r ≤ p.burst_time
        have := inv.rem_le p (List.getElem?_mem hp2)
        omega
      · exact inv.rem_le q (List.getElem?_mem hjq)
    · show ∀ q ∈ s2.procs.set idx { p with started := true, remaining_time := p.remaining_time - r }, q.completed = true → q.remaining_time = 0
      intro q hq
      rcases mem_set_elim hq with rfl | ⟨j, _, hjq⟩
      · intro h
        rw [hc1] at h
        exact Bool.noConfusion h
      · exact inv.comp_rem q (List.getElem?_mem hjq)
    · intro j q hj hjq hqc
      rw [show ({ s2 with procs := s2.procs.set idx { p with started := true, remaining_time := p.remaining_time - r }, gantt := ganttRecord s2.gantt p.pid s2.time (s2.time + r), time := s2.time + r } : RRState).procs = s2.procs.set idx { p with started := true, remaining_time := p.remaining_time - r } from rfl] at hjq
      rw [List.getElem?_set_ne (fun h => hj h.symm)] at hjq
      exact inv.uncomp_rem q (List.getElem?_mem hjq) hqc
    · show ∀ q ∈ s2.procs.set idx { p with started := true, remaining_time := p.remaining_time - r }, q.remaining_time < q.burst_time → q.arrival_time + (q.burst_time - q.remaining_time) ≤ s2.time + r
      intro q hq
      rcases mem_set_elim hq with rfl | ⟨j, _, hjq⟩
      · intro _
        show p.arrival_time + (p.burst_time - (p.remaining_time - r)) ≤ s2.time + r
        by_cases hfull : p.remaining_time < p.burst_time
        · have := inv.exec_le p (List.getElem?_mem hp2) hfull
          omega
        · have := inv.rem_le p (List.getElem?_mem hp2)
          omega
      · intro hlt
        have := inv.exec_le q (List.getElem?_mem hjq) hlt
        omega
    · show ∀ q ∈ s2.procs.set idx { p with started := true, remaining_time := p.remaining_time - r }, q.completed = true → q.arrival_time + q.burst_time ≤ q.completion_time ∧ q.completion_time ≤ s2.time + r
      intro q hq
      rcases mem_set_elim hq with rfl | ⟨j, _, hjq⟩
      · intro h
        rw [hc1] at h
        exact Bool.noConfusion h
      · intro h
        have := inv.cbounds q (List.getElem?_mem hjq) h
        exact ⟨this.1, by omega⟩
    · exact QInv.shift inv.qinv idx { p with started := true, remaining_time := p.remaining_time - r } (ganttRecord s2.gantt p.pid s2.time (s2.time + r)) r hidx2 (le_of_lt hrpos)
    · show s2.completedCount < (s2.procs.set idx { p with started := true, remaining_time := p.remaining_time - r }).length
      rw [List.length_set]
      exact hltc
    · show TraceInv t0 (ganttRecord s2.gantt p.pid s2.time (s2.time + r)) (s2.time + r)
      exact inv.trace.record (by omega)

theorem rrCore_dequeue {ps : List Process} {t0 : Int} {s1 : RRState} {idx : Nat}
    {qrest : List Nat} (inv : RRCore ps t0 s1) (hq : s1.queue = idx :: qrest) :
    RRCore ps t0 { s1 with queue := qrest, inQueue := s1.inQueue.set idx false } := by
  have hmemq : idx ∈ s1.queue := by rw [hq]; exact List.mem_cons_self idx qrest
  obtain ⟨pj, hpj, _, _⟩ := inv.qinv.queue_ok idx hmemq
  have hidxlen : idx < s1.procs.length := lt_length_of_getElem? hpj
  have hnd : (idx :: qrest).Nodup := by rw [← hq]; exact inv.qinv.nodupq
  have hnotin : idx ∉ qrest := (List.nodup_cons.1 hnd).1
  refine ⟨inv.frame, inv.bursts, inv.count, inv.rem_nonneg, inv.rem_le, inv.comp_rem,
    inv.uncomp_rem, inv.exec_le, inv.cbounds, ?_, inv.lastComp, inv.trace⟩
  refine ⟨?_, ?_, (List.nodup_cons.1 hnd).2, ?_⟩
  · show (s1.inQueue.set idx false).length = s1.procs.length
    rw [List.length_set]
    exact inv.qinv.iql
  · intro j hj
    have : j ∈ s1.queue := by rw [hq]; exact List.mem_cons.2 (Or.inr hj)
    exact inv.qinv.queue_ok j this
  · intro j hjl
    by_cases hji : j = idx
    · subst hji
      rw [getD_set_self (by rw [inv.qinv.iql]; exact hjl)]
      simp [hnotin]
    · rw [getD_set_ne (fun h => hji h.symm)]
      rw [inv.qinv.inq j hjl, hq]
      constructor
      · intro h
        rcases List.mem_cons.1 h with h' | h'
        · exact absurd h' hji
        · exact h'
      · intro h
        exact List.mem_cons.2 (Or.inr h)

theorem rrCore_step {ps : List Process} {t0 quantum : Int} {s : RRState}
    (inv : RRCore ps t0 s) (hq1 : 1 ≤ quantum)
    (hltc : s.completedCount < s.procs.length) :
    (∀ s', rr_step quantum s = Sum.inl s' → RRCore ps t0 s') ∧
    (∀ s', rr_step quantum s = Sum.inr s' → RRCore ps t0 s' ∧
      ∀ p ∈ s'.procs, p.completed = false → 1000000000 ≤ p.arrival_time) := by
  have passInv : RRCore ps t0 (enqueuePass (fun p => p.arrival_time ≤ s.time) s) :=
    rrCore_enqueuePass _ (fun p hp => hp) inv
  obtain ⟨hpP, htP, _, hcP, _⟩ := enqueuePass_fields (fun p => p.arrival_time ≤ s.time) s
  have hltP : (enqueuePass (fun p => p.arrival_time ≤ s.time) s).completedCount <
      (enqueuePass (fun p => p.arrival_time ≤ s.time) s).procs.length := by
    rw [hpP, hcP]
    exact hltc
  cases hqe : (enqueuePass (fun p => p.arrival_time ≤ s.time) s).queue with
  | nil =>
    constructor
    · intro s' hstep
      rw [rr_step_empty hqe] at hstep
      exact (rrCore_idle passInv hltP).1 s' hstep
    · intro s' hstep
      rw [rr_step_empty hqe] at hstep
      obtain ⟨hinv', hs', hna⟩ := (rrCore_idle passInv hltP).2 s' hstep
      refine ⟨hinv', ?_⟩
      intro p hp hpc
      rw [hs', hpP] at hp
      by_cases harr : p.arrival_time ≤ s.time
      · exfalso
        have hrem : 0 < p.remaining_time := inv.uncomp_rem p hp hpc
        rcases List.getElem?_of_mem hp with ⟨j, hj⟩
        have hjr : j ∈ List.range s.procs.length :=
          List.mem_range.2 (lt_length_of_getElem? hj)
        have := enqueueAll_mem_of_cond (fun q => q.arrival_time ≤ s.time)
          (List.range s.procs.length) s j p (fun q hcq => hcq) inv.qinv hjr hj hpc harr hrem
        rw [show (enqueueAll (fun q => q.arrival_time ≤ s.time) (List.range s.procs.length) s) = enqueuePass (fun q => q.arrival_time ≤ s.time) s from rfl, hqe] at this
        cases this
      · have hlt : s.time < p.arrival_time := by omega
        have hle := na_scan_le_qual
          (enqueuePass (fun q => q.arrival_time ≤ s.time) s).procs
          (enqueuePass (fun q => q.arrival_time ≤ s.time) s).time 1000000000 p
          (by rw [hpP]; exact hp) hpc (by rw [htP]; exact hlt)
        rw [hna] at hle
        exact hle
  | cons idx qrest =>
    have hmemq : idx ∈ (enqueuePass (fun p => p.arrival_time ≤ s.time) s).queue := by
      rw [hqe]; exact List.mem_cons_self idx qrest
    obtain ⟨pj, hpj, hpjc, hpja⟩ := passInv.qinv.queue_ok idx hmemq
    have hgd : (enqueuePass (fun p => p.arrival_time ≤ s.time) s).procs.getD idx procDefault = pj := by
      rw [List.getD_eq_getElem?_getD, hpj]
      rfl
    have hnd : (idx :: qrest).Nodup := by rw [← hqe]; exact passInv.qinv.nodupq
    have inv2 : RRCore ps t0 { enqueuePass (fun p => p.arrival_time ≤ s.time) s with
        queue := qrest,
        inQueue := (enqueuePass (fun p => p.arrival_time ≤ s.time) s).inQueue.set idx false } :=
      rrCore_dequeue passInv hqe
    constructor
    · intro s' hstep
      rw [rr_step_cons hqe, hgd] at hstep
      exact rrCore_slice inv2 hpj hpja ((List.nodup_cons.1 hnd).1) hq1 hltP s' hstep
    · intro s' hstep
      rw [rr_step_cons hqe] at hstep
      exact absurd hstep rr_slice_ne_inr

theorem rrCore_init {ps : List Process}
    (hb : ∀ p ∈ ps, 0 < p.burst_time)
    (hc : ∀ p ∈ ps, p.completed = false)
    (hr : ∀ p ∈ ps, p.remaining_time = p.burst_time) :
    RRCore ps (rr_t0 ps) (rr_initState ps) := by
  refine ⟨rfl, hb, ?_, ?_, ?_, ?_, ?_, ?_, ?_, ?_, ?_, ?_⟩
  · show 0 = ps.countP (·.completed)
    symm
    rw [List.countP_eq_zero]
    intro p hp
    rw [hc p hp]
    simp
  · intro p hp
    have h1 := hr p hp
    have h2 := hb p hp
    omega
  · intro p hp
    have h1 := hr p hp
    omega
  · intro p hp hcon
    rw [hc p hp] at hcon
    exact Bool.noConfusion hcon
  · intro p hp _
    have h1 := hr p hp
    have h2 := hb p hp
    omega
  · intro p hp hlt
    have h1 := hr p hp
    exfalso
    omega
  · intro p hp hcon
    rw [hc p hp] at hcon
    exact Bool.noConfusion hcon
  · refine ⟨?_, ?_, List.nodup_nil, ?_⟩
    · show (List.replicate ps.length false).length = ps.length
      exact List.length_replicate ps.length false
    · intro j hj
      exact absurd hj (List.not_mem_nil j)
    · intro j hjl
      show (List.replicate ps.length false).getD j false = true ↔ j ∈ ([] : List Nat)
      constructor
      · intro h
        rw [List.getD_eq_getElem?_getD, List.getElem?_replicate] at h
        by_cases hjl' : j < ps.length
        · rw [if_pos hjl'] at h
          exact Bool.noConfusion h
        · rw [if_neg hjl'] at h
          exact Bool.noConfusion h
      · intro h
        exact absurd h (List.not_mem_nil j)
  · intro h
    left
    have h0 : (0 : Nat) = ps.length := h
    exact List.length_eq_zero.1 h0.symm
  · refine ⟨?_, Or.inl ⟨rfl, rfl⟩, List.chain'_nil, ?_⟩
    · intro b hb'
      have hb2 : ([] : List GanttBlock).head? = some b := hb'
      exact absurd hb2 (by simp)
    · intro b hb'
      exact absurd hb' (List.not_mem_nil b)

theorem rr_run_master {ps : List Process} {t0 quantum : Int} (hq1 : 1 ≤ quantum) :
    ∀ (fuel : Nat) (s : RRState), RRCore ps t0 s →
    ∀ s', rr_run quantum fuel s = some s' →
    RRCore ps t0 s' ∧ ((∀ p ∈ s'.procs, p.completed = true) ∨
      (∀ p ∈ s'.procs, p.completed = false → 1000000000 ≤ p.arrival_time)) := by
  intro fuel
  induction fuel with
  | zero =>
    intro s _ s' h
    exact absurd h (by rw [rr_run]; exact Option.noConfusion)
  | succ fuel ih =>
    intro s inv s' h
    rw [rr_run] at h
    by_cases hlt : s.completedCount < s.procs.length
    · rw [if_pos hlt] at h
      cases hstep : rr_step quantum s with
      | inl s1 =>
        rw [hstep] at h
        exact ih s1 ((rrCore_step inv hq1 hlt).1 s1 hstep) s' h
      | inr s1 =>
        rw [hstep] at h
        have hs : s1 = s' := Option.some_inj.1 h
        subst hs
        obtain ⟨inv', hsent⟩ := (rrCore_step inv hq1 hlt).2 s1 hstep
        exact ⟨inv', Or.inr hsent⟩
    · rw [if_neg hlt] at h
      have hs : s = s' := Option.some_inj.1 h
      subst hs
      refine ⟨inv, Or.inl ?_⟩
      have hcount := inv.count
      have hle := @List.countP_le_length Process (·.completed) s.procs
      have heq : s.procs.countP (·.completed) = s.procs.length := by omega
      intro p hp
      have := List.countP_eq_length.1 heq p hp
      simpa using this

theorem lastEnd_recordOk {t0 t : Int} {g : List GanttBlock} (htr : TraceInv t0 g t) :
    g = [] ∨ ∃ c, g.getLast? = some c ∧ c.end_time = t := by
  rcases htr.lastEnd with ⟨h1, _⟩ | h2
  · exact Or.inl h1
  · exact Or.inr h2

theorem coalesced_record {g : List GanttBlock} {who t e : Int}
    (hco : coalesced g)
    (h : g = [] ∨ ∃ c, g.getLast? = some c ∧ c.end_time = t) :
    coalesced (ganttRecord g who t e) := by
  rcases List.eq_nil_or_concat g with hnil | ⟨L, c, hLc⟩
  · subst hnil
    rw [ganttRecord_nil]
    exact List.chain'_singleton _
  · rw [List.concat_eq_append] at hLc
    subst hLc
    have hlastc : (L ++ [c]).getLast? = some c := by simp
    have hce : c.end_time = t := by
      rcases h with hnil | ⟨c', hc', he'⟩
      · exact absurd hnil (by simp)
      · rw [hlastc] at hc'
        rw [Option.some_inj.1 hc']
        exact he'
    rw [ganttRecord_concat]
    by_cases hcase : c.pid = who ∧ c.end_time = t
    · rw [if_pos hcase]
      rw [coalesced, List.chain'_append] at hco ⊢
      refine ⟨hco.1, List.chain'_singleton _, ?_⟩
      intro x hx y hy
      simp only [List.head?_cons, Option.mem_def, Option.some_inj] at hy
      subst hy
      have := hco.2.2 x hx c rfl
      show x.pid ≠ ({ c with end_time := e } : GanttBlock).pid
      exact this
    · rw [if_neg hcase]
      have hpid : c.pid ≠ who := fun hp => hcase ⟨hp, hce⟩
      rw [coalesced, List.chain'_append]
      refine ⟨hco, List.chain'_singleton _, ?_⟩
      intro x hx y hy
      simp only [List.head?_cons, Option.mem_def, Option.some_inj] at hy
      subst hy
      rw [hlastc] at hx
      have hx' : x = c := Option.some_inj.1 hx.symm
      subst hx'
      show x.pid ≠ who
      exact hpid

theorem rrGantt_after {startT : Int} {s4 : RRState} {idx : Nat} {p' : Process}
    (hp4 : s4.procs[idx]? = some p')
    (hpos : ∀ p ∈ s4.procs, 0 < p.pid)
    (hnd : (s4.procs.map (·.pid)).Nodup)
    (hbusy : ∀ (i : Nat) (p : Process), s4.procs[i]? = some p →
      busyDur p.pid s4.gantt = p.burst_time - p.remaining_time)
    (hco : coalesced s4.gantt) :
    ∀ s', rr_after startT s4 idx p' = Sum.inl s' → RRGantt s' := by
  have hidxlen : idx < s4.procs.length := lt_length_of_getElem? hp4
  obtain ⟨h5p, _, h5g, _, _⟩ :=
    enqueuePass_fields (fun q => startT < q.arrival_time ∧ q.arrival_time ≤ s4.time) s4
  intro s' hstep
  unfold rr_after at hstep
  by_cases hdone : p'.remaining_time = 0 ∧ p'.completed = false
  · rw [if_pos hdone] at hstep
    have hs : _ = s' := Sum.inl.inj hstep
    subst hs
    refine ⟨?_, ?_, ?_, ?_⟩
    · show ∀ p ∈ (enqueuePass (fun q => startT < q.arrival_time ∧ q.arrival_time ≤ s4.time) s4).procs.set idx { p' with completed := true, completion_time := s4.time }, 0 < p.pid
      rw [h5p]
      intro q hq
      rcases mem_set_elim hq with rfl | ⟨j, _, hjq⟩
      · show 0 < p'.pid
        exact hpos p' (List.getElem?_mem hp4)
      · exact hpos q (List.getElem?_mem hjq)
    · show (((enqueuePass (fun q => startT < q.arrival_time ∧ q.arrival_time ≤ s4.time) s4).procs.set idx { p' with completed := true, completion_time := s4.time }).map (·.pid)).Nodup
      rw [h5p]
      rw [map_proj_set (·.pid) hp4 (rfl : ({ p' with completed := true, completion_time := s4.time } : Process).pid = p'.pid)]
      exact hnd
    · intro i q hiq
      have hiq' : (s4.procs.set idx { p' with completed := true, completion_time := s4.time })[i]? = some q := by
        rw [← h5p]
        exact hiq
      show busyDur q.pid (enqueuePass (fun r => startT < r.arrival_time ∧ r.arrival_time ≤ s4.time) s4).gantt = q.burst_time - q.remaining_time
      rw [h5g]
      by_cases hii : i = idx
      · subst hii
        rw [getElem?_set_self' hidxlen] at hiq'
        have hq' : q = { p' with completed := true, completion_time := s4.time } :=
          (Option.some_inj.1 hiq').symm
        subst hq'
        show busyDur p'.pid s4.gantt = p'.burst_time - p'.remaining_time
        exact hbusy i p' hp4
      · rw [List.getElem?_set_ne (fun h => hii h.symm)] at hiq'
        exact hbusy i q hiq'
    · show coalesced (enqueuePass (fun q => startT < q.arrival_time ∧ q.arrival_time ≤ s4.time) s4).gantt
      rw [h5g]
      exact hco
  · rw [if_neg hdone] at hstep
    by_cases hmore : 0 < p'.remaining_time
    · rw [if_pos hmore] at hstep
      have hs : _ = s' := Sum.inl.inj hstep
      subst hs
      refine ⟨?_, ?_, ?_, ?_⟩
      · show ∀ p ∈ (enqueuePass (fun q => startT < q.arrival_time ∧ q.arrival_time ≤ s4.time) s4).procs, 0 < p.pid
        rw [h5p]
        exact hpos
      · show (((enqueuePass (fun q => startT < q.arrival_time ∧ q.arrival_time ≤ s4.time) s4).procs).map (·.pid)).Nodup
        rw [h5p]
        exact hnd
      · intro i q hiq
        have hiq' : s4.procs[i]? = some q := by rw [← h5p]; exact hiq
        show busyDur q.pid (enqueuePass (fun r => startT < r.arrival_time ∧ r.arrival_time ≤ s4.time) s4).gantt = q.burst_time - q.remaining_time
        rw [h5g]
        exact hbusy i q hiq'
      · show coalesced (enqueuePass (fun q => startT < q.arrival_time ∧ q.arrival_time ≤ s4.time) s4).gantt
        rw [h5g]
        exact hco
    · rw [if_neg hmore] at hstep
      have hs : _ = s' := Sum.inl.inj hstep
      subst hs
      refine ⟨?_, ?_, ?_, ?_⟩
      · show ∀ p ∈ (enqueuePass (fun q => startT < q.arrival_time ∧ q.arrival_time ≤ s4.time) s4).procs, 0 < p.pid
        rw [h5p]
        exact hpos
      · show (((enqueuePass (fun q => startT < q.arrival_time ∧ q.arrival_time ≤ s4.time) s4).procs).map (·.pid)).Nodup
        rw [h5p]
        exact hnd
      · intro i q hiq
        have hiq' : s4.procs[i]? = some q := by rw [← h5p]; exact hiq
        show busyDur q.pid (enqueuePass (fun r => startT < r.arrival_time ∧ r.arrival_time ≤ s4.time) s4).gantt = q.burst_time - q.remaining_time
        rw [h5g]
        exact hbusy i q hiq'
      · show coalesced (enqueuePass (fun q => startT < q.arrival_time ∧ q.arrival_time ≤ s4.time) s4).gantt
        rw [h5g]
        exact hco

theorem rrGantt_slice (t0 : Int) {quantum : Int} {s2 : RRState} {idx : Nat} {p : Process}
    (hp2 : s2.procs[idx]? = some p)
    (htr : TraceInv t0 s2.gantt s2.time)
    (hpos : ∀ q ∈ s2.procs, 0 < q.pid)
    (hnd : (s2.procs.map (·.pid)).Nodup)
    (hbusy : ∀ (i : Nat) (q : Process), s2.procs[i]? = some q →
      busyDur q.pid s2.gantt = q.burst_time - q.remaining_time)
    (hco : coalesced s2.gantt) :
    ∀ s', rr_slice quantum s2 idx p = Sum.inl s' → RRGantt s' := by
  have hidxlen : idx < s2.procs.length := lt_length_of_getElem? hp2
  have hrec := lastEnd_recordOk htr
  intro s' hstep
  unfold rr_slice at hstep
  by_cases hskip : p.completed = true ∨ p.remaining_time ≤ 0
  · rw [if_pos hskip] at hstep
    have hs : _ = s' := Sum.inl.inj hstep
    subst hs
    exact ⟨hpos, hnd, hbusy, hco⟩
  · rw [if_neg hskip] at hstep
    by_cases hzero : (if p.remaining_time < quantum then p.remaining_time else quantum) ≤ 0
    · rw [if_pos hzero] at hstep
      have hs : _ = s' := Sum.inl.inj hstep
      subst hs
      refine ⟨?_, ?_, ?_, hco⟩
      · intro q hq
        rcases mem_set_elim hq with rfl | ⟨j, _, hjq⟩
        · show 0 < p.pid
          exact hpos p (List.getElem?_mem hp2)
        · exact hpos q (List.getElem?_mem hjq)
      · show ((s2.procs.set idx { p with started := true }).map (·.pid)).Nodup
        rw [map_proj_set (·.pid) hp2 (rfl : ({ p with started := true } : Process).pid = p.pid)]
        exact hnd
      · intro i q hiq
        show busyDur q.pid s2.gantt = q.burst_time - q.remaining_time
        by_cases hii : i = idx
        · subst hii
          have hiq' : (s2.procs.set i { p with started := true })[i]? = some q := hiq
          rw [getElem?_set_self' hidxlen] at hiq'
          have hq' : q = { p with started := true } := (Option.some_inj.1 hiq').symm
          subst hq'
          show busyDur p.pid s2.gantt = p.burst_time - p.remaining_time
          exact hbusy i p hp2
        · have hiq' : (s2.procs.set idx { p with started := true })[i]? = some q := hiq
          rw [List.getElem?_set_ne (fun h => hii h.symm)] at hiq'
          exact hbusy i q hiq'
    · rw [if_neg hzero] at hstep
      push_neg at hzero
      refine rrGantt_after ?_ ?_ ?_ ?_ ?_ s' hstep
      · show (s2.procs.set idx { p with started := true, remaining_time := p.remaining_time - (if p.remaining_time < quantum then p.remaining_time else quantum) })[idx]? = some { p with started := true, remaining_time := p.remaining_time - (if p.remaining_time < quantum then p.remaining_time else quantum) }
        exact getElem?_set_self' hidxlen
      · intro q hq
        rcases mem_set_elim hq with rfl | ⟨j, _, hjq⟩
        · show 0 < p.pid
          exact hpos p (List.getElem?_mem hp2)
        · exact hpos q (List.getElem?_mem hjq)
      · show ((s2.procs.set idx { p with started := true, remaining_time := p.remaining_time - (if p.remaining_time < quantum then p.remaining_time else quantum) }).map (·.pid)).Nodup
        rw [map_proj_set (·.pid) hp2 (rfl : ({ p with started := true, remaining_time := p.remaining_time - (if p.remaining_time < quantum then p.remaining_time else quantum) } : Process).pid = p.pid)]
        exact hnd
      · intro i q hiq
        show busyDur q.pid (ganttRecord s2.gantt p.pid s2.time (s2.time + (if p.remaining_time < quantum then p.remaining_time else quantum))) = q.burst_time - q.remaining_time
        rw [busyDur_record hrec]
        by_cases hii : i = idx
        · subst hii
          have hiq' : (s2.procs.set i { p with started := true, remaining_time := p.remaining_time - (if p.remaining_time < quantum then p.remaining_time else quantum) })[i]? = some q := hiq
          rw [getElem?_set_self' hidxlen] at hiq'
          have hq' : q = { p with started := true, remaining_time := p.remaining_time - (if p.remaining_time < quantum then p.remaining_time else quantum) } := (Option.some_inj.1 hiq').symm
          subst hq'
          show busyDur p.pid s2.gantt + (if p.pid = p.pid then s2.time + (if p.remaining_time < quantum then p.remaining_time else quantum) - s2.time else 0) = p.burst_time - (p.remaining_time - (if p.remaining_time < quantum then p.remaining_time else quantum))
          rw [if_pos rfl, hbusy i p hp2]
          omega
        · have hiq' : (s2.procs.set idx { p with started := true, remaining_time := p.remaining_time - (if p.remaining_time < quantum then p.remaining_time else quantum) })[i]? = some q := hiq
          rw [List.getElem?_set_ne (fun h => hii h.symm)] at hiq'
          have hpne : p.pid ≠ q.pid := pid_ne_of_nodup hnd hp2 hiq' (fun h => hii h.symm)
          rw [if_neg hpne]
          rw [hbusy i q hiq']
          omega
      · show coalesced (ganttRecord s2.gantt p.pid s2.time (s2.time + (if p.remaining_time < quantum then p.remaining_time else quantum)))
        exact coalesced_record hco hrec

theorem rrGantt_pass {s : RRState} (cond : Process → Prop) [DecidablePred cond]
    (hg : RRGantt s) : RRGantt (enqueuePass cond s) := by
  obtain ⟨hp, _, hgt, _, _⟩ := enqueuePass_fields cond s
  refine ⟨?_, ?_, ?_, ?_⟩
  · show ∀ p ∈ (enqueuePass cond s).procs, 0 < p.pid
    rw [hp]
    exact hg.pidsPos
  · show (((enqueuePass cond s).procs).map (·.pid)).Nodup
    rw [hp]
    exact hg.pidsNodup
  · intro i q hiq
    rw [hp] at hiq
    show busyDur q.pid (enqueuePass cond s).gantt = q.burst_time - q.remaining_time
    rw [hgt]
    exact hg.busy i q hiq
  · show coalesced (enqueuePass cond s).gantt
    rw [hgt]
    exact hg.coal

theorem rrGantt_step {ps : List Process} {t0 quantum : Int} {s : RRState}
    (inv : RRCore ps t0 s) (hg : RRGantt s) :
    (∀ s', rr_step quantum s = Sum.inl s' → RRGantt s') ∧
    (∀ s', rr_step quantum s = Sum.inr s' → RRGantt s') := by
  have passInv : RRCore ps t0 (enqueuePass (fun p => p.arrival_time ≤ s.time) s) :=
    rrCore_enqueuePass _ (fun p hp => hp) inv
  have passG : RRGantt (enqueuePass (fun p => p.arrival_time ≤ s.time) s) :=
    rrGantt_pass _ hg
  have hrecP := lastEnd_recordOk passInv.trace
  cases hqe : (enqueuePass (fun p => p.arrival_time ≤ s.time) s).queue with
  | nil =>
    constructor
    · intro s' hstep
      rw [rr_step_empty hqe] at hstep
      unfold rr_idle at hstep
      by_cases hna : next_arrival_scan (enqueuePass (fun p => p.arrival_time ≤ s.time) s).procs (enqueuePass (fun p => p.arrival_time ≤ s.time) s).time 1000000000 = 1000000000
      · rw [if_pos hna] at hstep
        cases hstep
      · rw [if_neg hna] at hstep
        have hs : _ = s' := Sum.inl.inj hstep
        subst hs
        refine ⟨passG.pidsPos, passG.pidsNodup, ?_, ?_⟩
        · intro i q hiq
          show busyDur q.pid (ganttRecord (enqueuePass (fun p => p.arrival_time ≤ s.time) s).gantt (-1) (enqueuePass (fun p => p.arrival_time ≤ s.time) s).time (next_arrival_scan (enqueuePass (fun p => p.arrival_time ≤ s.time) s).procs (enqueuePass (fun p => p.arrival_time ≤ s.time) s).time 1000000000)) = q.burst_time - q.remaining_time
          rw [busyDur_record hrecP]
          have hqpos : 0 < q.pid := passG.pidsPos q (List.getElem?_mem hiq)
          rw [if_neg (by omega : ¬ (-1 : Int) = q.pid)]
          rw [passG.busy i q hiq]
          omega
        · show coalesced (ganttRecord (enqueuePass (fun p => p.arrival_time ≤ s.time) s).gantt (-1) (enqueuePass (fun p => p.arrival_time ≤ s.time) s).time (next_arrival_scan (enqueuePass (fun p => p.arrival_time ≤ s.time) s).procs (enqueuePass (fun p => p.arrival_time ≤ s.time) s).time 1000000000))
          exact coalesced_record passG.coal hrecP
    · intro s' hstep
      rw [rr_step_empty hqe] at hstep
      unfold rr_idle at hstep
      by_cases hna : next_arrival_scan (enqueuePass (fun p => p.arrival_time ≤ s.time) s).procs (enqueuePass (fun p => p.arrival_time ≤ s.time) s).time 1000000000 = 1000000000
      · rw [if_pos hna] at hstep
        have hs : _ = s' := Sum.inr.inj hstep
        subst hs
        exact passG
      · rw [if_neg hna] at hstep
        cases hstep
  | cons idx qrest =>
    have hmemq : idx ∈ (enqueuePass (fun p => p.arrival_time ≤ s.time) s).queue := by
      rw [hqe]; exact List.mem_cons_self idx qrest
    obtain ⟨pj, hpj, hpjc, hpja⟩ := passInv.qinv.queue_ok idx hmemq
    have hgd : (enqueuePass (fun p => p.arrival_time ≤ s.time) s).procs.getD idx procDefault = pj := by
      rw [List.getD_eq_getElem?_getD, hpj]
      rfl
    constructor
    · intro s' hstep
      rw [rr_step_cons hqe, hgd] at hstep
      refine rrGantt_slice t0 ?_ ?_ ?_ ?_ ?_ ?_ s' hstep
      · exact hpj
      · exact passInv.trace
      · exact passG.pidsPos
      · exact passG.pidsNodup
      · exact passG.busy
      · exact passG.coal
    · intro s' hstep
      rw [rr_step_cons hqe] at hstep
      exact absurd hstep rr_slice_ne_inr

theorem rrGantt_init {ps : List Process}
    (hpos : ∀ p ∈ ps, 0 < p.pid)
    (hnd : (ps.map (·.pid)).Nodup)
    (hr : ∀ p ∈ ps, p.remaining_time = p.burst_time) :
    RRGantt (rr_initState ps) := by
  refine ⟨hpos, hnd, ?_, List.chain'_nil⟩
  intro i q hiq
  show busyDur q.pid [] = q.burst_time - q.remaining_time
  rw [busyDur_nil, hr q (List.getElem?_mem hiq)]
  omega

theorem rr_run_gantt {ps : List Process} {t0 quantum : Int} (hq1 : 1 ≤ quantum) :
    ∀ (fuel : Nat) (s : RRState), RRCore ps t0 s → RRGantt s →
    ∀ s', rr_run quantum fuel s = some s' → RRGantt s' := by
  intro fuel
  induction fuel with
  | zero =>
    intro s _ _ s' h
    exact absurd h (by rw [rr_run]; exact Option.noConfusion)
  | succ fuel ih =>
    intro s inv hg s' h
    rw [rr_run] at h
    by_cases hlt : s.completedCount < s.procs.length
    · rw [if_pos hlt] at h
      cases hstep : rr_step quantum s with
      | inl s1 =>
        rw [hstep] at h
        exact ih s1 ((rrCore_step inv hq1 hlt).1 s1 hstep)
          ((rrGantt_step inv hg).1 s1 hstep) s' h
      | inr s1 =>
        rw [hstep] at h
        have hs : s1 = s' := Option.some_inj.1 h
        subst hs
        exact (rrGantt_step inv hg).2 s1 hstep
    · rw [if_neg hlt] at h
      have hs : s = s' := Option.some_inj.1 h
      subst hs
      exact hg

theorem foldl_arrmin : ∀ (l : List Process) (a : Int),
    (l.foldl (fun e q => if q.arrival_time < e then q.arrival_time else e) a = a ∨
      ∃ q ∈ l, l.foldl (fun e q => if q.arrival_time < e then q.arrival_time else e) a = q.arrival_time) ∧
    l.foldl (fun e q => if q.arrival_time < e then q.arrival_time else e) a ≤ a ∧
    ∀ q ∈ l, l.foldl (fun e q => if q.arrival_time < e then q.arrival_time else e) a ≤ q.arrival_time := by
  intro l
  induction l with
  | nil =>
    intro a
    refine ⟨Or.inl rfl, le_refl a, ?_⟩
    intro q hq
    exact absurd hq (List.not_mem_nil q)
  | cons p rest ih =>
    intro a
    simp only [List.foldl_cons]
    obtain ⟨hcases, hlea, hall⟩ := ih (if p.arrival_time < a then p.arrival_time else a)
    refine ⟨?_, ?_, ?_⟩
    · by_cases hpa : p.arrival_time < a
      · rw [if_pos hpa] at hcases ⊢
        rcases hcases with h | ⟨q, hq, hqe⟩
        · exact Or.inr ⟨p, List.mem_cons_self p rest, h⟩
        · exact Or.inr ⟨q, List.mem_cons.2 (Or.inr hq), hqe⟩
      · rw [if_neg hpa] at hcases ⊢
        rcases hcases with h | ⟨q, hq, hqe⟩
        · exact Or.inl h
        · exact Or.inr ⟨q, List.mem_cons.2 (Or.inr hq), hqe⟩
    · by_cases hpa : p.arrival_time < a
      · rw [if_pos hpa] at hlea ⊢
        omega
      · rw [if_neg hpa] at hlea ⊢
        exact hlea
    · intro q hq
      rcases List.mem_cons.1 hq with rfl | hq'
      · by_cases hpa : q.arrival_time < a
        · rw [if_pos hpa] at hlea ⊢
          exact hlea
        · rw [if_neg hpa] at hlea ⊢
          omega
      · exact hall q hq'

theorem earliest_arrival_min {ps : List Process} (hne : ps ≠ []) :
    (∃ p ∈ ps, earliest_arrival ps = p.arrival_time) ∧
    ∀ p ∈ ps, earliest_arrival ps ≤ p.arrival_time := by
  cases ps with
  | nil => exact absurd rfl hne
  | cons p rest =>
    obtain ⟨hcases, hlea, hall⟩ := foldl_arrmin rest p.arrival_time
    rw [earliest_arrival]
    constructor
    · rcases hcases with h | ⟨q, hq, hqe⟩
      · exact ⟨p, List.mem_cons_self p rest, h⟩
      · exact ⟨q, List.mem_cons.2 (Or.inr hq), hqe⟩
    · intro q hq
      rcases List.mem_cons.1 hq with rfl | hq'
      · exact hlea
      · exact hall q hq'

theorem rr_t0_eq {ps : List Process} (h : 0 ≤ earliest_arrival ps) :
    rr_t0 ps = earliest_arrival ps := by
  unfold rr_t0
  split <;> omega

theorem na_scan_eq_min {ps : List Process} {t na0 : Int} (hne : ps ≠ [])
    (hq : ∀ p ∈ ps, p.completed = false ∧ t < p.arrival_time)
    (hmin0 : earliest_arrival ps < na0) :
    next_arrival_scan ps t na0 = earliest_arrival ps := by
  obtain ⟨⟨p0, hp0, hp0e⟩, hmin⟩ := earliest_arrival_min hne
  have h1 : next_arrival_scan ps t na0 ≤ earliest_arrival ps := by
    rw [hp0e]
    exact na_scan_le_qual ps t na0 p0 hp0 (hq p0 hp0).1 (hq p0 hp0).2
  have h2 : earliest_arrival ps ≤ next_arrival_scan ps t na0 := by
    rcases na_scan_cases ps t na0 with h | ⟨q, hq', _, _, hqe, _⟩
    · omega
    · rw [hqe]
      exact hmin q hq'
  omega

theorem na_scan_stuck {ps : List Process} (hne : ps ≠ [])
    (hbig : 999999 ≤ earliest_arrival ps) (t : Int) :
    next_arrival_scan ps t 999999 = 999999 := by
  rcases na_scan_cases ps t 999999 with h | ⟨q, hq', _, _, hqe, hlt⟩
  · exact h
  · exfalso
    have := (earliest_arrival_min hne).2 q hq'
    omega

theorem rr_after_gantt {startT : Int} {s4 : RRState} {idx : Nat} {p' : Process} :
    ∀ s', rr_after startT s4 idx p' = Sum.inl s' → s'.gantt = s4.gantt := by
  obtain ⟨_, _, h5g, _, _⟩ :=
    enqueuePass_fields (fun q => startT < q.arrival_time ∧ q.arrival_time ≤ s4.time) s4
  intro s' hstep
  unfold rr_after at hstep
  by_cases hdone : p'.remaining_time = 0 ∧ p'.completed = false
  · rw [if_pos hdone] at hstep
    have hs : _ = s' := Sum.inl.inj hstep
    subst hs
    exact h5g
  · rw [if_neg hdone] at hstep
    by_cases hmore : 0 < p'.remaining_time
    · rw [if_pos hmore] at hstep
      have hs : _ = s' := Sum.inl.inj hstep
      subst hs
      exact h5g
    · rw [if_neg hmore] at hstep
      have hs : _ = s' := Sum.inl.inj hstep
      subst hs
      exact h5g

theorem rr_slice_head {quantum : Int} {s2 : RRState} {idx : Nat} {p : Process}
    {b : GanttBlock} (hb : s2.gantt.head? = some b) :
    ∀ s', rr_slice quantum s2 idx p = Sum.inl s' →
      ∃ b', s'.gantt.head? = some b' ∧ b'.pid = b.pid ∧ b'.start_time = b.start_time := by
  intro s' hstep
  unfold rr_slice at hstep
  by_cases hskip : p.completed = true ∨ p.remaining_time ≤ 0
  · rw [if_pos hskip] at hstep
    have hs : _ = s' := Sum.inl.inj hstep
    subst hs
    exact ⟨b, hb, rfl, rfl⟩
  · rw [if_neg hskip] at hstep
    by_cases hzero : (if p.remaining_time < quantum then p.remaining_time else quantum) ≤ 0
    · rw [if_pos hzero] at hstep
      have hs : _ = s' := Sum.inl.inj hstep
      subst hs
      exact ⟨b, hb, rfl, rfl⟩
    · rw [if_neg hzero] at hstep
      have hga := rr_after_gantt s' hstep
      obtain ⟨b', hb', hbp, hbs⟩ := @ganttRecord_head s2.gantt p.pid s2.time
        (s2.time + (if p.remaining_time < quantum then p.remaining_time else quantum)) b hb
      refine ⟨b', ?_, hbp, hbs⟩
      rw [hga]
      exact hb'

theorem rr_slice_first {quantum : Int} {s2 : RRState} {idx : Nat} {p : Process}
    (hg : s2.gantt = []) (hpc : p.completed = false) (hrem : 0 < p.remaining_time)
    (hq1 : 1 ≤ quantum) :
    ∀ s', rr_slice quantum s2 idx p = Sum.inl s' →
      ∃ b, s'.gantt.head? = some b ∧ b.pid = p.pid ∧ b.start_time = s2.time := by
  intro s' hstep
  unfold rr_slice at hstep
  rw [if_neg (by rw [hpc]; push_neg; exact ⟨Bool.false_ne_true, by omega⟩)] at hstep
  have hrpos : 0 < (if p.remaining_time < quantum then p.remaining_time else quantum) := by
    split <;> omega
  rw [if_neg (not_le.2 hrpos)] at hstep
  have hga := rr_after_gantt s' hstep
  refine ⟨⟨p.pid, s2.time, s2.time + (if p.remaining_time < quantum then p.remaining_time else quantum)⟩, ?_, rfl, rfl⟩
  rw [hga]
  show (ganttRecord s2.gantt p.pid s2.time (s2.time + (if p.remaining_time < quantum then p.remaining_time else quantum))).head? = _
  rw [hg, ganttRecord_nil]
  rfl

theorem rr_step_head {quantum : Int} {s : RRState} {b : GanttBlock}
    (hb : s.gantt.head? = some b) :
    (∀ s', rr_step quantum s = Sum.inl s' →
      ∃ b', s'.gantt.head? = some b' ∧ b'.pid = b.pid ∧ b'.start_time = b.start_time) ∧
    (∀ s', rr_step quantum s = Sum.inr s' →
      ∃ b', s'.gantt.head? = some b' ∧ b'.pid = b.pid ∧ b'.start_time = b.start_time) := by
  obtain ⟨_, _, hgP, _, _⟩ := enqueuePass_fields (fun p => p.arrival_time ≤ s.time) s
  have hbP : (enqueuePass (fun p => p.arrival_time ≤ s.time) s).gantt.head? = some b := by
    rw [hgP]
    exact hb
  cases hqe : (enqueuePass (fun p => p.arrival_time ≤ s.time) s).queue with
  | nil =>
    constructor
    · intro s' hstep
      rw [rr_step_empty hqe] at hstep
      unfold rr_idle at hstep
      by_cases hna : next_arrival_scan (enqueuePass (fun p => p.arrival_time ≤ s.time) s).procs (enqueuePass (fun p => p.arrival_time ≤ s.time) s).time 1000000000 = 1000000000
      · rw [if_pos hna] at hstep
        cases hstep
      · rw [if_neg hna] at hstep
        have hs : _ = s' := Sum.inl.inj hstep
        subst hs
        obtain ⟨b', hb', hbp, hbs⟩ := @ganttRecord_head
          (enqueuePass (fun p => p.arrival_time ≤ s.time) s).gantt (-1)
          (enqueuePass (fun p => p.arrival_time ≤ s.time) s).time
          (next_arrival_scan (enqueuePass (fun p => p.arrival_time ≤ s.time) s).procs (enqueuePass (fun p => p.arrival_time ≤ s.time) s).time 1000000000) b hbP
        exact ⟨b', hb', hbp, hbs⟩
    · intro s' hstep
      rw [rr_step_empty hqe] at hstep
      unfold rr_idle at hstep
      by_cases hna : next_arrival_scan (enqueuePass (fun p => p.arrival_time ≤ s.time) s).procs (enqueuePass (fun p => p.arrival_time ≤ s.time) s).time 1000000000 = 1000000000
      · rw [if_pos hna] at hstep
        have hs : _ = s' := Sum.inr.inj hstep
        subst hs
        exact ⟨b, hbP, rfl, rfl⟩
      · rw [if_neg hna] at hstep
        cases hstep
  | cons idx qrest =>
    constructor
    · intro s' hstep
      rw [rr_step_cons hqe] at hstep
      refine rr_slice_head ?_ s' hstep
      exact hbP
    · intro s' hstep
      rw [rr_step_cons hqe] at hstep
      exact absurd hstep rr_slice_ne_inr

theorem rr_run_head {quantum : Int} :
    ∀ (fuel : Nat) (s s' : RRState) (b : GanttBlock), s.gantt.head? = some b →
      rr_run quantum fuel s = some s' →
      ∃ b', s'.gantt.head? = some b' ∧ b'.pid = b.pid ∧ b'.start_time = b.start_time := by
  intro fuel
  induction fuel with
  | zero =>
    intro s s' b _ h
    exact absurd h (by rw [rr_run]; exact Option.noConfusion)
  | succ fuel ih =>
    intro s s' b hb h
    rw [rr_run] at h
    by_cases hlt : s.completedCount < s.procs.length
    · rw [if_pos hlt] at h
      cases hstep : rr_step quantum s with
      | inl s1 =>
        rw [hstep] at h
        obtain ⟨b1, hb1, hp1, hs1⟩ := (rr_step_head hb).1 s1 hstep
        obtain ⟨b', hb', hp', hs'⟩ := ih s1 s' b1 hb1 h
        exact ⟨b', hb', by rw [hp', hp1], by rw [hs', hs1]⟩
      | inr s1 =>
        rw [hstep] at h
        have hs : s1 = s' := Option.some_inj.1 h
        subst hs
        exact (rr_step_head hb).2 s1 hstep
    · rw [if_neg hlt] at h
      have hs : s = s' := Option.some_inj.1 h
      subst hs
      exact ⟨b, hb, rfl, rfl⟩

theorem rr_first_step {ps : List Process} {quantum : Int} (hq1 : 1 ≤ quantum)
    (hne : ps ≠ [])
    (hpos : ∀ p ∈ ps, 0 < p.pid)
    (hb : ∀ p ∈ ps, 0 < p.burst_time)
    (hc : ∀ p ∈ ps, p.completed = false)
    (hr : ∀ p ∈ ps, p.remaining_time = p.burst_time) :
    (∀ s1, rr_step quantum (rr_initState ps) = Sum.inl s1 →
      ∃ b, s1.gantt.head? = some b ∧ 0 < b.pid ∧ b.start_time = rr_t0 ps) ∧
    (∀ s1, rr_step quantum (rr_initState ps) ≠ Sum.inr s1) := by
  have initInv : RRCore ps (rr_t0 ps) (rr_initState ps) := rrCore_init hb hc hr
  have passInv : RRCore ps (rr_t0 ps)
      (enqueuePass (fun p => p.arrival_time ≤ (rr_initState ps).time) (rr_initState ps)) :=
    rrCore_enqueuePass _ (fun p hp => hp) initInv
  obtain ⟨hpP, htP, hgP, _, _⟩ :=
    enqueuePass_fields (fun p => p.arrival_time ≤ (rr_initState ps).time) (rr_initState ps)
  obtain ⟨⟨p0, hp0, hp0e⟩, hmin⟩ := earliest_arrival_min hne
  rcases List.getElem?_of_mem hp0 with ⟨j, hj⟩
  have harr : p0.arrival_time ≤ (rr_initState ps).time := by
    show p0.arrival_time ≤ rr_t0 ps
    rw [← hp0e]
    unfold rr_t0
    split <;> omega
  have hrem0 : 0 < p0.remaining_time := by
    have h1 := hr p0 hp0
    have h2 := hb p0 hp0
    omega
  have hjq : j ∈ (enqueuePass (fun p => p.arrival_time ≤ (rr_initState ps).time) (rr_initState ps)).queue := by
    refine enqueueAll_mem_of_cond (fun q => q.arrival_time ≤ (rr_initState ps).time)
      (List.range (rr_initState ps).procs.length) (rr_initState ps) j p0
      (fun q hq => hq) initInv.qinv ?_ hj (hc p0 hp0) harr hrem0
    exact List.mem_range.2 (lt_length_of_getElem? hj)
  cases hqe : (enqueuePass (fun p => p.arrival_time ≤ (rr_initState ps).time) (rr_initState ps)).queue with
  | nil =>
    rw [hqe] at hjq
    exact absurd hjq (List.not_mem_nil j)
  | cons idx qrest =>
    have hmemq : idx ∈ (enqueuePass (fun p => p.arrival_time ≤ (rr_initState ps).time) (rr_initState ps)).queue := by
      rw [hqe]; exact List.mem_cons_self idx qrest
    obtain ⟨pj, hpj, hpjc, hpja⟩ := passInv.qinv.queue_ok idx hmemq
    have hgd : (enqueuePass (fun p => p.arrival_time ≤ (rr_initState ps).time) (rr_initState ps)).procs.getD idx procDefault = pj := by
      rw [List.getD_eq_getElem?_getD, hpj]
      rfl
    have hpjmem : pj ∈ ps := by
      have h1 := List.getElem?_mem hpj
      rw [hpP] at h1
      exact h1
    constructor
    · intro s1 hstep
      rw [rr_step_cons hqe, hgd] at hstep
      obtain ⟨b, hbh, hbp, hbs⟩ := @rr_slice_first quantum
        { enqueuePass (fun p => p.arrival_time ≤ (rr_initState ps).time) (rr_initState ps) with
          queue := qrest,
          inQueue := (enqueuePass (fun p => p.arrival_time ≤ (rr_initState ps).time) (rr_initState ps)).inQueue.set idx false }
        idx pj hgP hpjc (passInv.uncomp_rem pj (List.getElem?_mem hpj) hpjc) hq1 s1 hstep
      refine ⟨b, hbh, ?_, ?_⟩
      · rw [hbp]
        exact hpos pj hpjmem
      · rw [hbs]
        exact htP
    · intro s1 hstep
      rw [rr_step_cons hqe] at hstep
      exact rr_slice_ne_inr hstep

theorem map_keyOf_set_any {l : List Process} {i : Nat} {p' : Process}
    (h : ∀ q, l[i]? = some q → keyOf p' = keyOf q) :
    (l.set i p').map keyOf = l.map keyOf := by
  cases hq : l[i]? with
  | none =>
    have hlen : l.length ≤ i := by
      by_contra hcon
      push_neg at hcon
      rw [List.getElem?_eq_getElem hcon] at hq
      cases hq
    rw [List.set_eq_of_length_le hlen]
  | some q => exact map_proj_set keyOf hq (h q hq)

theorem rr_after_frame {startT : Int} {s4 : RRState} {idx : Nat} {p' : Process}
    (hk : ∀ q, s4.procs[idx]? = some q → keyOf p' = keyOf q) :
    ∀ s', rr_after startT s4 idx p' = Sum.inl s' →
      s'.procs.map keyOf = s4.procs.map keyOf := by
  obtain ⟨h5p, _, _, _, _⟩ :=
    enqueuePass_fields (fun q => startT < q.arrival_time ∧ q.arrival_time ≤ s4.time) s4
  intro s' hstep
  unfold rr_after at hstep
  by_cases hdone : p'.remaining_time = 0 ∧ p'.completed = false
  · rw [if_pos hdone] at hstep
    have hs : _ = s' := Sum.inl.inj hstep
    subst hs
    show ((enqueuePass (fun q => startT < q.arrival_time ∧ q.arrival_time ≤ s4.time) s4).procs.set idx { p' with completed := true, completion_time := s4.time }).map keyOf = s4.procs.map keyOf
    rw [h5p]
    exact map_keyOf_set_any (fun q hq =>
      (rfl : keyOf { p' with completed := true, completion_time := s4.time } = keyOf p').trans (hk q hq))
  · rw [if_neg hdone] at hstep
    by_cases hmore : 0 < p'.remaining_time
    · rw [if_pos hmore] at hstep
      have hs : _ = s' := Sum.inl.inj hstep
      subst hs
      show (enqueuePass (fun q => startT < q.arrival_time ∧ q.arrival_time ≤ s4.time) s4).procs.map keyOf = s4.procs.map keyOf
      rw [h5p]
    · rw [if_neg hmore] at hstep
      have hs : _ = s' := Sum.inl.inj hstep
      subst hs
      show (enqueuePass (fun q => startT < q.arrival_time ∧ q.arrival_time ≤ s4.time) s4).procs.map keyOf = s4.procs.map keyOf
      rw [h5p]

theorem rr_slice_frame {quantum : Int} {s2 : RRState} {idx : Nat} {p : Process}
    (hk : ∀ q, s2.procs[idx]? = some q → keyOf p = keyOf q) :
    ∀ s', rr_slice quantum s2 idx p = Sum.inl s' →
      s'.procs.map keyOf = s2.procs.map keyOf := by
  intro s' hstep
  unfold rr_slice at hstep
  by_cases hskip : p.completed = true ∨ p.remaining_time ≤ 0
  · rw [if_pos hskip] at hstep
    have hs : _ = s' := Sum.inl.inj hstep
    subst hs
    rfl
  · rw [if_neg hskip] at hstep
    by_cases hzero : (if p.remaining_time < quantum then p.remaining_time else quantum) ≤ 0
    · rw [if_pos hzero] at hstep
      have hs : _ = s' := Sum.inl.inj hstep
      subst hs
      exact map_keyOf_set_any (fun q hq =>
        (rfl : keyOf { p with started := true } = keyOf p).trans (hk q hq))
    · rw [if_neg hzero] at hstep
      have hafter := rr_after_frame ?_ s' hstep
      · rw [hafter]
        show (s2.procs.set idx { p with started := true, remaining_time := p.remaining_time - (if p.remaining_time < quantum then p.remaining_time else quantum) }).map keyOf = s2.procs.map keyOf
        exact map_keyOf_set_any (fun q hq =>
          (rfl : keyOf { p with started := true, remaining_time := p.remaining_time - (if p.remaining_time < quantum then p.remaining_time else quantum) } = keyOf p).trans (hk q hq))
      · intro q hq
        have hq' : (s2.procs.set idx { p with started := true, remaining_time := p.remaining_time - (if p.remaining_time < quantum then p.remaining_time else quantum) })[idx]? = some q := hq
        rw [List.getElem?_set] at hq'
        rw [if_pos rfl] at hq'
        by_cases hlen : idx < s2.procs.length
        · rw [if_pos hlen] at hq'
          rw [← Option.some_inj.1 hq']
        · rw [if_neg hlen] at hq'
          cases hq'

theorem rr_step_frame {quantum : Int} {s : RRState} :
    (∀ s', rr_step quantum s = Sum.inl s' → s'.procs.map keyOf = s.procs.map keyOf) ∧
    (∀ s', rr_step quantum s = Sum.inr s' → s'.procs.map keyOf = s.procs.map keyOf) := by
  obtain ⟨hpP, _, _, _, _⟩ := enqueuePass_fields (fun p => p.arrival_time ≤ s.time) s
  cases hqe : (enqueuePass (fun p => p.arrival_time ≤ s.time) s).queue with
  | nil =>
    constructor
    · intro s' hstep
      rw [rr_step_empty hqe] at hstep
      unfold rr_idle at hstep
      by_cases hna : next_arrival_scan (enqueuePass (fun p => p.arrival_time ≤ s.time) s).procs (enqueuePass (fun p => p.arrival_time ≤ s.time) s).time 1000000000 = 1000000000
      · rw [if_pos hna] at hstep
        cases hstep
      · rw [if_neg hna] at hstep
        have hs : _ = s' := Sum.inl.inj hstep
        subst hs
        show (enqueuePass (fun p => p.arrival_time ≤ s.time) s).procs.map keyOf = s.procs.map keyOf
        rw [hpP]
    · intro s' hstep
      rw [rr_step_empty hqe] at hstep
      unfold rr_idle at hstep
      by_cases hna : next_arrival_scan (enqueuePass (fun p => p.arrival_time ≤ s.time) s).procs (enqueuePass (fun p => p.arrival_time ≤ s.time) s).time 1000000000 = 1000000000
      · rw [if_pos hna] at hstep
        have hs : _ = s' := Sum.inr.inj hstep
        subst hs
        show (enqueuePass (fun p => p.arrival_time ≤ s.time) s).procs.map keyOf = s.procs.map keyOf
        rw [hpP]
      · rw [if_neg hna] at hstep
        cases hstep
  | cons idx qrest =>
    constructor
    · intro s' hstep
      rw [rr_step_cons hqe] at hstep
      have hfr := rr_slice_frame ?_ s' hstep
      · rw [hfr]
        show (enqueuePass (fun p => p.arrival_time ≤ s.time) s).procs.map keyOf = s.procs.map keyOf
        rw [hpP]
      · intro q hq
        have hq' : (enqueuePass (fun p => p.arrival_time ≤ s.time) s).procs[idx]? = some q := hq
        rw [List.getD_eq_getElem?_getD, hq']
        rfl
    · intro s' hstep
      rw [rr_step_cons hqe] at hstep
      exact absurd hstep rr_slice_ne_inr

theorem rr_run_frame {quantum : Int} :
    ∀ (fuel : Nat) (s s' : RRState), rr_run quantum fuel s = some s' →
      s'.procs.map keyOf = s.procs.map keyOf := by
  intro fuel
  induction fuel with
  | zero =>
    intro s s' h
    exact absurd h (by rw [rr_run]; exact Option.noConfusion)
  | succ fuel ih =>
    intro s s' h
    rw [rr_run] at h
    by_cases hlt : s.completedCount < s.procs.length
    · rw [if_pos hlt] at h
      cases hstep : rr_step quantum s with
      | inl s1 =>
        rw [hstep] at h
        rw [ih s1 s' h]
        exact rr_step_frame.1 s1 hstep
      | inr s1 =>
        rw [hstep] at h
        have hs : s1 = s' := Option.some_inj.1 h
        subst hs
        exact rr_step_frame.2 s1 hstep
    · rw [if_neg hlt] at h
      have hs : s = s' := Option.some_inj.1 h
      subst hs
      rfl

theorem np_step_frame {select : List Process → Int → Option (Nat × Process)}
    {unsel : Process → Prop} (hspec : SelectSpec select unsel) (s : NPState) :
    (np_step select s).procs.map keyOf = s.procs.map keyOf := by
  cases hsel : select s.procs s.time with
  | none =>
    rw [np_step_none hsel]
    by_cases hna : next_arrival_scan s.procs s.time 999999 = 999999
    · rw [if_pos hna]
    · rw [if_neg hna]
  | some kp =>
    obtain ⟨k, p⟩ := kp
    rw [np_step_some hsel]
    have hvalid := (hspec.valid s.procs s.time k p hsel).1
    exact map_proj_set keyOf hvalid
      (rfl : keyOf { p with completion_time := s.time + p.burst_time, completed := true } = keyOf p)

theorem np_run_frame {select : List Process → Int → Option (Nat × Process)}
    {unsel : Process → Prop} (hspec : SelectSpec select unsel) :
    ∀ (fuel : Nat) (s s' : NPState), np_run select fuel s = some s' →
      s'.procs.map keyOf = s.procs.map keyOf := by
  intro fuel
  induction fuel with
  | zero =>
    intro s s' h
    rw [np_run] at h
    cases h
  | succ fuel ih =>
    intro s s' h
    rw [np_run] at h
    by_cases hlt : s.completedCount < s.procs.length
    · rw [if_pos hlt] at h
      rw [ih _ s' h]
      exact np_step_frame hspec s
    · rw [if_neg hlt] at h
      have hs : s = s' := Option.some_inj.1 h
      subst hs
      rfl

theorem reset_keyOf (ps : List Process) :
    (reset_processes ps).map keyOf = ps.map keyOf := by
  unfold reset_processes
  rw [List.map_map]
  rfl

theorem np_first_idle {select : List Process → Int → Option (Nat × Process)}
    {unsel : Process → Prop} (hspec : SelectSpec select unsel) {ps : List Process}
    (hne : ps ≠ [])
    (hpos0 : ∀ p ∈ ps, 0 < p.arrival_time)
    (hlt999 : earliest_arrival ps < 999999)
    (hc : ∀ p ∈ ps, p.completed = false) :
    ∀ (fuel : Nat) (s' : NPState), np_run select fuel ⟨ps, 0, 0, []⟩ = some s' →
      s'.gantt.head? = some ⟨-1, 0, earliest_arrival ps⟩ := by
  have hselnone : select ps 0 = none := by
    cases hsel : select ps 0 with
    | none => rfl
    | some kp =>
      obtain ⟨k, p⟩ := kp
      obtain ⟨hk, _, ha⟩ := hspec.valid ps 0 k p hsel
      have := hpos0 p (List.getElem?_mem hk)
      omega
  have hna : next_arrival_scan ps 0 999999 = earliest_arrival ps :=
    na_scan_eq_min hne (fun p hp => ⟨hc p hp, hpos0 p hp⟩) hlt999
  have hna999 : ¬ next_arrival_scan ps 0 999999 = 999999 := by
    rw [hna]
    omega
  have hb0 : (np_step select ⟨ps, 0, 0, []⟩).gantt.head? =
      some ⟨-1, 0, next_arrival_scan ps 0 999999⟩ := by
    rw [np_step_none hselnone]
    rw [if_neg hna999]
    rfl
  rw [hna] at hb0
  intro fuel s' h
  cases fuel with
  | zero =>
    rw [np_run] at h
    cases h
  | succ fuel =>
    rw [np_run] at h
    have hlen : 0 < ps.length := List.length_pos.2 hne
    rw [if_pos (by show 0 < ps.length; exact hlen)] at h
    exact np_run_gantt_head fuel _ s' _ hb0 h

theorem np_never_idle {select : List Process → Int → Option (Nat × Process)}
    {unsel : Process → Prop} (hspec : SelectSpec select unsel) {ps : List Process}
    (hne : ps ≠ [])
    (hpos0 : ∀ p ∈ ps, 0 < p.arrival_time)
    (hbig : 999999 ≤ earliest_arrival ps) :
    ∀ fuel : Nat, np_run select fuel ⟨ps, 0, 0, []⟩ = none := by
  have hselnone : select ps 0 = none := by
    cases hsel : select ps 0 with
    | none => rfl
    | some kp =>
      obtain ⟨k, p⟩ := kp
      obtain ⟨hk, _, ha⟩ := hspec.valid ps 0 k p hsel
      have := hpos0 p (List.getElem?_mem hk)
      omega
  intro fuel
  exact np_run_stuck fuel ⟨ps, 0, 0, []⟩ hselnone (na_scan_stuck hne hbig 0)
    (List.length_pos.2 hne)

theorem keyOf_eq_pid {p q : Process} (h : keyOf p = keyOf q) : p.pid = q.pid :=
  congrArg (fun r => r.1) h

theorem keyOf_eq_arrival {p q : Process} (h : keyOf p = keyOf q) :
    p.arrival_time = q.arrival_time :=
  congrArg (fun r => r.2.1) h

theorem keyOf_eq_burst {p q : Process} (h : keyOf p = keyOf q) :
    p.burst_time = q.burst_time :=
  congrArg (fun r => r.2.2.1) h

theorem frame_transport {ps l : List Process} (h : l.map keyOf = ps.map keyOf)
    (P : Int → Int → Int → Prop)
    (hP : ∀ p ∈ ps, P p.pid p.arrival_time p.burst_time) :
    ∀ p ∈ l, P p.pid p.arrival_time p.burst_time := by
  intro p hp
  obtain ⟨p0, hp0, hk⟩ := frame_mem h p hp
  rw [keyOf_eq_pid hk, keyOf_eq_arrival hk, keyOf_eq_burst hk]
  exact hP p0 hp0

theorem gantt_totals {t0 t : Int} {g : List GanttBlock}
    (htr : TraceInv t0 g t) (hne : g ≠ []) :
    durSum g = t - firstStartTime g ∧ firstStartTime g = t0 := by
  cases g with
  | nil => exact absurd rfl hne
  | cons a g' =>
    have hhead : (a :: g').head? = some a := rfl
    rcases htr.lastEnd with ⟨hnil, _⟩ | ⟨b, hlast, hend⟩
    · cases hnil
    · have hdur := durSum_eq_of_contig (a :: g') htr.contig a b hhead hlast
      have hfs : firstStartTime (a :: g') = a.start_time := rfl
      have hstart : a.start_time = t0 := htr.headStart a rfl
      refine ⟨?_, by rw [hfs, hstart]⟩
      rw [hdur, hfs, hend]

theorem finalCompletion_eq {ps' : List Process} {t : Int}
    (hcb : ∀ p ∈ ps', p.completion_time ≤ t)
    (hex : ∃ p ∈ ps', p.completion_time = t) (ht : 0 ≤ t) :
    finalCompletionTime ps' = t := by
  unfold finalCompletionTime
  apply foldl_max_eq
  · intro x hx
    rcases List.mem_map.1 hx with ⟨p, hp, rfl⟩
    exact hcb p hp
  · obtain ⟨p, hp, he⟩ := hex
    exact ⟨p.completion_time, List.mem_map_of_mem _ hp, he⟩
  · exact ht

theorem gantt_ne_nil_of_busy {g : List GanttBlock} {x d : Int}
    (h : busyDur x g = d) (hd : 0 < d) : g ≠ [] := by
  intro hnil
  subst hnil
  rw [busyDur_nil] at h
  omega

theorem np_terminal {select : List Process → Int → Option (Nat × Process)}
    {unsel : Process → Prop} (hspec : SelectSpec select unsel) {ps : List Process}
    {fuel : Nat} {s' : NPState}
    (h : np_run select fuel ⟨ps, 0, 0, []⟩ = some s')
    (hb : ∀ p ∈ ps, 0 < p.burst_time) (hc : ∀ p ∈ ps, p.completed = false) :
    NPCore ps s' ∧ s'.completedCount = s'.procs.length ∧
      ∀ p ∈ s'.procs, p.completed = true :=
  np_run_master hspec fuel ⟨ps, 0, 0, []⟩ s' (npCore_init hb hc) h

theorem np_terminal_gantt {select : List Process → Int → Option (Nat × Process)}
    {unsel : Process → Prop} (hspec : SelectSpec select unsel) {ps : List Process}
    {fuel : Nat} {s' : NPState}
    (h : np_run select fuel ⟨ps, 0, 0, []⟩ = some s')
    (hb : ∀ p ∈ ps, 0 < p.burst_time) (hc : ∀ p ∈ ps, p.completed = false)
    (hpos : ∀ p ∈ ps, 0 < p.pid) (hnd : (ps.map (·.pid)).Nodup) :
    NPGantt unsel s' :=
  np_run_gantt hspec fuel ⟨ps, 0, 0, []⟩ s' (npCore_init hb hc)
    (npGantt_init hpos hnd hc) h

theorem rr_terminal {ps : List Process} {q : Int} {fuel : Nat} {s' : RRState}
    (h : preemptive_algorithm q fuel ps = some s')
    (hb : ∀ p ∈ ps, 0 < p.burst_time) (hc : ∀ p ∈ ps, p.completed = false)
    (hr : ∀ p ∈ ps, p.remaining_time = p.burst_time)
    (harr : ∀ p ∈ ps, p.arrival_time < 1000000000) :
    RRCore ps (rr_t0 ps) s' ∧ ∀ p ∈ s'.procs, p.completed = true := by
  unfold preemptive_algorithm at h
  have hq1 : 1 ≤ rr_quantum q := by unfold rr_quantum; split <;> omega
  have hm := rr_run_master hq1 fuel (rr_initState ps) (rrCore_init hb hc hr) s' h
  refine ⟨hm.1, ?_⟩
  rcases hm.2 with hall | hsent
  · exact hall
  · intro p hp
    by_contra hcon
    have hpc : p.completed = false := by revert hcon; cases p.completed <;> simp
    have h1 := hsent p hp hpc
    have h2 : p.arrival_time < 1000000000 :=
      frame_transport hm.1.frame (fun _ a _ => a < 1000000000) (fun r hr' => harr r hr') p hp
    omega

theorem rr_terminal_gantt {ps : List Process} {q : Int} {fuel : Nat} {s' : RRState}
    (h : preemptive_algorithm q fuel ps = some s')
    (hb : ∀ p ∈ ps, 0 < p.burst_time) (hc : ∀ p ∈ ps, p.completed = false)
    (hr : ∀ p ∈ ps, p.remaining_time = p.burst_time)
    (hpos : ∀ p ∈ ps, 0 < p.pid) (hnd : (ps.map (·.pid)).Nodup) :
    RRGantt s' := by
  unfold preemptive_algorithm at h
  have hq1 : 1 ≤ rr_quantum q := by unfold rr_quantum; split <;> omega
  exact rr_run_gantt hq1 fuel (rr_initState ps) (rrCore_init hb hc hr)
    (rrGantt_init hpos hnd hr) s' h

theorem run_algorithm_eq (original : List Process) (choice q : Int) (fuel : Nat) :
    run_algorithm original choice q fuel =
      if original.length ≤ 0 then none
      else if choice = 1 then
        (preemptive_algorithm q fuel (reset_processes (copy_processes original))).map
          fun s => (s.procs, s.gantt)
      else if choice = 2 then
        (modified_FCFS_with_aging fuel (reset_processes (copy_processes original))).map
          fun s => (s.procs, s.gantt)
      else if choice = 3 then
        (non_preemptive_algorithm_2 fuel (reset_processes (copy_processes original))).map
          fun s => (s.procs, s.gantt)
      else none := rfl

theorem np_conservation {select : List Process → Int → Option (Nat × Process)}
    {unsel : Process → Prop} (hspec : SelectSpec select unsel) {ps : List Process}
    {fuel : Nat} {s' : NPState}
    (h : np_run select fuel ⟨ps, 0, 0, []⟩ = some s')
    (hne : ps ≠ [])
    (hb : ∀ p ∈ ps, 0 < p.burst_time) (hc : ∀ p ∈ ps, p.completed = false)
    (ha : ∀ p ∈ ps, 0 ≤ p.arrival_time)
    (hpos : ∀ p ∈ ps, 0 < p.pid) (hnd : (ps.map (·.pid)).Nodup) :
    durSum s'.gantt = finalCompletionTime s'.procs - firstStartTime s'.gantt ∧
    ∀ p ∈ s'.procs, busyDur p.pid s'.gantt = p.burst_time := by
  obtain ⟨core, hcnt, hall⟩ := np_terminal hspec h hb hc
  have gv := np_terminal_gantt hspec h hb hc hpos hnd
  have hbusy : ∀ p ∈ s'.procs, busyDur p.pid s'.gantt = p.burst_time := by
    intro p hp
    rcases List.getElem?_of_mem hp with ⟨i, hi⟩
    have hbi := gv.busy i p hi
    rw [hall p hp] at hbi
    simpa using hbi
  refine ⟨?_, hbusy⟩
  have hlen : s'.procs.length = ps.length := frame_length core.frame
  have hne' : s'.procs ≠ [] := by
    intro hnil
    rw [hnil] at hlen
    exact hne (List.length_eq_zero.1 hlen.symm)
  obtain ⟨p1, hp1⟩ := List.exists_mem_of_ne_nil s'.procs hne'
  have hgne : s'.gantt ≠ [] := gantt_ne_nil_of_busy (hbusy p1 hp1) (core.bursts p1 hp1)
  obtain ⟨hdur, _⟩ := gantt_totals core.trace hgne
  have hcb : ∀ p ∈ s'.procs, p.completion_time ≤ s'.time :=
    fun p hp => (core.cbounds p hp (hall p hp)).2
  have hex : ∃ p ∈ s'.procs, p.completion_time = s'.time := by
    rcases core.lastComp hcnt with hnil | ⟨p2, hp2, _, he2⟩
    · exact absurd hnil hne'
    · exact ⟨p2, hp2, he2⟩
  have htpos : 0 ≤ s'.time := by
    obtain ⟨p2, hp2, he2⟩ := hex
    have h1 := (core.cbounds p2 hp2 (hall p2 hp2)).1
    have h2 : 0 ≤ p2.arrival_time :=
      frame_transport core.frame (fun _ a _ => 0 ≤ a) (fun r hr => ha r hr) p2 hp2
    have h3 := core.bursts p2 hp2
    omega
  rw [hdur, finalCompletion_eq hcb hex htpos]

theorem rr_conservation {ps : List Process} {q : Int} {fuel : Nat} {s' : RRState}
    (h : preemptive_algorithm q fuel ps = some s')
    (hne : ps ≠ [])
    (hb : ∀ p ∈ ps, 0 < p.burst_time) (hc : ∀ p ∈ ps, p.completed = false)
    (hr : ∀ p ∈ ps, p.remaining_time = p.burst_time)
    (ha : ∀ p ∈ ps, 0 ≤ p.arrival_time)
    (harr : ∀ p ∈ ps, p.arrival_time < 1000000000)
    (hpos : ∀ p ∈ ps, 0 < p.pid) (hnd : (ps.map (·.pid)).Nodup) :
    durSum s'.gantt = finalCompletionTime s'.procs - firstStartTime s'.gantt ∧
    ∀ p ∈ s'.procs, busyDur p.pid s'.gantt = p.burst_time := by
  obtain ⟨core, hall⟩ := rr_terminal h hb hc hr harr
  have gv := rr_terminal_gantt h hb hc hr hpos hnd
  have hbusy : ∀ p ∈ s'.procs, busyDur p.pid s'.gantt = p.burst_time := by
    intro p hp
    rcases List.getElem?_of_mem hp with ⟨i, hi⟩
    have hbi := gv.busy i p hi
    rw [core.comp_rem p hp (hall p hp)] at hbi
    omega
  refine ⟨?_, hbusy⟩
  have hlen : s'.procs.length = ps.length := frame_length core.frame
  have hne' : s'.procs ≠ [] := by
    intro hnil
    rw [hnil] at hlen
    exact hne (List.length_eq_zero.1 hlen.symm)
  obtain ⟨p1, hp1⟩ := List.exists_mem_of_ne_nil s'.procs hne'
  have hgne : s'.gantt ≠ [] := gantt_ne_nil_of_busy (hbusy p1 hp1) (core.bursts p1 hp1)
  obtain ⟨hdur, _⟩ := gantt_totals core.trace hgne
  have hcb : ∀ p ∈ s'.procs, p.completion_time ≤ s'.time :=
    fun p hp => (core.cbounds p hp (hall p hp)).2
  have hcnt : s'.completedCount = s'.procs.length := by
    rw [core.count]
    rw [List.countP_eq_length.2 ?_]
    intro p hp
    simpa using hall p hp
  have hex : ∃ p ∈ s'.procs, p.completion_time = s'.time := by
    rcases core.lastComp hcnt with hnil | ⟨p2, hp2, _, he2⟩
    · exact absurd hnil hne'
    · exact ⟨p2, hp2, he2⟩
  have htpos : 0 ≤ s'.time := by
    obtain ⟨p2, hp2, he2⟩ := hex
    have h1 := (core.cbounds p2 hp2 (hall p2 hp2)).1
    have h2 : 0 ≤ p2.arrival_time :=
      frame_transport core.frame (fun _ a _ => 0 ≤ a) (fun r hr' => ha r hr') p2 hp2
    have h3 := core.bursts p2 hp2
    omega
  rw [hdur, finalCompletion_eq hcb hex htpos]

/-- C5: Round Robin with quantum 2 on the processes (1,0,4,0) and (2,1,3,0)
produces exactly the Gantt trace P1[0,2), P2[2,4), P1[4,6), P2[6,7) and the
completion times P1 = 6, P2 = 7. -/
theorem C5_rr_example_trace :
    ∃ s, preemptive_algorithm 2 12 (rows_rr_example.map load_row) = some s ∧
      s.gantt = [⟨1, 0, 2⟩, ⟨2, 2, 4⟩, ⟨1, 4, 6⟩, ⟨2, 6, 7⟩] ∧
      s.procs.map (fun p => (p.pid, p.completion_time)) = [(1, 6), (2, 7)] :=
  ⟨_, rfl, by decide, by decide⟩

/-- C6: SJF on (1,0,5,0), (2,1,3,0), (3,2,8,0) runs P1 over [0,5), P2 over
[5,8), P3 over [8,16); the metrics calculator then reports waiting times
0, 4, 6 and average waiting time 10/3. -/
theorem C6_sjf_example :
    ∃ s, non_preemptive_algorithm_2 5 (rows_sjf_example.map load_row) = some s ∧
      s.gantt = [⟨1, 0, 5⟩, ⟨2, 5, 8⟩, ⟨3, 8, 16⟩] ∧
      ∃ upd wavg tavg, calculate_metrics s.procs = some (upd, wavg, tavg) ∧
        upd.map (·.waiting_time) = [0, 4, 6] ∧ wavg = 10 / 3 :=
  ⟨_, rfl, by decide, _, _, _, rfl, by decide, rfl⟩

theorem rr_iter_done {quantum : Int} {s : RRState}
    (h : ¬ s.completedCount < s.procs.length) :
    ∀ n, rr_iter quantum n s = Sum.inl s := by
  intro n
  cases n with
  | zero => rw [rr_iter]
  | succ n => rw [rr_iter, if_neg h]

theorem rr_iter_add (quantum : Int) : ∀ (m n : Nat) (s : RRState),
    rr_iter quantum (m + n) s =
      match rr_iter quantum m s with
      | Sum.inl s1 => rr_iter quantum n s1
      | Sum.inr s1 => Sum.inr s1 := by
  intro m
  induction m with
  | zero =>
    intro n s
    rw [Nat.zero_add]
    rw [show rr_iter quantum 0 s = Sum.inl s from rfl]
  | succ m ih =>
    intro n s
    rw [show m + 1 + n = (m + n) + 1 from by omega]
    conv_lhs => rw [rr_iter]
    conv_rhs => rw [rr_iter]
    by_cases hlt : s.completedCount < s.procs.length
    · rw [if_pos hlt, if_pos hlt]
      cases hstep : rr_step quantum s with
      | inl s1 =>
        show rr_iter quantum (m + n) s1 =
          match rr_iter quantum m s1 with
          | Sum.inl s2 => rr_iter quantum n s2
          | Sum.inr s2 => Sum.inr s2
        exact ih n s1
      | inr s1 =>
        show (Sum.inr s1 : RRState ⊕ RRState) = Sum.inr s1
        rfl
    · rw [if_neg hlt, if_neg hlt]
      show (Sum.inl s : RRState ⊕ RRState) = rr_iter quantum n s
      exact (rr_iter_done hlt n).symm

theorem rr_run_of_iter {quantum : Int} : ∀ (n : Nat) (s s' : RRState),
    rr_iter quantum n s = Sum.inl s' → ¬ s'.completedCount < s'.procs.length →
    rr_run quantum (n + 1) s = some s' := by
  intro n
  induction n with
  | zero =>
    intro s s' h hdone
    rw [rr_iter] at h
    have hs : s = s' := Sum.inl.inj h
    subst hs
    rw [rr_run, if_neg hdone]
  | succ n ih =>
    intro s s' h hdone
    rw [rr_iter] at h
    rw [rr_run]
    by_cases hlt : s.completedCount < s.procs.length
    · rw [if_pos hlt] at h ⊢
      cases hstep : rr_step quantum s with
      | inl s1 =>
        rw [hstep] at h
        have h2 : rr_iter quantum n s1 = Sum.inl s' := h
        show rr_run quantum (n + 1) s1 = some s'
        exact ih s1 s' h2 hdone
      | inr s1 =>
        rw [hstep] at h
        have h2 : (Sum.inr s1 : RRState ⊕ RRState) = Sum.inl s' := h
        cases h2
    · rw [if_neg hlt] at h ⊢
      have hs : s = s' := Sum.inl.inj h
      subst hs
      rfl

set_option maxRecDepth 40000 in
theorem c9_run : rr_run 1 1002 (rr_initState (rows_overflow.map load_row)) = some c9final := by
  have h0 : rr_iter 1 100 (rr_initState (rows_overflow.map load_row)) = Sum.inl (c9state 100) := by decide
  have h1 : rr_iter 1 100 (c9state 100) = Sum.inl (c9state 200) := by decide
  have h2 : rr_iter 1 100 (c9state 200) = Sum.inl (c9state 300) := by decide
  have h3 : rr_iter 1 100 (c9state 300) = Sum.inl (c9state 400) := by decide
  have h4 : rr_iter 1 100 (c9state 400) = Sum.inl (c9state 500) := by decide
  have h5 : rr_iter 1 100 (c9state 500) = Sum.inl (c9state 600) := by decide
  have h6 : rr_iter 1 100 (c9state 600) = Sum.inl (c9state 700) := by decide
  have h7 : rr_iter 1 100 (c9state 700) = Sum.inl (c9state 800) := by decide
  have h8 : rr_iter 1 100 (c9state 800) = Sum.inl (c9state 900) := by decide
  have h9 : rr_iter 1 101 (c9state 900) = Sum.inl c9final := by decide
  have hiter : rr_iter 1 1001 (rr_initState (rows_overflow.map load_row)) = Sum.inl c9final := by
    rw [show (1001 : Nat) = 100 + 901 from rfl, rr_iter_add 1 100 901 _, h0]
    show rr_iter 1 901 (c9state 100) = Sum.inl c9final
    rw [show (901 : Nat) = 100 + 801 from rfl, rr_iter_add 1 100 801 _, h1]
    show rr_iter 1 801 (c9state 200) = Sum.inl c9final
    rw [show (801 : Nat) = 100 + 701 from rfl, rr_iter_add 1 100 701 _, h2]
    show rr_iter 1 701 (c9state 300) = Sum.inl c9final
    rw [show (701 : Nat) = 100 + 601 from rfl, rr_iter_add 1 100 601 _, h3]
    show rr_iter 1 601 (c9state 400) = Sum.inl c9final
    rw [show (601 : Nat) = 100 + 501 from rfl, rr_iter_add 1 100 501 _, h4]
    show rr_iter 1 501 (c9state 500) = Sum.inl c9final
    rw [show (501 : Nat) = 100 + 401 from rfl, rr_iter_add 1 100 401 _, h5]
    show rr_iter 1 401 (c9state 600) = Sum.inl c9final
    rw [show (401 : Nat) = 100 + 301 from rfl, rr_iter_add 1 100 301 _, h6]
    show rr_iter 1 301 (c9state 700) = Sum.inl c9final
    rw [show (301 : Nat) = 100 + 201 from rfl, rr_iter_add 1 100 201 _, h7]
    show rr_iter 1 201 (c9state 800) = Sum.inl c9final
    rw [show (201 : Nat) = 100 + 101 from rfl, rr_iter_add 1 100 101 _, h8]
    show rr_iter 1 101 (c9state 900) = Sum.inl c9final
    exact h9
  exact rr_run_of_iter 1001 _ _ hiter (by decide)

/-- C9: the claimed queue-capacity bound fails: a single process (at most 100
processes) with burst time 1001 under quantum 1 drives the ready-queue write
index `rear` to 1001, one past the queue array's 1000 entries, so the final
`queue[rear++]` writes out of bounds in the C code. -/
theorem C9_queue_overflow :
    ∃ s, preemptive_algorithm 1 1002 (rows_overflow.map load_row) = some s ∧
      s.rear = 1001 ∧ 1000 < s.rear ∧ (rows_overflow.map load_row).length ≤ 100 := by
  refine ⟨c9final, ?_, by decide, by decide, by decide⟩
  show rr_run (rr_quantum 1) 1002 (rr_initState (rows_overflow.map load_row)) = some c9final
  rw [show rr_quantum 1 = 1 from rfl]
  exact c9_run

theorem calculate_metrics_eq (ps : List Process) :
    calculate_metrics ps =
      if ps.length = 0 then none
      else some (ps.map (fun p => { p with
          turnaround_time := p.completion_time - p.arrival_time,
          waiting_time := p.completion_time - p.arrival_time - p.burst_time }),
        ((((ps.map (fun p => { p with
          turnaround_time := p.completion_time - p.arrival_time,
          waiting_time := p.completion_time - p.arrival_time - p.burst_time })).map (·.waiting_time)).sum : Int) : ℚ) / (ps.length : ℚ),
        ((((ps.map (fun p => { p with
          turnaround_time := p.completion_time - p.arrival_time,
          waiting_time := p.completion_time - p.arrival_time - p.burst_time })).map (·.turnaround_time)).sum : Int) : ℚ) / (ps.length : ℚ)) := rfl

/-- C7: the metrics calculator fails (no numeric result, modelled as `none`)
exactly when the process count is zero; for every non-empty input it updates
`turnaround_time = completion - arrival` and `waiting_time = turnaround - burst`
and returns the arithmetic means of the waiting and turnaround times (each
mean times the process count equals the corresponding sum). -/
theorem C7_metrics :
    calculate_metrics [] = none ∧
    ∀ ps : List Process, ps ≠ [] →
      ∃ upd wavg tavg, calculate_metrics ps = some (upd, wavg, tavg) ∧
        upd = ps.map (fun p => { p with
          turnaround_time := p.completion_time - p.arrival_time,
          waiting_time := p.completion_time - p.arrival_time - p.burst_time }) ∧
        wavg * (ps.length : ℚ) = (((upd.map (·.waiting_time)).sum : Int) : ℚ) ∧
        tavg * (ps.length : ℚ) = (((upd.map (·.turnaround_time)).sum : Int) : ℚ) := by
  constructor
  · rfl
  · intro ps hne
    have hlen : ¬ ps.length = 0 := fun h => hne (List.length_eq_zero.1 h)
    have hq : ((ps.length : ℚ)) ≠ 0 := by
      rw [Nat.cast_ne_zero]
      exact hlen
    refine ⟨ps.map (fun p => { p with
        turnaround_time := p.completion_time - p.arrival_time,
        waiting_time := p.completion_time - p.arrival_time - p.burst_time }),
      ((((ps.map (fun p => { p with
        turnaround_time := p.completion_time - p.arrival_time,
        waiting_time := p.completion_time - p.arrival_time - p.burst_time })).map (·.waiting_time)).sum : Int) : ℚ) / (ps.length : ℚ),
      ((((ps.map (fun p => { p with
        turnaround_time := p.completion_time - p.arrival_time,
        waiting_time := p.completion_time - p.arrival_time - p.burst_time })).map (·.turnaround_time)).sum : Int) : ℚ) / (ps.length : ℚ),
      ?_, rfl, ?_, ?_⟩
    · rw [calculate_metrics_eq, if_neg hlen]
    · exact div_mul_cancel₀ _ hq
    · exact div_mul_cancel₀ _ hq

/-- C7 witness: the general statement applied to a concrete one-process list. -/
theorem C7_witness :
    ∃ upd wavg tavg, calculate_metrics (rows_late.map load_row) = some (upd, wavg, tavg) ∧
      upd = (rows_late.map load_row).map (fun p => { p with
        turnaround_time := p.completion_time - p.arrival_time,
        waiting_time := p.completion_time - p.arrival_time - p.burst_time }) ∧
      wavg * ((rows_late.map load_row).length : ℚ) = (((upd.map (·.waiting_time)).sum : Int) : ℚ) ∧
      tavg * ((rows_late.map load_row).length : ℚ) = (((upd.map (·.turnaround_time)).sum : Int) : ℚ) :=
  C7_metrics.2 (rows_late.map load_row) (by decide)

/-- C1 (amended): conditional on termination, on a fresh non-empty workspace
with non-negative arrivals and positive bursts, every process ends completed
with completionTime at least arrivalTime + burstTime under all three policies
(for Round Robin provided every arrival is below the 10^9 next-arrival
sentinel); the claimed equality is refuted by `C1_counterexample`. -/
theorem C1_completion (ps : List Process)
    (hne : ps ≠ [])
    (ha : ∀ p ∈ ps, 0 ≤ p.arrival_time)
    (hb : ∀ p ∈ ps, 0 < p.burst_time)
    (hc : ∀ p ∈ ps, p.completed = false)
    (hr : ∀ p ∈ ps, p.remaining_time = p.burst_time) :
    (∀ fuel s', modified_FCFS_with_aging fuel ps = some s' →
      ∀ p ∈ s'.procs, p.completed = true ∧ p.arrival_time + p.burst_time ≤ p.completion_time) ∧
    (∀ fuel s', non_preemptive_algorithm_2 fuel ps = some s' →
      ∀ p ∈ s'.procs, p.completed = true ∧ p.arrival_time + p.burst_time ≤ p.completion_time) ∧
    (∀ q fuel s', (∀ p ∈ ps, p.arrival_time < 1000000000) →
      preemptive_algorithm q fuel ps = some s' →
      ∀ p ∈ s'.procs, p.completed = true ∧ p.arrival_time + p.burst_time ≤ p.completion_time) := by
  refine ⟨?_, ?_, ?_⟩
  · intro fuel s' h p hp
    obtain ⟨core, _, hall⟩ := np_terminal mfcfs_selectSpec h hb hc
    exact ⟨hall p hp, (core.cbounds p hp (hall p hp)).1⟩
  · intro fuel s' h p hp
    obtain ⟨core, _, hall⟩ := np_terminal sjf_selectSpec h hb hc
    exact ⟨hall p hp, (core.cbounds p hp (hall p hp)).1⟩
  · intro q fuel s' harr h p hp
    obtain ⟨core, hall⟩ := rr_terminal h hb hc hr harr
    exact ⟨hall p hp, (core.cbounds p hp (hall p hp)).1⟩

/-- C1 witness: the amended completion bound, instantiated on a concrete
two-process input for each of the three policies. -/
theorem C1_witness :
    (∃ s', modified_FCFS_with_aging 5 (rows_pair.map load_row) = some s' ∧
      ∀ p ∈ s'.procs, p.completed = true ∧ p.arrival_time + p.burst_time ≤ p.completion_time) ∧
    (∃ s', non_preemptive_algorithm_2 5 (rows_pair.map load_row) = some s' ∧
      ∀ p ∈ s'.procs, p.completed = true ∧ p.arrival_time + p.burst_time ≤ p.completion_time) ∧
    (∃ s', preemptive_algorithm 2 12 (rows_pair.map load_row) = some s' ∧
      ∀ p ∈ s'.procs, p.completed = true ∧ p.arrival_time + p.burst_time ≤ p.completion_time) :=
  ⟨⟨_, rfl, (C1_completion (rows_pair.map load_row) (by decide) (by decide) (by decide)
      (by decide) (by decide)).1 5 _ rfl⟩,
   ⟨_, rfl, (C1_completion (rows_pair.map load_row) (by decide) (by decide) (by decide)
      (by decide) (by decide)).2.1 5 _ rfl⟩,
   ⟨_, rfl, (C1_completion (rows_pair.map load_row) (by decide) (by decide) (by decide)
      (by decide) (by decide)).2.2 2 12 _ (by decide) rfl⟩⟩

/-- C1 counterexample: SJF on the valid input (1,0,5,0), (2,1,3,0) finishes
with the second process completed at time 8, strictly later than its
arrivalTime + burstTime = 4, refuting the claimed equality for the
non-preemptive policies. -/
theorem C1_counterexample :
    ∃ s, non_preemptive_algorithm_2 5 (rows_waiting.map load_row) = some s ∧
      ∃ p ∈ s.procs, p.completed = true ∧ p.completion_time ≠ p.arrival_time + p.burst_time :=
  ⟨_, rfl, by decide⟩

/-- C2 (amended): conditional on termination, on a fresh non-empty workspace
with distinct positive pids, non-negative arrivals and positive bursts, the
sum of all Gantt interval durations equals the final completion time minus the
first interval's start time, and the busy time recorded per process id equals
that process's burst time, under all three policies (for Round Robin provided
every arrival is below the 10^9 sentinel); the unconditional per-id busy-time
claim is refuted by `C2_counterexample`. -/
theorem C2_conservation (ps : List Process)
    (hne : ps ≠ [])
    (ha : ∀ p ∈ ps, 0 ≤ p.arrival_time)
    (hb : ∀ p ∈ ps, 0 < p.burst_time)
    (hc : ∀ p ∈ ps, p.completed = false)
    (hr : ∀ p ∈ ps, p.remaining_time = p.burst_time)
    (hpos : ∀ p ∈ ps, 0 < p.pid)
    (hnd : (ps.map (·.pid)).Nodup) :
    (∀ fuel s', modified_FCFS_with_aging fuel ps = some s' →
      durSum s'.gantt = finalCompletionTime s'.procs - firstStartTime s'.gantt ∧
      ∀ p ∈ s'.procs, busyDur p.pid s'.gantt = p.burst_time) ∧
    (∀ fuel s', non_preemptive_algorithm_2 fuel ps = some s' →
      durSum s'.gantt = finalCompletionTime s'.procs - firstStartTime s'.gantt ∧
      ∀ p ∈ s'.procs, busyDur p.pid s'.gantt = p.burst_time) ∧
    (∀ q fuel s', (∀ p ∈ ps, p.arrival_time < 1000000000) →
      preemptive_algorithm q fuel ps = some s' →
      durSum s'.gantt = finalCompletionTime s'.procs - firstStartTime s'.gantt ∧
      ∀ p ∈ s'.procs, busyDur p.pid s'.gantt = p.burst_time) := by
  refine ⟨?_, ?_, ?_⟩
  · intro fuel s' h
    exact np_conservation mfcfs_selectSpec h hne hb hc ha hpos hnd
  · intro fuel s' h
    exact np_conservation sjf_selectSpec h hne hb hc ha hpos hnd
  · intro q fuel s' harr h
    exact rr_conservation h hne hb hc hr ha harr hpos hnd

/-- C2 witness: conservation instantiated on a concrete two-process input for
each of the three policies. -/
theorem C2_witness :
    (∃ s', modified_FCFS_with_aging 5 (rows_pair.map load_row) = some s' ∧
      durSum s'.gantt = finalCompletionTime s'.procs - firstStartTime s'.gantt ∧
      ∀ p ∈ s'.procs, busyDur p.pid s'.gantt = p.burst_time) ∧
    (∃ s', non_preemptive_algorithm_2 5 (rows_pair.map load_row) = some s' ∧
      durSum s'.gantt = finalCompletionTime s'.procs - firstStartTime s'.gantt ∧
      ∀ p ∈ s'.procs, busyDur p.pid s'.gantt = p.burst_time) ∧
    (∃ s', preemptive_algorithm 2 12 (rows_pair.map load_row) = some s' ∧
      durSum s'.gantt = finalCompletionTime s'.procs - firstStartTime s'.gantt ∧
      ∀ p ∈ s'.procs, busyDur p.pid s'.gantt = p.burst_time) :=
  ⟨⟨_, rfl, (C2_conservation (rows_pair.map load_row) (by decide) (by decide) (by decide)
      (by decide) (by decide) (by decide) (by decide)).1 5 _ rfl⟩,
   ⟨_, rfl, (C2_conservation (rows_pair.map load_row) (by decide) (by decide) (by decide)
      (by decide) (by decide) (by decide) (by decide)).2.1 5 _ rfl⟩,
   ⟨_, rfl, (C2_conservation (rows_pair.map load_row) (by decide) (by decide) (by decide)
      (by decide) (by decide) (by decide) (by decide)).2.2 2 12 _ (by decide) rfl⟩⟩

/-- C2 counterexample: Round Robin with quantum 2 on the valid input
(1,0,1,0), (2,1000000000,1,0) terminates through the next-arrival `break`
with the second process never scheduled, so its recorded busy time 0 differs
from its burst time 1. -/
theorem C2_counterexample :
    ∃ s, preemptive_algorithm 2 10 (rows_sentinel.map load_row) = some s ∧
      ∃ p ∈ s.procs, busyDur p.pid s.gantt ≠ p.burst_time :=
  ⟨_, rfl, by decide⟩

/-- C3: conditional on termination, on a fresh workspace with distinct
positive pids and positive bursts, the recorded Gantt chart of each of the
three policies is contiguous (each end time equals the next start time), has
only positive-duration intervals, and is coalesced (no two adjacent intervals
share an owner id, idle id -1 included). -/
theorem C3_gantt_wellformed (ps : List Process)
    (hb : ∀ p ∈ ps, 0 < p.burst_time)
    (hc : ∀ p ∈ ps, p.completed = false)
    (hr : ∀ p ∈ ps, p.remaining_time = p.burst_time)
    (hpos : ∀ p ∈ ps, 0 < p.pid)
    (hnd : (ps.map (·.pid)).Nodup) :
    (∀ fuel s', modified_FCFS_with_aging fuel ps = some s' →
      contiguous s'.gantt ∧ positiveBlocks s'.gantt ∧ coalesced s'.gantt) ∧
    (∀ fuel s', non_preemptive_algorithm_2 fuel ps = some s' →
      contiguous s'.gantt ∧ positiveBlocks s'.gantt ∧ coalesced s'.gantt) ∧
    (∀ q fuel s', preemptive_algorithm q fuel ps = some s' →
      contiguous s'.gantt ∧ positiveBlocks s'.gantt ∧ coalesced s'.gantt) := by
  refine ⟨?_, ?_, ?_⟩
  · intro fuel s' h
    obtain ⟨core, _, hall⟩ := np_terminal mfcfs_selectSpec h hb hc
    have gv := np_terminal_gantt mfcfs_selectSpec h hb hc hpos hnd
    refine ⟨core.trace.contig, core.trace.pos, ?_⟩
    rcases gv.coal with hco | ⟨p, hp, hpc, _⟩
    · exact hco
    · rw [hall p hp] at hpc
      exact Bool.noConfusion hpc
  · intro fuel s' h
    obtain ⟨core, _, hall⟩ := np_terminal sjf_selectSpec h hb hc
    have gv := np_terminal_gantt sjf_selectSpec h hb hc hpos hnd
    refine ⟨core.trace.contig, core.trace.pos, ?_⟩
    rcases gv.coal with hco | ⟨p, hp, hpc, _⟩
    · exact hco
    · rw [hall p hp] at hpc
      exact Bool.noConfusion hpc
  · intro q fuel s' h
    have gv := rr_terminal_gantt h hb hc hr hpos hnd
    have hq1 : 1 ≤ rr_quantum q := by unfold rr_quantum; split <;> omega
    unfold preemptive_algorithm at h
    have hm := rr_run_master hq1 fuel (rr_initState ps) (rrCore_init hb hc hr) s' h
    exact ⟨hm.1.trace.contig, hm.1.trace.pos, gv.coal⟩

/-- C3 witness: the Gantt well-formedness statement instantiated on a concrete
two-process input for each of the three policies. -/
theorem C3_witness :
    (∃ s', modified_FCFS_with_aging 5 (rows_pair.map load_row) = some s' ∧
      contiguous s'.gantt ∧ positiveBlocks s'.gantt ∧ coalesced s'.gantt) ∧
    (∃ s', non_preemptive_algorithm_2 5 (rows_pair.map load_row) = some s' ∧
      contiguous s'.gantt ∧ positiveBlocks s'.gantt ∧ coalesced s'.gantt) ∧
    (∃ s', preemptive_algorithm 2 12 (rows_pair.map load_row) = some s' ∧
      contiguous s'.gantt ∧ positiveBlocks s'.gantt ∧ coalesced s'.gantt) :=
  ⟨⟨_, rfl, (C3_gantt_wellformed (rows_pair.map load_row) (by decide) (by decide) (by decide)
      (by decide) (by decide)).1 5 _ rfl⟩,
   ⟨_, rfl, (C3_gantt_wellformed (rows_pair.map load_row) (by decide) (by decide) (by decide)
      (by decide) (by decide)).2.1 5 _ rfl⟩,
   ⟨_, rfl, (C3_gantt_wellformed (rows_pair.map load_row) (by decide) (by decide) (by decide)
      (by decide) (by decide)).2.2 2 12 _ rfl⟩⟩

/-- C4: at a decision point at time t the aging policy's selection scans the
not-completed, already-arrived candidates; when one exists the scan returns a
real (index, record) pair that dominates every candidate: its score
(t - arrival) * 2 - burst * 1/2 - priority * 3 is strictly larger, or lies
within the 0.001 tolerance band and its arrival time is no later; the 0.001
band coincides with exact score equality (scores are half-integers); and the
selected process then runs to completion atomically in one appended Gantt
interval with completionTime = t + burstTime. -/
theorem C4_aging_selection (ps : List Process) (t : Int) :
    ((∃ p ∈ ps, p.completed = false ∧ p.arrival_time ≤ t) → mfcfs_select ps t ≠ none) ∧
    (∀ k p, mfcfs_select ps t = some (k, p) →
      ps[k]? = some p ∧ p.completed = false ∧ p.arrival_time ≤ t ∧
      ∀ (j : Nat) (q : Process), ps[j]? = some q → q.completed = false → q.arrival_time ≤ t →
        mfcfs_score t q < mfcfs_score t p ∨
          (|mfcfs_score t q - mfcfs_score t p| ≤ 1 / 1000 ∧ p.arrival_time ≤ q.arrival_time)) ∧
    (∀ p q : Process, |mfcfs_score t p - mfcfs_score t q| ≤ 1 / 1000 ↔
      mfcfs_score t p = mfcfs_score t q) ∧
    (∀ s k p, mfcfs_select s.procs s.time = some (k, p) →
      (np_step mfcfs_select s).gantt = s.gantt ++ [⟨p.pid, s.time, s.time + p.burst_time⟩] ∧
      (np_step mfcfs_select s).time = s.time + p.burst_time ∧
      (np_step mfcfs_select s).procs =
        s.procs.set k { p with completion_time := s.time + p.burst_time, completed := true }) := by
  refine ⟨?_, ?_, ?_, ?_⟩
  · intro hex hnone
    obtain ⟨p, hp, hpc, hpa⟩ := hex
    exact mfcfs_select_none hnone p hp hpc hpa
  · intro k p h
    obtain ⟨hk, hcp, hap⟩ := mfcfs_select_valid h
    refine ⟨hk, hcp, hap, ?_⟩
    intro j q hj hqc hqa
    rcases mfcfs_select_dom h j q hj hqc hqa with hlt | ⟨heq, harr⟩
    · exact Or.inl hlt
    · exact Or.inr ⟨(score_band_eq_iff t q p).2 heq, harr⟩
  · intro p q
    exact score_band_eq_iff t p q
  · intro s k p h
    rw [np_step_some h]
    exact ⟨rfl, rfl, rfl⟩

/-- C4 witness: the selection dominance applied at time 2 on a concrete
one-process input, where the scan picks index 0. -/
theorem C4_witness :
    (rows_late.map load_row)[0]? = some (load_row (1, 2, 1, 0)) ∧
    (load_row (1, 2, 1, 0)).completed = false ∧
    (load_row (1, 2, 1, 0)).arrival_time ≤ 2 ∧
    ∀ (j : Nat) (q : Process), (rows_late.map load_row)[j]? = some q →
      q.completed = false → q.arrival_time ≤ 2 →
      mfcfs_score 2 q < mfcfs_score 2 (load_row (1, 2, 1, 0)) ∨
        (|mfcfs_score 2 q - mfcfs_score 2 (load_row (1, 2, 1, 0))| ≤ 1 / 1000 ∧
          (load_row (1, 2, 1, 0)).arrival_time ≤ q.arrival_time) :=
  (C4_aging_selection (rows_late.map load_row) 2).2.1 0 (load_row (1, 2, 1, 0)) (by decide)

/-- C8: no policy run reachable through `run_algorithm` changes any record's
pid, arrivalTime, burstTime or priority: the returned working records project
to the same four-field keys as the loaded records, the working array is a
reset element-wise copy of the loaded records with the same keys, and the
copy step is the identity on the loaded records themselves. -/
theorem C8_frame :
    (∀ (original : List Process) (choice q : Int) (fuel : Nat) out,
      run_algorithm original choice q fuel = some out →
      out.1.map keyOf = original.map keyOf) ∧
    (∀ original : List Process,
      (reset_processes (copy_processes original)).map keyOf = original.map keyOf) ∧
    (∀ original : List Process, copy_processes original = original) := by
  refine ⟨?_, ?_, fun _ => rfl⟩
  · intro original choice q fuel out h
    rw [run_algorithm_eq] at h
    by_cases hlen : original.length ≤ 0
    · rw [if_pos hlen] at h
      cases h
    · rw [if_neg hlen] at h
      by_cases h1 : choice = 1
      · rw [if_pos h1] at h
        obtain ⟨s, hs, hout⟩ := Option.map_eq_some'.1 h
        have hfr := rr_run_frame fuel (rr_initState (reset_processes (copy_processes original))) s hs
        rw [← hout]
        show s.procs.map keyOf = original.map keyOf
        rw [hfr]
        show (reset_processes (copy_processes original)).map keyOf = original.map keyOf
        exact reset_keyOf original
      · rw [if_neg h1] at h
        by_cases h2 : choice = 2
        · rw [if_pos h2] at h
          obtain ⟨s, hs, hout⟩ := Option.map_eq_some'.1 h
          have hfr := np_run_frame mfcfs_selectSpec fuel
            ⟨reset_processes (copy_processes original), 0, 0, []⟩ s hs
          rw [← hout]
          show s.procs.map keyOf = original.map keyOf
          rw [hfr]
          show (reset_processes (copy_processes original)).map keyOf = original.map keyOf
          exact reset_keyOf original
        · rw [if_neg h2] at h
          by_cases h3 : choice = 3
          · rw [if_pos h3] at h
            obtain ⟨s, hs, hout⟩ := Option.map_eq_some'.1 h
            have hfr := np_run_frame sjf_selectSpec fuel
              ⟨reset_processes (copy_processes original), 0, 0, []⟩ s hs
            rw [← hout]
            show s.procs.map keyOf = original.map keyOf
            rw [hfr]
            show (reset_processes (copy_processes original)).map keyOf = original.map keyOf
            exact reset_keyOf original
          · rw [if_neg h3] at h
            cases h
  · intro original
    exact reset_keyOf original

/-- C8 witness: the frame property applied to a concrete Round-Robin run
through `run_algorithm`. -/
theorem C8_witness :
    ∃ out, run_algorithm (rows_pair.map load_row) 1 2 12 = some out ∧
      out.1.map keyOf = (rows_pair.map load_row).map keyOf :=
  ⟨_, rfl, C8_frame.1 (rows_pair.map load_row) 1 2 12 _ rfl⟩

/-- C10 (amended): Round Robin starts its clock at the minimum arrival time
(equal to it for non-negative arrivals), so on a fresh non-empty workspace its
first recorded Gantt block is a busy block (owner id not -1) starting at the
minimum arrival time and no block starts before it. When no process arrives
at time 0 the two non-preemptive policies first record the IDLE interval
[0, minimum arrival) provided the minimum arrival is below their 999999
next-arrival sentinel; when every process arrives at or after 999999 their
idle scan never moves the clock, nothing is ever recorded, and the loop never
terminates (see `C10_counterexample`). -/
theorem C10_initial_clock (ps : List Process)
    (hne : ps ≠ [])
    (ha : ∀ p ∈ ps, 0 ≤ p.arrival_time)
    (hb : ∀ p ∈ ps, 0 < p.burst_time)
    (hc : ∀ p ∈ ps, p.completed = false)
    (hr : ∀ p ∈ ps, p.remaining_time = p.burst_time)
    (hpos : ∀ p ∈ ps, 0 < p.pid) :
    rr_t0 ps = earliest_arrival ps ∧
    (∀ q fuel s', preemptive_algorithm q fuel ps = some s' →
      ∃ b, s'.gantt.head? = some b ∧ b.pid ≠ -1 ∧ b.start_time = earliest_arrival ps ∧
        ∀ c ∈ s'.gantt, earliest_arrival ps ≤ c.start_time) ∧
    (0 < earliest_arrival ps →
      (earliest_arrival ps < 999999 →
        (∀ fuel s', modified_FCFS_with_aging fuel ps = some s' →
          s'.gantt.head? = some ⟨-1, 0, earliest_arrival ps⟩) ∧
        (∀ fuel s', non_preemptive_algorithm_2 fuel ps = some s' →
          s'.gantt.head? = some ⟨-1, 0, earliest_arrival ps⟩)) ∧
      (999999 ≤ earliest_arrival ps →
        (∀ fuel, modified_FCFS_with_aging fuel ps = none) ∧
        (∀ fuel, non_preemptive_algorithm_2 fuel ps = none))) := by
  obtain ⟨⟨p0, hp0, hp0e⟩, hmin⟩ := earliest_arrival_min hne
  have h0e : 0 ≤ earliest_arrival ps := by
    rw [hp0e]
    exact ha p0 hp0
  have ht0 : rr_t0 ps = earliest_arrival ps := rr_t0_eq h0e
  refine ⟨ht0, ?_, ?_⟩
  · intro q fuel s' h
    have hq1 : 1 ≤ rr_quantum q := by unfold rr_quantum; split <;> omega
    unfold preemptive_algorithm at h
    cases fuel with
    | zero =>
      rw [rr_run] at h
      cases h
    | succ fuel =>
      rw [rr_run] at h
      have hlen : (rr_initState ps).completedCount < (rr_initState ps).procs.length := by
        show 0 < ps.length
        exact List.length_pos.2 hne
      rw [if_pos hlen] at h
      obtain ⟨hfirst, hninr⟩ := rr_first_step hq1 hne hpos hb hc hr
      cases hstep : rr_step (rr_quantum q) (rr_initState ps) with
      | inr s1 => exact absurd hstep (hninr s1)
      | inl s1 =>
        rw [hstep] at h
        obtain ⟨b1, hb1, hb1p, hb1s⟩ := hfirst s1 hstep
        obtain ⟨b, hbh, hbp, hbs⟩ := rr_run_head fuel s1 s' b1 hb1 h
        have hm := rr_run_master hq1 fuel s1
          ((rrCore_step (rrCore_init hb hc hr) hq1 hlen).1 s1 hstep) s' h
        refine ⟨b, hbh, ?_, ?_, ?_⟩
        · rw [hbp]
          omega
        · rw [hbs, hb1s, ht0]
        · intro c hcmem
          have hle := contig_start_ge s'.gantt hm.1.trace.contig hm.1.trace.pos b hbh c hcmem
          rw [hbs, hb1s, ht0] at hle
          exact hle
  · intro hpos0
    have hposarr : ∀ p ∈ ps, 0 < p.arrival_time := by
      intro p hp
      have := hmin p hp
      omega
    constructor
    · intro hlt999
      exact ⟨fun fuel s' h => np_first_idle mfcfs_selectSpec hne hposarr hlt999 hc fuel s' h,
             fun fuel s' h => np_first_idle sjf_selectSpec hne hposarr hlt999 hc fuel s' h⟩
    · intro hbig
      exact ⟨np_never_idle mfcfs_selectSpec hne hposarr hbig,
             np_never_idle sjf_selectSpec hne hposarr hbig⟩

/-- C10 witness: the amended initial-clock statement applied to the concrete
input (1,2,1,0) arriving at time 2 (all three policies), and to the input
(1,999999,1,0) at the sentinel (non-preemptive divergence branch). -/
theorem C10_witness :
    (∃ s', preemptive_algorithm 2 6 (rows_late.map load_row) = some s' ∧
      ∃ b, s'.gantt.head? = some b ∧ b.pid ≠ -1 ∧
        b.start_time = earliest_arrival (rows_late.map load_row) ∧
        ∀ c ∈ s'.gantt, earliest_arrival (rows_late.map load_row) ≤ c.start_time) ∧
    (∃ s', modified_FCFS_with_aging 6 (rows_late.map load_row) = some s' ∧
      s'.gantt.head? = some ⟨-1, 0, earliest_arrival (rows_late.map load_row)⟩) ∧
    (∃ s', non_preemptive_algorithm_2 6 (rows_late.map load_row) = some s' ∧
      s'.gantt.head? = some ⟨-1, 0, earliest_arrival (rows_late.map load_row)⟩) ∧
    (∀ fuel, modified_FCFS_with_aging fuel (rows_idle_sentinel.map load_row) = none) ∧
    (∀ fuel, non_preemptive_algorithm_2 fuel (rows_idle_sentinel.map load_row) = none) :=
  ⟨⟨_, rfl, (C10_initial_clock (rows_late.map load_row) (by decide) (by decide) (by decide)
      (by decide) (by decide) (by decide)).2.1 2 6 _ rfl⟩,
   ⟨_, rfl, (((C10_initial_clock (rows_late.map load_row) (by decide) (by decide) (by decide)
      (by decide) (by decide) (by decide)).2.2 (by decide)).1 (by decide)).1 6 _ rfl⟩,
   ⟨_, rfl, (((C10_initial_clock (rows_late.map load_row) (by decide) (by decide) (by decide)
      (by decide) (by decide) (by decide)).2.2 (by decide)).1 (by decide)).2 6 _ rfl⟩,
   (((C10_initial_clock (rows_idle_sentinel.map load_row) (by decide) (by decide) (by decide)
      (by decide) (by decide) (by decide)).2.2 (by decide)).2 (by decide)).1,
   (((C10_initial_clock (rows_idle_sentinel.map load_row) (by decide) (by decide) (by decide)
      (by decide) (by decide) (by decide)).2.2 (by decide)).2 (by decide)).2⟩

/-- C10 counterexample: on the valid input (1,999999,1,0) no process arrives
at time 0, yet neither non-preemptive policy ever records the claimed IDLE
interval [0, first arrival): the idle scan cannot beat its own 999999 seed,
so one loop iteration leaves the initial state (with its empty chart)
unchanged and the loop never terminates, whatever the fuel. -/
theorem C10_counterexample :
    (∀ p ∈ rows_idle_sentinel.map load_row, 0 < p.arrival_time) ∧
    np_step mfcfs_select ⟨rows_idle_sentinel.map load_row, 0, 0, []⟩ =
      ⟨rows_idle_sentinel.map load_row, 0, 0, []⟩ ∧
    np_step sjf_select ⟨rows_idle_sentinel.map load_row, 0, 0, []⟩ =
      ⟨rows_idle_sentinel.map load_row, 0, 0, []⟩ ∧
    (∀ fuel, modified_FCFS_with_aging fuel (rows_idle_sentinel.map load_row) = none) ∧
    (∀ fuel, non_preemptive_algorithm_2 fuel (rows_idle_sentinel.map load_row) = none) := by
  refine ⟨by decide, by decide, by decide, ?_, ?_⟩
  · intro fuel
    exact np_run_stuck fuel ⟨rows_idle_sentinel.map load_row, 0, 0, []⟩
      (by decide) (by decide) (by decide)
  · intro fuel
    exact np_run_stuck fuel ⟨rows_idle_sentinel.map load_row, 0, 0, []⟩
      (by decide) (by decide) (by decide)
